import Mathlib

/-!
Verification of the deflate-rs DEFLATE encoder.

The development shallowly embeds the encoder of the repository.  The top-level
driver (`block_type_for_length`, `compress_data_fixed`, `compress_data_dynamic`,
`deflate_bytes`, `deflate_bytes_zlib`) is translated from `src/lib.rs`.  The
helper modules it uses (`huffman_table`, `lz77`, `chained_hash_table`,
`length_encode`, `output_writer`, `stored_block`, `huffman_lengths`, `zlib`,
`checksum`, `bitstream`, `encoder_state`) are not part of the sources given, so
their definitions are modelled from the specification; each such definition
carries a doc comment saying so.

Bytes are natural numbers (meaningful values are below 256).  The bit-packed
output stream is modelled as a list of booleans in stream order: the first bit
of the list is the first bit emitted, which DEFLATE places in the least
significant position of the first output byte.  The byte writer of the code is
recovered by `bitsToBytes` once the stream is flushed to a byte boundary.
-/

namespace Deflate

/-! ## Bits and bytes -/

/-- The LSB-first bit field of width `w` for value `v`: exactly what the
bit writer of the code appends for `write_bits(v, w)`. -/
def natBitsLSB (v : Nat) : Nat → List Bool
  | 0 => []
  | w + 1 => (v % 2 = 1) :: natBitsLSB (v / 2) w

/-- Value of an LSB-first bit list. -/
def bitsVal : List Bool → Nat
  | [] => 0
  | b :: r => (if b then 1 else 0) + 2 * bitsVal r

/-- Pack a flushed bit stream into bytes, eight bits per byte, first bit in the
least significant position (a trailing group shorter than eight bits is
padded with zero bits by `bitsVal`). -/
def bitsToBytes : List Bool → List Nat
  | [] => []
  | b0 :: b1 :: b2 :: b3 :: b4 :: b5 :: b6 :: b7 :: rest =>
    bitsVal [b0, b1, b2, b3, b4, b5, b6, b7] :: bitsToBytes rest
  | bits => [bitsVal bits]

/-- Unpack bytes into the bit stream they carry (LSB of each byte first). -/
def bytesBits (bytes : List Nat) : List Bool :=
  bytes.flatMap (fun b => natBitsLSB b 8)

/-- Read an LSB-first bit field of width `n`; `none` if the stream is too
short. -/
def readBitsLSB : Nat → List Bool → Option (Nat × List Bool)
  | 0, stream => some (0, stream)
  | _ + 1, [] => none
  | n + 1, b :: r =>
    (readBitsLSB n r).map (fun p => ((if b then 1 else 0) + 2 * p.1, p.2))

/-! ## checksum.rs (module not in the sources) -/

/-- Modelled from the spec: the `checksum` module is missing from the sources.
A rolling checksum is capability-only: `update_from_slice` and
`current_hash` (spec section 4.10). -/
structure RollingChecksum (σ : Type) where
  update_from_slice : σ → List Nat → σ
  current_hash : σ → Nat

/-- Modelled from the spec: the no-op checksum variant (`NoChecksum`), hash 0. -/
def NoChecksum : RollingChecksum Unit :=
  ⟨fun _ _ => (), fun _ => 0⟩

/-- Modelled from the spec: one Adler-32 step per RFC 1950, state `(s1, s2)`
both reduced modulo 65521. -/
def adler32_step (s : Nat × Nat) (b : Nat) : Nat × Nat :=
  ((s.1 + b) % 65521, (s.2 + (s.1 + b) % 65521) % 65521)

/-- Modelled from the spec: the Adler-32 rolling checksum variant
(`Adler32Checksum`), with final hash `(s2 <<< 16) ||| s1`. -/
def Adler32Checksum : RollingChecksum (Nat × Nat) :=
  ⟨fun s bytes => bytes.foldl adler32_step s, fun s => s.2 * 65536 + s.1⟩

/-- Initial Adler-32 state per RFC 1950. -/
def adler32_init : Nat × Nat := (1, 0)

/-- The Adler-32 hash of a byte sequence. -/
def adler32 (bytes : List Nat) : Nat :=
  Adler32Checksum.current_hash (Adler32Checksum.update_from_slice adler32_init bytes)

/-! ## huffman_table.rs (module not in the sources): DEFLATE symbol tables -/

/-- Modelled from the spec: base match length of each length symbol
`257 + i` (RFC 1951 length table, spec section 4.6). -/
def lengthBase : List Nat :=
  [3, 4, 5, 6, 7, 8, 9, 10, 11, 13, 15, 17, 19, 23, 27, 31, 35, 43, 51, 59] ++
    [67, 83, 99, 115, 131, 163, 195, 227, 258]

/-- Modelled from the spec: number of extra bits of each length symbol
`257 + i`. -/
def lengthExtraBits : List Nat :=
  [0, 0, 0, 0, 0, 0, 0, 0, 1, 1, 1, 1, 2, 2, 2, 2, 3, 3, 3, 3] ++
    [4, 4, 4, 4, 5, 5, 5, 5, 0]

/-- Modelled from the spec: base distance of each distance symbol (RFC 1951
distance table, spec section 4.6). -/
def distBase : List Nat :=
  [1, 2, 3, 4, 5, 7, 9, 13, 17, 25, 33, 49, 65, 97, 129, 193, 257, 385, 513] ++
    [769, 1025, 1537, 2049, 3073, 4097, 6145, 8193, 12289, 16385, 24577]

/-- Modelled from the spec: number of extra bits of each distance symbol. -/
def distExtraBits : List Nat :=
  [0, 0, 0, 0, 1, 1, 2, 2, 3, 3, 4, 4, 5, 5, 6, 6, 7, 7, 8, 8] ++
    [9, 9, 10, 10, 11, 11, 12, 12, 13, 13]

/-- Modelled from the spec: index `i` of the length symbol `257 + i` covering
a match length (the last table entry whose base is not above `len`). -/
def lengthCodeIdx (len : Nat) : Nat :=
  (lengthBase.findIdx (fun b => len < b)) - 1

/-- Modelled from the spec: the distance symbol covering a distance (the last
table entry whose base is not above `dist`). -/
def distCodeIdx (dist : Nat) : Nat :=
  (distBase.findIdx (fun b => dist < b)) - 1

/-- Modelled from the spec: the fixed literal/length code lengths
(0..143 ↦ 8, 144..255 ↦ 9, 256..279 ↦ 7, 280..287 ↦ 8). -/
def FIXED_CODE_LENGTHS : List Nat :=
  List.replicate 144 8 ++ List.replicate 112 9 ++ List.replicate 24 7 ++
    List.replicate 8 8

/-- Modelled from the spec: the fixed distance code lengths (30 codes of
length 5). -/
def FIXED_CODE_LENGTHS_DISTANCE : List Nat := List.replicate 30 5

/-- Modelled from the spec: the maximum code length of the main alphabets. -/
def MAX_CODE_LENGTH : Nat := 15

/-! ## Canonical Huffman codes (huffman_table.rs, modelled from spec 4.3) -/

/-- Modelled from the spec: number of symbols with code length `l` (`bl_count`
of RFC 1951, with length 0 meaning absent and never counted). -/
def bl_count (lengths : List Nat) (l : Nat) : Nat :=
  if l = 0 then 0 else lengths.count l

/-- Modelled from the spec: the first canonical code of each length,
`next_code[l] = (next_code[l-1] + bl_count[l-1]) << 1`. -/
def first_code (lengths : List Nat) : Nat → Nat
  | 0 => 0
  | l + 1 => (first_code lengths l + bl_count lengths l) * 2

/-- Rank of a symbol among the symbols of the same code length that precede
it (canonical codes are assigned in ascending symbol order). -/
def code_rank (lengths : List Nat) (sym : Nat) : Nat :=
  (lengths.take sym).count (lengths.getD sym 0)

/-- Modelled from the spec: the canonical code value of a symbol. -/
def canonical_code (lengths : List Nat) (sym : Nat) : Nat :=
  first_code lengths (lengths.getD sym 0) + code_rank lengths sym

/-- Modelled from the spec: the bits emitted for a symbol.  The code stores
each canonical code bit-reversed and the bit writer emits it LSB-first, which
amounts to emitting the canonical code MSB-first. -/
def code_bits (lengths : List Nat) (sym : Nat) : List Bool :=
  (natBitsLSB (canonical_code lengths sym) (lengths.getD sym 0)).reverse

/-! ## length_encode.rs (module not in the sources): length-limited lengths -/

/-- Modelled from the spec: a Huffman tree built by repeated minimum-two
merges (spec section 4.4). -/
inductive HTree where
  | leaf (sym : Nat)
  | node (l r : HTree)

/-- Modelled from the spec: stable insertion into a weight-sorted forest; a
new entry goes after all entries of weight not above it, so equal weights
tie-break on earliest insertion (the deterministic tie-break the spec
requires). -/
def insert_by_weight (w : Nat) (t : HTree) : List (Nat × HTree) → List (Nat × HTree)
  | [] => [(w, t)]
  | (w2, t2) :: r =>
    if w2 ≤ w then (w2, t2) :: insert_by_weight w t r else (w, t) :: (w2, t2) :: r

theorem insert_by_weight_length (w : Nat) (t : HTree) (xs : List (Nat × HTree)) :
    (insert_by_weight w t xs).length = xs.length + 1 := by
  induction xs with
  | nil => rfl
  | cons x r ih =>
    obtain ⟨w2, t2⟩ := x
    simp only [insert_by_weight]
    split <;> simp [ih]

/-- Modelled from the spec: merge the two minimum-weight trees until a single
tree remains. -/
def build_tree_go : Nat → List (Nat × HTree) → Option HTree
  | 0, _ => none
  | _ + 1, [] => none
  | _ + 1, [(_, t)] => some t
  | fuel + 1, (w1, t1) :: (w2, t2) :: r =>
    build_tree_go fuel (insert_by_weight (w1 + w2) (HTree.node t1 t2) r)

/-- Each merge shortens the forest by one, so the forest length bounds the
recursion. -/
def build_tree (xs : List (Nat × HTree)) : Option HTree :=
  build_tree_go xs.length xs

/-- Depth of every leaf of a tree, in leaf order, starting from depth `d`. -/
def leaf_depths : HTree → Nat → List (Nat × Nat)
  | HTree.leaf s, d => [(s, d)]
  | HTree.node l r, d => leaf_depths l (d + 1) ++ leaf_depths r (d + 1)

/-- Modelled from the spec: `length_encode::huffman_lengths_from_frequency`.
Build a Huffman tree by repeated minimum-two merges with the stable
tie-break; a lone nonzero-frequency symbol gets length 1; if the tree depth
exceeds the cap the rebalancing pass assigns every active symbol the flat
length `ceil(log2 n)` (the spec leaves the rebalancing method open).
Zero-frequency symbols get length 0. -/
def huffman_lengths_from_frequency (freqs : List Nat) (max_len : Nat) : List Nat :=
  let active := (List.range freqs.length).filter (fun s => 0 < freqs.getD s 0)
  match active with
  | [] => List.replicate freqs.length 0
  | [s] => (List.range freqs.length).map (fun i => if i = s then 1 else 0)
  | _ =>
    let forest := active.map (fun s => (freqs.getD s 0, HTree.leaf s))
    let sorted := forest.foldl (fun acc p => insert_by_weight p.1 p.2 acc) []
    match build_tree sorted with
    | none => List.replicate freqs.length 0
    | some t =>
      let ds := leaf_depths t 0
      if ds.all (fun p => p.2 ≤ max_len) then
        (List.range freqs.length).map (fun s => (ds.lookup s).getD 0)
      else
        (List.range freqs.length).map
          (fun s => if 0 < freqs.getD s 0 then Nat.clog 2 active.length else 0)

/-! ## output_writer.rs (module not in the sources) -/

/-- Modelled from the spec: the LZ77 record, a tagged variant of a literal
byte, a length/distance pair, or the end-of-block sentinel. -/
inductive LDPair where
  | Literal (b : Nat)
  | LengthDistance (len : Nat) (dist : Nat)
  | EndOfBlock
deriving DecidableEq

/-- Modelled from the spec: the frequency sink, buffering LZ77 records and
counting literal/length and distance symbol frequencies. -/
structure DynamicWriter where
  buffer : List LDPair
  l_freqs : List Nat
  d_freqs : List Nat

/-- Modelled from the spec: a fresh writer with 286 literal/length counters
and 30 distance counters, all zero. -/
def DynamicWriter.new : DynamicWriter :=
  ⟨[], List.replicate 286 0, List.replicate 30 0⟩

/-- Increment one counter of a frequency array. -/
def bump (xs : List Nat) (i : Nat) : List Nat :=
  xs.set i (xs.getD i 0 + 1)

/-- Modelled from the spec: accept one LZ77 record: buffer it and count its
symbols (the record of symbol 256 for end-of-block included). -/
def DynamicWriter.write (w : DynamicWriter) (ld : LDPair) : DynamicWriter :=
  match ld with
  | LDPair.Literal b => ⟨w.buffer ++ [ld], bump w.l_freqs b, w.d_freqs⟩
  | LDPair.LengthDistance len dist =>
    ⟨w.buffer ++ [ld], bump w.l_freqs (257 + lengthCodeIdx len),
      bump w.d_freqs (distCodeIdx dist)⟩
  | LDPair.EndOfBlock => ⟨w.buffer ++ [ld], bump w.l_freqs 256, w.d_freqs⟩

/-- Modelled from the spec: the frequency pair accessor. -/
def DynamicWriter.get_frequencies (w : DynamicWriter) : List Nat × List Nat :=
  (w.l_freqs, w.d_freqs)

/-- Modelled from the spec: the record buffer accessor. -/
def DynamicWriter.get_buffer (w : DynamicWriter) : List LDPair :=
  w.buffer

/-- Modelled from the spec: clear the buffer and reset the counters for the
next block. -/
def DynamicWriter.clear (_w : DynamicWriter) : DynamicWriter :=
  DynamicWriter.new

/-! ## chained_hash_table.rs and lz77.rs (modules not in the sources) -/

/-- The 32 KiB sliding window size. -/
def WINDOW_SIZE : Nat := 32768

/-- Modelled from the spec: an implementation-chosen bound on hash chain
walks. -/
def MAX_CHAIN : Nat := 4096

/-- Modelled from the spec: `head` maps a hash to the most recent position,
`prev` chains earlier positions with the same hash (indexed modulo the
window size). -/
structure ChainedHashTable where
  head : Nat → Option Nat
  prev : Nat → Option Nat

/-- The empty hash table: every slot is NIL. -/
def ChainedHashTable.empty : ChainedHashTable :=
  ⟨fun _ => none, fun _ => none⟩

/-- Modelled from the spec: a rolling three-byte hash into 32768 slots. -/
def hash3 (a b c : Nat) : Nat :=
  (Nat.xor (Nat.xor (a <<< 10) (b <<< 5)) c) % 32768

/-- Hash of the three bytes at position `p`. -/
def hash_at (input : List Nat) (p : Nat) : Nat :=
  hash3 (input.getD p 0) (input.getD (p + 1) 0) (input.getD (p + 2) 0)

/-- Modelled from the spec: insertion at `p`:
`prev[p mod WSIZE] := head[h(p)]; head[h(p)] := p` (only when a full
three-byte sequence exists at `p`). -/
def insert_hash (input : List Nat) (p : Nat) (t : ChainedHashTable) : ChainedHashTable :=
  if p + 2 < input.length then
    let h := hash_at input p
    ⟨fun i => if i = h then some p else t.head i,
     fun i => if i = p % WINDOW_SIZE then t.head h else t.prev i⟩
  else t

/-- Insert the `k` consecutive positions starting at `p`. -/
def insert_hash_range (input : List Nat) (p : Nat) : Nat → ChainedHashTable → ChainedHashTable
  | 0, t => t
  | k + 1, t => insert_hash_range input (p + 1) k (insert_hash input p t)

/-- Modelled from the spec: walk a hash chain, collecting candidate positions
strictly before the cursor and within the window, up to the chain bound. -/
def chain_positions (t : ChainedHashTable) (p : Nat) : Option Nat → Nat → List Nat
  | _, 0 => []
  | none, _ => []
  | some q, fuel + 1 =>
    if q < p ∧ p ≤ q + WINDOW_SIZE then
      q :: chain_positions t p (t.prev (q % WINDOW_SIZE)) fuel
    else []

/-- Modelled from the spec: number of initial positions at which the input
agrees at `p + k` and `q + k`, capped by `limit` (the caller passes
`min 258 (N - p)`). -/
def match_length (input : List Nat) (p q : Nat) : Nat → Nat
  | 0 => 0
  | limit + 1 =>
    if input.getD p 0 = input.getD q 0 ∧ p < input.length then
      1 + match_length input (p + 1) (q + 1) limit
    else 0

/-- Modelled from the spec: the longest match among the candidates; on equal
lengths the first candidate found (the most recent position) is kept. -/
def longest_match (input : List Nat) (p : Nat) (cands : List Nat) : Nat × Nat :=
  cands.foldl
    (fun best q =>
      let l := match_length input p q (min 258 (input.length - p))
      if best.1 < l then (l, q) else best)
    (0, 0)

/-- Modelled from the spec: the LZ77 inner state: hash table, cursor, and the
flag reporting that the last segment has been produced. -/
structure LZ77State where
  table : ChainedHashTable
  pos : Nat
  is_last_block : Bool

/-- Modelled from the spec: `LZ77State::new`: empty table, cursor at 0, not
yet at the last segment. -/
def LZ77State.new (_input : List Nat) : LZ77State :=
  ⟨ChainedHashTable.empty, 0, false⟩

/-- Modelled from the spec: one greedy matcher step at the cursor: emit the
longest match if it reaches the minimum length 3, otherwise a literal, and
insert the consumed positions into the hash chains. -/
def lz77_step (input : List Nat) (st : LZ77State) (w : DynamicWriter) :
    LZ77State × DynamicWriter :=
  let p := st.pos
  if p + 2 < input.length then
    let h := hash_at input p
    let cands := chain_positions st.table p (st.table.head h) MAX_CHAIN
    let best := longest_match input p cands
    if 3 ≤ best.1 then
      ({ st with table := insert_hash_range input p best.1 st.table, pos := p + best.1 },
        w.write (LDPair.LengthDistance best.1 (p - best.2)))
    else
      ({ st with table := insert_hash input p st.table, pos := p + 1 },
        w.write (LDPair.Literal (input.getD p 0)))
  else
    ({ st with pos := p + 1 }, w.write (LDPair.Literal (input.getD p 0)))

theorem lz77_step_pos (input : List Nat) (st : LZ77State) (w : DynamicWriter) :
    st.pos < (lz77_step input st w).1.pos := by
  unfold lz77_step
  dsimp only
  split
  · split <;> dsimp only <;> omega
  · dsimp only; omega

/-- Modelled from the spec: run matcher steps until the cursor reaches the
segment end. -/
def lz77_run_go (input : List Nat) (chunkEnd : Nat) :
    Nat → LZ77State → DynamicWriter → LZ77State × DynamicWriter
  | 0, st, w => (st, w)
  | fuel + 1, st, w =>
    if st.pos < chunkEnd then
      lz77_run_go input chunkEnd fuel (lz77_step input st w).1 (lz77_step input st w).2
    else (st, w)

/-- Every matcher step advances the cursor, so `chunkEnd - pos` steps always
reach the segment end. -/
def lz77_run (input : List Nat) (chunkEnd : Nat) (st : LZ77State) (w : DynamicWriter) :
    LZ77State × DynamicWriter :=
  lz77_run_go input chunkEnd (chunkEnd - st.pos) st w

/-- Modelled from the spec: `lz77::lz77_compress_block`: process one window
chunk, append the end-of-block record, and flag the last segment when the
whole input has been consumed. -/
def lz77_compress_block (input : List Nat) (st : LZ77State) (w : DynamicWriter) :
    LZ77State × DynamicWriter :=
  let chunkEnd := min (st.pos + WINDOW_SIZE) input.length
  let r := lz77_run input chunkEnd st w
  ({ r.1 with is_last_block := input.length ≤ r.1.pos }, r.2.write LDPair.EndOfBlock)

theorem lz77_run_go_pos_le (input : List Nat) (chunkEnd fuel : Nat) (st : LZ77State)
    (w : DynamicWriter) : st.pos ≤ (lz77_run_go input chunkEnd fuel st w).1.pos := by
  induction fuel generalizing st w with
  | zero => exact Nat.le_refl _
  | succ fuel ih =>
    rw [lz77_run_go]
    split
    · have h1 := lz77_step_pos input st w
      have h2 := ih (lz77_step input st w).1 (lz77_step input st w).2
      omega
    · exact Nat.le_refl _

theorem lz77_run_go_complete (input : List Nat) (chunkEnd fuel : Nat) (st : LZ77State)
    (w : DynamicWriter) (h : chunkEnd ≤ st.pos + fuel) :
    chunkEnd ≤ (lz77_run_go input chunkEnd fuel st w).1.pos := by
  induction fuel generalizing st w with
  | zero => simp only [lz77_run_go]; omega
  | succ fuel ih =>
    rw [lz77_run_go]
    split
    · exact ih (lz77_step input st w).1 (lz77_step input st w).2
        (by have := lz77_step_pos input st w; omega)
    · dsimp only; omega

theorem lz77_run_pos_le (input : List Nat) (chunkEnd : Nat) (st : LZ77State)
    (w : DynamicWriter) : st.pos ≤ (lz77_run input chunkEnd st w).1.pos :=
  lz77_run_go_pos_le input chunkEnd _ st w

theorem lz77_run_complete (input : List Nat) (chunkEnd : Nat) (st : LZ77State)
    (w : DynamicWriter) : chunkEnd ≤ (lz77_run input chunkEnd st w).1.pos :=
  lz77_run_go_complete input chunkEnd _ st w (by omega)

theorem lz77_compress_block_pos_le (input : List Nat) (st : LZ77State)
    (w : DynamicWriter) : st.pos ≤ (lz77_compress_block input st w).1.pos := by
  unfold lz77_compress_block
  exact lz77_run_pos_le input _ st w

theorem lz77_compress_block_complete (input : List Nat) (st : LZ77State)
    (w : DynamicWriter) :
    min (st.pos + WINDOW_SIZE) input.length ≤ (lz77_compress_block input st w).1.pos := by
  unfold lz77_compress_block
  exact lz77_run_complete input _ st w

theorem lz77_compress_block_progress (input : List Nat) (st : LZ77State)
    (w : DynamicWriter)
    (h : (lz77_compress_block input st w).1.is_last_block = false) :
    st.pos < (lz77_compress_block input st w).1.pos ∧
      (lz77_compress_block input st w).1.pos < input.length := by
  have hc := lz77_compress_block_complete input st w
  unfold lz77_compress_block at h hc ⊢
  dsimp only at h hc ⊢
  simp only [decide_eq_false_iff_not, Nat.not_le] at h
  refine ⟨?_, h⟩
  have hw : WINDOW_SIZE = 32768 := rfl
  omega

/-! ## stored_block.rs (module not in the sources) -/

/-- Modelled from the spec: the three header bits of a final stored block,
`BFINAL = 1` then `BTYPE = 00`, as the value written by `write_bits(_, 3)`. -/
def STORED_FIRST_BYTE_FINAL : Nat := 1

/-- Modelled from the spec: one stored chunk: two-byte little-endian `LEN`,
two-byte little-endian `NLEN = LEN XOR 0xFFFF`, then the raw bytes. -/
def stored_chunk (chunk : List Nat) : List Nat :=
  let len := chunk.length
  let nlen := 65535 - len
  [len % 256, len / 256 % 256, nlen % 256, nlen / 256 % 256] ++ chunk

/-- Modelled from the spec: `stored_block::compress_block_stored` emits the
length/nlength framing and raw bytes, splitting input above 65535 bytes into
chunks (the driver only reaches this path for inputs below 20 bytes). -/
def compress_block_stored_go : Nat → List Nat → List Nat
  | 0, _ => []
  | fuel + 1, input =>
    if input.length ≤ 65535 then stored_chunk input
    else stored_chunk (input.take 65535) ++ compress_block_stored_go fuel (input.drop 65535)

/-- Splitting consumes at least one byte per chunk, so the input length
bounds the recursion. -/
def compress_block_stored (input : List Nat) : List Nat :=
  compress_block_stored_go (input.length + 1) input

/-! ## huffman_lengths.rs (module not in the sources) -/

/-- Modelled from the spec: the DEFLATE minimum of 257 retained
literal/length code entries. -/
def MIN_NUM_LITERALS_AND_LENGTHS : Nat := 257

/-- Modelled from the spec: the DEFLATE minimum of 1 retained distance code
entry. -/
def MIN_NUM_DISTANCES : Nat := 1

/-- The longest prefix of a list that still carries every nonzero entry:
trailing zeroes removed. -/
def trim_zeroes : List Nat → List Nat
  | [] => []
  | x :: r =>
    let t := trim_zeroes r
    if t = [] ∧ x = 0 then [] else x :: t

/-- Modelled from the spec: `huffman_lengths::remove_trailing_zeroes` trims
trailing zero entries but keeps at least `min_len` entries. -/
def remove_trailing_zeroes (xs : List Nat) (min_len : Nat) : List Nat :=
  xs.take (max min_len (trim_zeroes xs).length)

/-- Modelled from the spec: extra bits carried by each code-length-alphabet
symbol (2 for 16, 3 for 17, 7 for 18, none otherwise). -/
def cl_extra_bits (s : Nat) : Nat :=
  if s = 16 then 2 else if s = 17 then 3 else if s = 18 then 7 else 0

/-- Modelled from the spec: greedy RLE of a code length sequence over the
code-length alphabet: 18 for zero runs of 11..138, 17 for zero runs of
3..10, 16 for repeats of the previous value 3..6 times, plain symbols
otherwise.  Each output pair is the symbol and its extra-bits value. -/
def rle_encode_go : Nat → Option Nat → List Nat → List (Nat × Nat)
  | 0, _, _ => []
  | _ + 1, _, [] => []
  | fuel + 1, prev, x :: r =>
    let run := 1 + (r.takeWhile (fun y => y == x)).length
    if x = 0 then
      if 11 ≤ run then
        (18, min run 138 - 11) :: rle_encode_go fuel (some 0) ((x :: r).drop (min run 138))
      else if 3 ≤ run then
        (17, run - 3) :: rle_encode_go fuel (some 0) ((x :: r).drop run)
      else
        (0, 0) :: rle_encode_go fuel (some 0) r
    else if prev = some x ∧ 3 ≤ run then
      (16, min run 6 - 3) :: rle_encode_go fuel (some x) ((x :: r).drop (min run 6))
    else
      (x, 0) :: rle_encode_go fuel (some x) r

/-- The RLE stream of a code length sequence, no previous value installed
(every encoding step consumes at least one entry, so the length of the
sequence bounds the recursion). -/
def rle_encode (xs : List Nat) : List (Nat × Nat) :=
  rle_encode_go xs.length none xs

/-- Modelled from the spec: the fixed permutation in which code lengths of
the code-length alphabet are transmitted. -/
def CL_ORDER : List Nat :=
  [16, 17, 18, 0, 8, 7, 9, 6, 10, 5] ++ [11, 4, 12, 3, 13, 2, 14, 1, 15]

/-- The code lengths for the code-length alphabet of a dynamic header. -/
def cl_lengths_for (l_lengths d_lengths : List Nat) : List Nat :=
  let rle := rle_encode (l_lengths ++ d_lengths)
  let cl_freqs := (List.range 19).map (fun s => (rle.map Prod.fst).count s)
  huffman_lengths_from_frequency cl_freqs 7

/-- Modelled from the spec: `huffman_lengths::write_huffman_lengths`: emit
`HLIT`, `HDIST`, `HCLEN`, the three-bit code lengths in the fixed
permutation (trailing zeros trimmed, at least four kept), then the RLE
stream coded with the code-length code, each symbol followed by its extra
bits. -/
def write_huffman_lengths (l_lengths d_lengths : List Nat) : List Bool :=
  let rle := rle_encode (l_lengths ++ d_lengths)
  let cl_lengths := cl_lengths_for l_lengths d_lengths
  let permuted := CL_ORDER.map (fun i => cl_lengths.getD i 0)
  let keep := max 4 (trim_zeroes permuted).length
  natBitsLSB (l_lengths.length - 257) 5 ++
    natBitsLSB (d_lengths.length - 1) 5 ++
    natBitsLSB (keep - 4) 4 ++
    (permuted.take keep).flatMap (fun l => natBitsLSB l 3) ++
    rle.flatMap (fun p => code_bits cl_lengths p.1 ++ natBitsLSB p.2 (cl_extra_bits p.1))

/-! ## encoder_state.rs and bitstream.rs (modules not in the sources) -/

/-- The block type selector returned by `block_type_for_length`. -/
inductive BType where
  | NoCompression
  | FixedHuffman
  | DynamicHuffman
deriving DecidableEq

/-- The two-bit `BTYPE` field value of each block type. -/
def BType.code : BType → Nat
  | BType.NoCompression => 0
  | BType.FixedHuffman => 1
  | BType.DynamicHuffman => 2

/-- Modelled from the spec: the installed Huffman tables, kept as the code
length vectors from which the canonical codes are derived. -/
structure HuffmanTable where
  l_lengths : List Nat
  d_lengths : List Nat

/-- Modelled from the spec: `HuffmanTable::empty()`. -/
def HuffmanTable.empty : HuffmanTable := ⟨[], []⟩

/-- Modelled from the spec: the spec-mandated fixed tables. -/
def HuffmanTable.fixed_table : HuffmanTable :=
  ⟨FIXED_CODE_LENGTHS, FIXED_CODE_LENGTHS_DISTANCE⟩

/-- Modelled from the spec: the block emitter: the installed tables and the
bit writer (a bit list here).  `headers` additionally records each block
header `(BFINAL, BTYPE)` as it is written, purely as an observation of the
emitted stream used to state stream invariants. -/
structure EncoderState where
  huffman_table : HuffmanTable
  bits : List Bool
  headers : List (Bool × BType)

/-- Modelled from the spec: `EncoderState::new` with a table and an empty
writer. -/
def EncoderState.new (t : HuffmanTable) : EncoderState := ⟨t, [], []⟩

/-- Modelled from the spec: `EncoderState::fixed`, installing the fixed
tables. -/
def EncoderState.fixed : EncoderState := ⟨HuffmanTable.fixed_table, [], []⟩

/-- Modelled from the spec: append an LSB-first bit field (the bit writer's
`write_bits`). -/
def EncoderState.write_bits (st : EncoderState) (v w : Nat) : EncoderState :=
  { st with bits := st.bits ++ natBitsLSB v w }

/-- Modelled from the spec: emit one bit `BFINAL` then two bits `BTYPE`
(`01` fixed, `10` dynamic), recording the header. -/
def EncoderState.write_start_of_block (st : EncoderState) (fixed final : Bool) :
    EncoderState :=
  let bt := if fixed then BType.FixedHuffman else BType.DynamicHuffman
  { st with bits := st.bits ++ final :: natBitsLSB bt.code 2,
            headers := st.headers ++ [(final, bt)] }

/-- Modelled from the spec: install new code length vectors. -/
def EncoderState.update_huffman_table (st : EncoderState) (l d : List Nat) :
    EncoderState :=
  { st with huffman_table := ⟨l, d⟩ }

/-- Modelled from the spec: the bits of one LZ77 record: the Huffman code of
its literal/length symbol, then its extra bits, then for a match the
distance code and its extra bits. -/
def ldpair_bits (t : HuffmanTable) : LDPair → List Bool
  | LDPair.Literal b => code_bits t.l_lengths b
  | LDPair.LengthDistance len dist =>
    let li := lengthCodeIdx len
    let di := distCodeIdx dist
    code_bits t.l_lengths (257 + li) ++
      natBitsLSB (len - lengthBase.getD li 0) (lengthExtraBits.getD li 0) ++
      code_bits t.d_lengths di ++
      natBitsLSB (dist - distBase.getD di 0) (distExtraBits.getD di 0)
  | LDPair.EndOfBlock => code_bits t.l_lengths 256

/-- Modelled from the spec: `write_ldpair` emits one record through the
installed tables. -/
def EncoderState.write_ldpair (st : EncoderState) (ld : LDPair) : EncoderState :=
  { st with bits := st.bits ++ ldpair_bits st.huffman_table ld }

/-- Modelled from the spec: `write_end_of_block` emits symbol 256. -/
def EncoderState.write_end_of_block (st : EncoderState) : EncoderState :=
  st.write_ldpair LDPair.EndOfBlock

/-- Modelled from the spec: pad the current byte with zero bits, aligning the
stream. -/
def EncoderState.flush (st : EncoderState) : EncoderState :=
  { st with bits := st.bits ++ List.replicate ((8 - st.bits.length % 8) % 8) false }

/-- Modelled from the spec: write whole bytes (the stream must be aligned,
which every caller ensures by flushing first). -/
def EncoderState.write_bytes (st : EncoderState) (bytes : List Nat) : EncoderState :=
  { st with bits := st.bits ++ bytesBits bytes }

/-! ## zlib.rs (module not in the sources) -/

/-- Modelled from the spec: the compression level recorded in the zlib
header; only the default level is used by the code. -/
inductive CompressionLevel where
  | Default

/-- Modelled from the spec: `zlib::write_zlib_header` emits CMF `0x78`
(deflate, 32K window) and FLG `0x9C` (default level, no dictionary, chosen
so that `CMF * 256 + FLG` is a multiple of 31). -/
def write_zlib_header (_level : CompressionLevel) : List Nat := [0x78, 0x9C]

/-! ## lib.rs: the top-level driver (translated from the source) -/

/-- Translated from `src/lib.rs`: choose the block type from the input
length. -/
def block_type_for_length (length : Nat) : BType :=
  if length < 20 then BType.NoCompression
  else if length < 70 then BType.FixedHuffman
  else BType.DynamicHuffman

/-- Modelled from the spec: the block iteration of `lz77::lz77_compress`
(test-only whole-input compression): produce blocks until the matcher flags
the last segment, keeping every record including the end-of-block
sentinels. -/
def lz77_compress_loop_go (input : List Nat) :
    Nat → LZ77State → DynamicWriter → DynamicWriter
  | 0, _, w => w
  | fuel + 1, st, w =>
    if st.is_last_block then w
    else
      lz77_compress_loop_go input fuel (lz77_compress_block input st w).1
        (lz77_compress_block input st w).2

/-- Each non-final block advances the cursor, so `N + 2` iterations always
reach the last segment. -/
def lz77_compress_loop (input : List Nat) (st : LZ77State) (w : DynamicWriter) :
    DynamicWriter :=
  lz77_compress_loop_go input (input.length + 2) st w

/-- Modelled from the spec: `lz77::lz77_compress`, the record stream over the
whole input. -/
def lz77_compress (input : List Nat) : List LDPair :=
  (lz77_compress_loop input (LZ77State.new input) DynamicWriter.new).buffer

/-- Translated from `src/lib.rs`: the test-only fixed-Huffman compressor:
one final fixed block holding the LZ77 stream of the whole input (skipping
the sentinels of the record stream), one end-of-block symbol, flush. -/
def compress_data_fixed (input : List Nat) : List Nat :=
  let state := EncoderState.fixed
  let compressed := lz77_compress input
  let state := state.write_start_of_block true true
  let state := compressed.foldl
    (fun st ld =>
      match ld with
      | LDPair.EndOfBlock => st
      | _ => st.write_ldpair ld)
    state
  let state := state.write_end_of_block
  let state := state.flush
  bitsToBytes state.bits

/-- Translated from `src/lib.rs`: the body of one iteration of the dynamic
block loop of `compress_data_dynamic`, for the freshly compressed segment
`r`: write the block header bits, derive the code lengths from the
collected frequencies (trailing zeros trimmed down to the DEFLATE minima),
write them, install the tables, and emit the buffered records. -/
def compress_dynamic_block_body (_input : List Nat) (r : LZ77State × DynamicWriter)
    (state : EncoderState) : EncoderState :=
  let state1 := state.write_start_of_block false r.1.is_last_block
  let l_lengths := huffman_lengths_from_frequency
    (remove_trailing_zeroes r.2.get_frequencies.1 MIN_NUM_LITERALS_AND_LENGTHS)
    MAX_CODE_LENGTH
  let d_lengths := huffman_lengths_from_frequency
    (remove_trailing_zeroes r.2.get_frequencies.2 MIN_NUM_DISTANCES)
    MAX_CODE_LENGTH
  let state2 := { state1 with
    bits := state1.bits ++ write_huffman_lengths l_lengths d_lengths }
  let state3 := state2.update_huffman_table l_lengths d_lengths
  r.2.get_buffer.foldl (fun st ld => st.write_ldpair ld) state3

/-- Translated from `src/lib.rs`: the dynamic-Huffman block loop of
`compress_data_dynamic`: while the matcher has not flagged the last
segment, compress one segment, emit its block, clear the record writer. -/
def compress_dynamic_loop_go (input : List Nat) :
    Nat → LZ77State → DynamicWriter → EncoderState → EncoderState
  | 0, _, _, state => state
  | fuel + 1, lz, w, state =>
    if lz.is_last_block then state
    else
      compress_dynamic_loop_go input fuel (lz77_compress_block input lz w).1
        (lz77_compress_block input lz w).2.clear
        (compress_dynamic_block_body input (lz77_compress_block input lz w) state)

/-- Each non-final block advances the cursor, so `N + 2` iterations always
reach the last segment. -/
def compress_dynamic_loop (input : List Nat) (lz : LZ77State) (w : DynamicWriter)
    (state : EncoderState) : EncoderState :=
  compress_dynamic_loop_go input (input.length + 2) lz w state

/-- Translated from `src/lib.rs`: `compress_data_dynamic`, the driver: pick
the block type from the input length; for the Huffman paths feed the whole
input to the rolling checksum and run the dynamic loop or a single fixed
block over the LZ77 stream; for the stored path write the final stored
header, flush, emit the stored framing, and feed the checksum.  Returns the
final encoder state and checksum state. -/
def compress_data_dynamic {σ : Type} (input : List Nat) (rc : RollingChecksum σ)
    (checksum : σ) : EncoderState × σ :=
  let state := EncoderState.new HuffmanTable.empty
  match block_type_for_length input.length with
  | BType.DynamicHuffman =>
    let lz77_state := LZ77State.new input
    let lz77_writer := DynamicWriter.new
    let checksum1 := rc.update_from_slice checksum input
    let state1 := compress_dynamic_loop input lz77_state lz77_writer state
    (state1.flush, checksum1)
  | BType.FixedHuffman =>
    let lz77_state := LZ77State.new input
    let lz77_writer := DynamicWriter.new
    let checksum1 := rc.update_from_slice checksum input
    let r := lz77_compress_block input lz77_state lz77_writer
    let state1 := state.update_huffman_table FIXED_CODE_LENGTHS
      FIXED_CODE_LENGTHS_DISTANCE
    let state2 := state1.write_start_of_block true true
    let state3 := r.2.get_buffer.foldl (fun st ld => st.write_ldpair ld) state2
    (state3.flush, checksum1)
  | BType.NoCompression =>
    let state1 := state.write_bits STORED_FIRST_BYTE_FINAL 3
    let state2 := { state1 with
      headers := state1.headers ++ [(true, BType.NoCompression)] }
    let state3 := state2.flush
    let state4 := state3.write_bytes (compress_block_stored input)
    let checksum1 := rc.update_from_slice checksum input
    (state4.flush, checksum1)

/-- Translated from `src/lib.rs`: `deflate_bytes`, the raw DEFLATE stream of
an input, produced with the no-op checksum. -/
def deflate_bytes (input : List Nat) : List Nat :=
  bitsToBytes (compress_data_dynamic input NoChecksum ()).1.bits

/-- Big-endian four-byte encoding of a 32-bit value (the
`write_u32::<BigEndian>` of the source). -/
def u32_be (v : Nat) : List Nat :=
  [v / 2 ^ 24 % 256, v / 2 ^ 16 % 256, v / 2 ^ 8 % 256, v % 256]

/-- Translated from `src/lib.rs`: `deflate_bytes_zlib`: zlib header, the
compressed stream produced with the Adler-32 checksum, then the big-endian
hash. -/
def deflate_bytes_zlib (input : List Nat) : List Nat :=
  let header := write_zlib_header CompressionLevel.Default
  let r := compress_data_dynamic input Adler32Checksum adler32_init
  let hash := Adler32Checksum.current_hash r.2
  header ++ bitsToBytes r.1.bits ++ u32_be hash

/-! ## Reference DEFLATE decoder (RFC 1951), the round-trip oracle -/

/-- The symbol of code length `l` and canonical rank `rank` (canonical codes
of one length follow ascending symbol order). -/
def sym_of_rank (lengths : List Nat) (l rank : Nat) : Option Nat :=
  ((List.range lengths.length).filter (fun s => lengths.getD s 0 == l))[rank]?

/-- Canonical Huffman decoding: walk the stream MSB-first, accumulating a
code value, and stop at the first length whose code range contains it. -/
def decode_sym_go (lengths : List Nat) : Nat → Nat → List Bool → Nat →
    Option (Nat × List Bool)
  | _, _, _, 0 => none
  | _, _, [], _ + 1 => none
  | l, code, b :: r, fuel + 1 =>
    let code2 := 2 * code + (if b then 1 else 0)
    if first_code lengths (l + 1) ≤ code2 ∧
        code2 < first_code lengths (l + 1) + bl_count lengths (l + 1) then
      match sym_of_rank lengths (l + 1) (code2 - first_code lengths (l + 1)) with
      | some s => some (s, r)
      | none => none
    else decode_sym_go lengths (l + 1) code2 r fuel

/-- Decode one symbol of a canonical code given by its length vector. -/
def decode_sym (lengths : List Nat) (bits : List Bool) : Option (Nat × List Bool) :=
  decode_sym_go lengths 0 0 bits 15

/-- Append `len` bytes copied from `dist` back in the output, byte by byte
(overlapping back-references repeat the copied data). -/
def lz_copy (out : List Nat) (dist : Nat) : Nat → List Nat
  | 0 => out
  | k + 1 => lz_copy (out ++ [out.getD (out.length - dist) 0]) dist k

/-- Decode the symbol stream of one Huffman block onto the output,
reconstructing literals and back-references, until the end-of-block
symbol. -/
def inflate_syms (ll dd : List Nat) (out : List Nat) (bits : List Bool) :
    Nat → Option (List Nat × List Bool)
  | 0 => none
  | fuel + 1 =>
    match decode_sym ll bits with
    | none => none
    | some (sym, r) =>
      if sym < 256 then inflate_syms ll dd (out ++ [sym]) r fuel
      else if sym = 256 then some (out, r)
      else if sym ≤ 285 then
        match readBitsLSB (lengthExtraBits.getD (sym - 257) 0) r with
        | none => none
        | some (ev, r2) =>
          match decode_sym dd r2 with
          | none => none
          | some (dsym, r3) =>
            if dsym < 30 then
              match readBitsLSB (distExtraBits.getD dsym 0) r3 with
              | none => none
              | some (dv, r4) =>
                let dist := distBase.getD dsym 0 + dv
                let len := lengthBase.getD (sym - 257) 0 + ev
                if 1 ≤ dist ∧ dist ≤ out.length then
                  inflate_syms ll dd (lz_copy out dist len) r4 fuel
                else none
            else none
      else none

/-- Read `n` whole bytes from an aligned stream. -/
def read_bytes : Nat → List Bool → Option (List Nat × List Bool)
  | 0, bits => some ([], bits)
  | k + 1, bits =>
    match readBitsLSB 8 bits with
    | none => none
    | some (b, r) => (read_bytes k r).map (fun p => (b :: p.1, p.2))

/-- Read three-bit code lengths into the listed alphabet positions. -/
def read_cl_into : List Nat → List Nat → List Bool → Option (List Nat × List Bool)
  | [], acc, bits => some (acc, bits)
  | i :: rest, acc, bits =>
    match readBitsLSB 3 bits with
    | none => none
    | some (v, r) => read_cl_into rest (acc.set i v) r

/-- Decode the RLE-coded length sequence of a dynamic header until exactly
`total` lengths have been produced. -/
def read_len_syms (cl : List Nat) (total : Nat) (acc : List Nat) (bits : List Bool) :
    Nat → Option (List Nat × List Bool)
  | 0 => none
  | fuel + 1 =>
    if total ≤ acc.length then
      if acc.length = total then some (acc, bits) else none
    else
      match decode_sym cl bits with
      | none => none
      | some (s, r) =>
        if s ≤ 15 then read_len_syms cl total (acc ++ [s]) r fuel
        else if s = 16 then
          match readBitsLSB 2 r with
          | none => none
          | some (n, r2) =>
            match acc.getLast? with
            | none => none
            | some v => read_len_syms cl total (acc ++ List.replicate (n + 3) v) r2 fuel
        else if s = 17 then
          match readBitsLSB 3 r with
          | none => none
          | some (n, r2) => read_len_syms cl total (acc ++ List.replicate (n + 3) 0) r2 fuel
        else if s = 18 then
          match readBitsLSB 7 r with
          | none => none
          | some (n, r2) => read_len_syms cl total (acc ++ List.replicate (n + 11) 0) r2 fuel
        else none

/-- Decode a sequence of DEFLATE blocks.  `orig` is the bit length of the
whole stream, used to find byte alignment inside stored blocks; decoding
stops after the block whose header carries `BFINAL = 1`. -/
def inflate_blocks (orig : Nat) (bits : List Bool) (out : List Nat) :
    Nat → Option (List Nat)
  | 0 => none
  | fuel + 1 =>
    match bits with
    | [] => none
    | bfinal :: r1 =>
      match readBitsLSB 2 r1 with
      | none => none
      | some (btype, r2) =>
        if btype = 0 then
          match readBitsLSB 16 (r2.drop ((8 - (orig - r2.length) % 8) % 8)) with
          | none => none
          | some (len, r4) =>
            match readBitsLSB 16 r4 with
            | none => none
            | some (nlen, r5) =>
              if nlen = 65535 - len then
                match read_bytes len r5 with
                | none => none
                | some (chunk, r6) =>
                  if bfinal then some (out ++ chunk)
                  else inflate_blocks orig r6 (out ++ chunk) fuel
              else none
        else if btype = 1 then
          match inflate_syms FIXED_CODE_LENGTHS FIXED_CODE_LENGTHS_DISTANCE out r2
              (r2.length + 1) with
          | none => none
          | some (out2, r3) =>
            if bfinal then some out2 else inflate_blocks orig r3 out2 fuel
        else if btype = 2 then
          match readBitsLSB 5 r2 with
          | none => none
          | some (hlit, r3) =>
            match readBitsLSB 5 r3 with
            | none => none
            | some (hdist, r4) =>
              match readBitsLSB 4 r4 with
              | none => none
              | some (hclen, r5) =>
                match read_cl_into (CL_ORDER.take (hclen + 4))
                    (List.replicate 19 0) r5 with
                | none => none
                | some (cl, r6) =>
                  match read_len_syms cl (hlit + 257 + (hdist + 1)) [] r6
                      (hlit + 257 + (hdist + 1) + 1) with
                  | none => none
                  | some (lens, r7) =>
                    match inflate_syms (lens.take (hlit + 257))
                        (lens.drop (hlit + 257)) out r7 (r7.length + 1) with
                    | none => none
                    | some (out2, r8) =>
                      if bfinal then some out2
                      else inflate_blocks orig r8 out2 fuel
        else none

/-- The reference decoder: decode the blocks of a DEFLATE byte stream. -/
def inflate (bytes : List Nat) : Option (List Nat) :=
  inflate_blocks (8 * bytes.length) (bytesBits bytes) [] (8 * bytes.length + 1)

/-! ## Structural lemmas about the driver -/

theorem write_ldpair_headers (st : EncoderState) (ld : LDPair) :
    (st.write_ldpair ld).headers = st.headers := rfl

theorem foldl_write_ldpair_headers (lds : List LDPair) (st : EncoderState) :
    (lds.foldl (fun s ld => s.write_ldpair ld) st).headers = st.headers := by
  induction lds generalizing st with
  | nil => rfl
  | cons ld r ih => simpa [write_ldpair_headers] using ih (st.write_ldpair ld)

theorem flush_headers (st : EncoderState) : st.flush.headers = st.headers := rfl

/-- The checksum state returned by the driver is the input checksum updated
with the whole input exactly once, on every path. -/
theorem checksum_threaded {σ : Type} (input : List Nat) (rc : RollingChecksum σ)
    (c : σ) : (compress_data_dynamic input rc c).2 = rc.update_from_slice c input := by
  unfold compress_data_dynamic
  cases block_type_for_length input.length <;> rfl

/-- The emitted encoder state does not depend on the checksum variant
threaded through the driver. -/
theorem body_checksum_free {σ : Type} (input : List Nat) (rc : RollingChecksum σ)
    (c : σ) :
    (compress_data_dynamic input rc c).1 = (compress_data_dynamic input NoChecksum ()).1 := by
  unfold compress_data_dynamic
  cases block_type_for_length input.length <;> rfl

/-- The zlib stream decomposes into the header, the raw body, and the
big-endian Adler-32 trailer. -/
theorem deflate_bytes_zlib_eq (input : List Nat) :
    deflate_bytes_zlib input =
      write_zlib_header CompressionLevel.Default ++ deflate_bytes input ++
        u32_be (adler32 input) := by
  unfold deflate_bytes_zlib deflate_bytes adler32
  dsimp only
  rw [body_checksum_free input Adler32Checksum adler32_init,
    checksum_threaded input Adler32Checksum adler32_init]

/-- The headers recorded by one dynamic block body: the header of the new
block is appended. -/
theorem compress_dynamic_block_body_headers (input : List Nat)
    (r : LZ77State × DynamicWriter) (state : EncoderState) :
    (compress_dynamic_block_body input r state).headers =
      state.headers ++ [(r.1.is_last_block, BType.DynamicHuffman)] := by
  simp [compress_dynamic_block_body, foldl_write_ldpair_headers,
    EncoderState.update_huffman_table, EncoderState.write_start_of_block]

/-- The block headers emitted by the dynamic loop, with sufficient fuel:
zero or more non-final dynamic headers followed by one final dynamic
header. -/
theorem compress_dynamic_loop_go_headers (input : List Nat) (fuel : Nat)
    (lz : LZ77State) (w : DynamicWriter) (state : EncoderState)
    (h : lz.is_last_block = false)
    (hfuel : input.length + 2 - min lz.pos input.length ≤ fuel) :
    ∃ hs0, (compress_dynamic_loop_go input fuel lz w state).headers =
        state.headers ++ (hs0 ++ [(true, BType.DynamicHuffman)]) ∧
      ∀ p ∈ hs0, p = (false, BType.DynamicHuffman) := by
  induction fuel generalizing lz w state with
  | zero =>
    exfalso
    have hm := Nat.min_le_right lz.pos input.length
    omega
  | succ fuel ih =>
    rw [compress_dynamic_loop_go, if_neg (by simp [h])]
    by_cases h2 : (lz77_compress_block input lz w).1.is_last_block
    · refine ⟨[], ?_, by simp⟩
      have hfuel1 : fuel ≠ 0 := by
        have hm := Nat.min_le_right lz.pos input.length
        omega
      obtain ⟨fuel2, rfl⟩ := Nat.exists_eq_succ_of_ne_zero hfuel1
      rw [compress_dynamic_loop_go, if_pos h2, compress_dynamic_block_body_headers]
      simp [h2]
    · have hp := lz77_compress_block_progress input lz w (by simpa using h2)
      obtain ⟨hs0, heq, hall⟩ := ih (lz77_compress_block input lz w).1
        (lz77_compress_block input lz w).2.clear
        (compress_dynamic_block_body input (lz77_compress_block input lz w) state)
        (by simpa using h2)
        (by
          have hm1 : min (lz77_compress_block input lz w).1.pos input.length =
              (lz77_compress_block input lz w).1.pos := Nat.min_eq_left (le_of_lt hp.2)
          have hm2 : min lz.pos input.length = lz.pos := Nat.min_eq_left (by omega)
          omega)
      refine ⟨(false, BType.DynamicHuffman) :: hs0, ?_, ?_⟩
      · rw [heq, compress_dynamic_block_body_headers]
        simp [h2]
      · intro p hp2
        rcases List.mem_cons.mp hp2 with rfl | hp3
        · rfl
        · exact hall p hp3

/-- The block headers emitted by the dynamic loop as the driver calls it. -/
theorem compress_dynamic_loop_headers (input : List Nat) (lz : LZ77State)
    (w : DynamicWriter) (state : EncoderState) (h : lz.is_last_block = false) :
    ∃ hs0, (compress_dynamic_loop input lz w state).headers =
        state.headers ++ (hs0 ++ [(true, BType.DynamicHuffman)]) ∧
      ∀ p ∈ hs0, p = (false, BType.DynamicHuffman) := by
  refine compress_dynamic_loop_go_headers input _ lz w state h ?_
  have hm := Nat.min_le_right lz.pos input.length
  omega

/-! ## Claim theorems: framing, determinism, block policy -/

/-- C5: `deflate_bytes` and `deflate_bytes_zlib` are pure functions of the
input slice; two calls with identical input produce byte-identical
output. -/
theorem claim_C5_determinism (s t : List Nat) (h : s = t) :
    deflate_bytes s = deflate_bytes t ∧ deflate_bytes_zlib s = deflate_bytes_zlib t := by
  subst h; exact ⟨rfl, rfl⟩

theorem claim_C5_determinism_witness :
    deflate_bytes [1, 2, 3] = deflate_bytes [1, 2, 3] ∧
      deflate_bytes_zlib [1, 2, 3] = deflate_bytes_zlib [1, 2, 3] :=
  claim_C5_determinism [1, 2, 3] [1, 2, 3] rfl

/-- C10: on every path through `compress_data_dynamic` the rolling checksum
is fed the whole input exactly once: the returned checksum state is
`update_from_slice` applied once to the input. -/
theorem claim_C10_checksum_once (σ : Type) (rc : RollingChecksum σ) (c : σ)
    (s : List Nat) :
    (compress_data_dynamic s rc c).2 = rc.update_from_slice c s :=
  checksum_threaded s rc c

/-- C9: the zlib stream is exactly the two-byte header, the byte sequence of
`deflate_bytes`, and the big-endian Adler-32 of the input; the compressed
body does not depend on the checksum variant threaded through the
driver. -/
theorem claim_C9_zlib_decomposition (s : List Nat) :
    deflate_bytes_zlib s =
      write_zlib_header CompressionLevel.Default ++ deflate_bytes s ++
        u32_be (adler32 s) ∧
    ∀ (σ : Type) (rc : RollingChecksum σ) (c : σ),
      bitsToBytes (compress_data_dynamic s rc c).1.bits = deflate_bytes s := by
  refine ⟨deflate_bytes_zlib_eq s, fun σ rc c => ?_⟩
  unfold deflate_bytes
  rw [body_checksum_free s rc c]

/-- C2: the zlib output begins with header bytes whose value is divisible by
31 when read as a big-endian 16-bit number, and ends with the four-byte
big-endian Adler-32 of the uncompressed input (`s1`, `s2` modulo 65521,
hash `(s2 << 16) | s1`). -/
theorem claim_C2_zlib_framing (s : List Nat) :
    (deflate_bytes_zlib s).take 2 = [0x78, 0x9C] ∧
    (0x78 * 256 + 0x9C) % 31 = 0 ∧
    (deflate_bytes_zlib s).drop ((deflate_bytes_zlib s).length - 4) =
      u32_be (adler32 s) ∧
    adler32 s = (s.foldl adler32_step (1, 0)).2 * 65536 +
      (s.foldl adler32_step (1, 0)).1 := by
  have heq := deflate_bytes_zlib_eq s
  refine ⟨?_, by decide, ?_, rfl⟩
  · rw [heq]; rfl
  · rw [heq]
    have hlen : (write_zlib_header CompressionLevel.Default ++ deflate_bytes s ++
        u32_be (adler32 s)).length =
        (write_zlib_header CompressionLevel.Default ++ deflate_bytes s).length + 4 := by
      simp [u32_be]; omega
    rw [hlen, Nat.add_sub_cancel]
    exact List.drop_left _ _

/-- C3: the driver emits exactly one stored block for inputs shorter than
20 bytes, exactly one fixed-Huffman block for lengths in `[20, 70)`, and
one or more dynamic-Huffman blocks for lengths of at least 70. -/
theorem claim_C3_block_type_selection (s : List Nat) :
    (s.length < 20 →
      (compress_data_dynamic s NoChecksum ()).1.headers =
        [(true, BType.NoCompression)]) ∧
    (20 ≤ s.length → s.length < 70 →
      (compress_data_dynamic s NoChecksum ()).1.headers =
        [(true, BType.FixedHuffman)]) ∧
    (70 ≤ s.length →
      1 ≤ (compress_data_dynamic s NoChecksum ()).1.headers.length ∧
      (compress_data_dynamic s NoChecksum ()).1.headers.all
        (fun p => p.2 == BType.DynamicHuffman) = true) := by
  refine ⟨fun h => ?_, fun h1 h2 => ?_, fun h => ?_⟩
  · have hbt : block_type_for_length s.length = BType.NoCompression := by
      unfold block_type_for_length; simp [h]
    unfold compress_data_dynamic
    rw [hbt]
    rfl
  · have hbt : block_type_for_length s.length = BType.FixedHuffman := by
      unfold block_type_for_length; rw [if_neg (by omega), if_pos h2]
    unfold compress_data_dynamic
    rw [hbt]
    simp [foldl_write_ldpair_headers, EncoderState.write_start_of_block,
      EncoderState.update_huffman_table, EncoderState.flush, EncoderState.new]
  · have hbt : block_type_for_length s.length = BType.DynamicHuffman := by
      unfold block_type_for_length; rw [if_neg (by omega), if_neg (by omega)]
    unfold compress_data_dynamic
    rw [hbt]
    obtain ⟨hs0, heq, hall⟩ := compress_dynamic_loop_headers s (LZ77State.new s)
      DynamicWriter.new (EncoderState.new HuffmanTable.empty) rfl
    rw [show (EncoderState.new HuffmanTable.empty).headers = [] from rfl,
      List.nil_append] at heq
    dsimp only
    rw [flush_headers, heq]
    constructor
    · simp
    · rw [List.all_append]
      refine Bool.and_eq_true_iff.mpr ⟨?_, by decide⟩
      rw [List.all_eq_true]
      intro p hp
      rw [hall p hp]
      decide

theorem claim_C3_block_type_selection_witness :
    ((compress_data_dynamic (List.replicate 10 1) NoChecksum ()).1.headers =
      [(true, BType.NoCompression)]) ∧
    ((compress_data_dynamic (List.replicate 25 1) NoChecksum ()).1.headers =
      [(true, BType.FixedHuffman)]) ∧
    (1 ≤ (compress_data_dynamic (List.replicate 75 1) NoChecksum ()).1.headers.length ∧
      (compress_data_dynamic (List.replicate 75 1) NoChecksum ()).1.headers.all
        (fun p => p.2 == BType.DynamicHuffman) = true) :=
  ⟨(claim_C3_block_type_selection (List.replicate 10 1)).1 (by decide),
   (claim_C3_block_type_selection (List.replicate 25 1)).2.1 (by decide) (by decide),
   (claim_C3_block_type_selection (List.replicate 75 1)).2.2 (by decide)⟩

/-- C6: every emitted stream carries exactly one block header with
`BFINAL = 1`; it is the last header emitted, every earlier header carries
`BFINAL = 0`, and no block follows it (in the dynamic loop the final flag
handed to `write_start_of_block` is exactly the last-segment flag of the
LZ77 state). -/
theorem claim_C6_single_final_block (s : List Nat) :
    ∃ hs0 bt,
      (compress_data_dynamic s NoChecksum ()).1.headers = hs0 ++ [(true, bt)] ∧
      hs0.all (fun p => p.1 == false) = true ∧
      ((compress_data_dynamic s NoChecksum ()).1.headers.filter
        (fun p => p.1 == true)).length = 1 := by
  unfold compress_data_dynamic
  cases hbt : block_type_for_length s.length
  · exact ⟨[], BType.NoCompression, rfl, rfl, rfl⟩
  · refine ⟨[], BType.FixedHuffman, ?_, rfl, ?_⟩ <;>
      simp [foldl_write_ldpair_headers, EncoderState.write_start_of_block,
        EncoderState.update_huffman_table, EncoderState.flush, EncoderState.new]
  · obtain ⟨hs0, heq, hall⟩ := compress_dynamic_loop_headers s (LZ77State.new s)
      DynamicWriter.new (EncoderState.new HuffmanTable.empty) rfl
    refine ⟨hs0, BType.DynamicHuffman, ?_, ?_, ?_⟩
    · dsimp only; rw [flush_headers, heq]; rfl
    · rw [List.all_eq_true]
      intro p hp
      rw [hall p hp]
      rfl
    · dsimp only
      rw [flush_headers, heq]
      simp only [List.filter_append]
      have hnil : hs0.filter (fun p => p.1 == true) = [] := by
        rw [List.filter_eq_nil_iff]
        intro p hp
        rw [hall p hp]
        decide
      rw [hnil]
      rfl

/-- C7: the encoder is total; for the empty input it still emits one
complete final stored block, the output is non-empty, and the reference
decoder recovers the empty sequence; the zlib wrapper框 likewise frames the
same bytes. -/
theorem claim_C7_empty_input :
    deflate_bytes [] = [1, 0, 0, 255, 255] ∧
    deflate_bytes [] ≠ [] ∧
    inflate (deflate_bytes []) = some [] ∧
    (compress_data_dynamic [] NoChecksum ()).1.headers =
      [(true, BType.NoCompression)] ∧
    deflate_bytes_zlib [] = [0x78, 0x9C] ++ deflate_bytes [] ++ u32_be (adler32 []) :=
  ⟨by decide, by decide, by decide, by decide, deflate_bytes_zlib_eq []⟩

/-! ## Trailing-zero trimming lemmas and the dynamic-header minima -/

theorem trim_zeroes_length_le (xs : List Nat) : (trim_zeroes xs).length ≤ xs.length := by
  induction xs with
  | nil => simp [trim_zeroes]
  | cons x r ih =>
    rw [trim_zeroes]
    split
    · simp
    · simpa using ih

theorem trim_zeroes_dropped (xs : List Nat) (i : Nat)
    (h : (trim_zeroes xs).length ≤ i) : xs.getD i 0 = 0 := by
  induction xs generalizing i with
  | nil => simp
  | cons x r ih =>
    rw [trim_zeroes] at h
    by_cases hc : trim_zeroes r = [] ∧ x = 0
    · rw [if_pos hc] at h
      match i with
      | 0 => simpa using hc.2
      | j + 1 => exact ih j (by simp [hc.1])
    · rw [if_neg hc] at h
      match i with
      | 0 => simp at h
      | j + 1 =>
        simp only [List.length_cons] at h
        exact ih j (by omega)

theorem remove_trailing_zeroes_length_le (xs : List Nat) (min_len : Nat) :
    (remove_trailing_zeroes xs min_len).length ≤ xs.length := by
  simp [remove_trailing_zeroes]

theorem remove_trailing_zeroes_length_ge (xs : List Nat) (min_len : Nat)
    (h : min_len ≤ xs.length) : min_len ≤ (remove_trailing_zeroes xs min_len).length := by
  simp only [remove_trailing_zeroes, List.length_take]
  omega

theorem remove_trailing_zeroes_dropped (xs : List Nat) (min_len i : Nat)
    (h : (remove_trailing_zeroes xs min_len).length ≤ i) :
    xs.getD i 0 = 0 := by
  refine trim_zeroes_dropped xs i ?_
  simp only [remove_trailing_zeroes, List.length_take] at h
  have := trim_zeroes_length_le xs
  omega

theorem huffman_lengths_from_frequency_length (freqs : List Nat) (max_len : Nat) :
    (huffman_lengths_from_frequency freqs max_len).length = freqs.length := by
  unfold huffman_lengths_from_frequency
  dsimp only
  split
  · simp
  · simp
  · split
    · simp
    · split <;> simp

set_option maxRecDepth 10000 in
/-- C4: compressing the twelve bytes of the string of "Deflate late"
through the fixed-Huffman path produces exactly the canonical eleven-byte
output of Mark Adler's worked example. -/
theorem claim_C4_fixed_example :
    compress_data_fixed [68, 101, 102, 108, 97, 116, 101, 32, 108, 97, 116, 101] =
      [0x73, 0x49, 0x4d, 0xcb, 0x49, 0x2c, 0x49, 0x55, 0x00, 0x11, 0x00] := by
  decide

/-- C8: the literal/length code-length vector handed to the dynamic header
writer is derived from the 286-entry frequency array with trailing
zero-frequency entries removed but never trimmed below 257 entries, and
the distance vector from the 30-entry array, never trimmed below one
entry. -/
theorem claim_C8_dynamic_header_minima (w : DynamicWriter)
    (hl : w.l_freqs.length = 286) (hd : w.d_freqs.length = 30) :
    257 ≤ (huffman_lengths_from_frequency
      (remove_trailing_zeroes w.get_frequencies.1 MIN_NUM_LITERALS_AND_LENGTHS)
      MAX_CODE_LENGTH).length ∧
    (huffman_lengths_from_frequency
      (remove_trailing_zeroes w.get_frequencies.1 MIN_NUM_LITERALS_AND_LENGTHS)
      MAX_CODE_LENGTH).length ≤ 286 ∧
    1 ≤ (huffman_lengths_from_frequency
      (remove_trailing_zeroes w.get_frequencies.2 MIN_NUM_DISTANCES)
      MAX_CODE_LENGTH).length ∧
    (huffman_lengths_from_frequency
      (remove_trailing_zeroes w.get_frequencies.2 MIN_NUM_DISTANCES)
      MAX_CODE_LENGTH).length ≤ 30 ∧
    (∃ k, remove_trailing_zeroes w.get_frequencies.1 MIN_NUM_LITERALS_AND_LENGTHS =
      w.l_freqs.take k) ∧
    (∃ k, remove_trailing_zeroes w.get_frequencies.2 MIN_NUM_DISTANCES =
      w.d_freqs.take k) ∧
    (∀ i, (remove_trailing_zeroes w.get_frequencies.1
      MIN_NUM_LITERALS_AND_LENGTHS).length ≤ i → w.l_freqs.getD i 0 = 0) ∧
    (∀ i, (remove_trailing_zeroes w.get_frequencies.2
      MIN_NUM_DISTANCES).length ≤ i → w.d_freqs.getD i 0 = 0) := by
  have hmin_l : MIN_NUM_LITERALS_AND_LENGTHS = 257 := rfl
  have hmin_d : MIN_NUM_DISTANCES = 1 := rfl
  have hfr : w.get_frequencies.1 = w.l_freqs := rfl
  have hfr2 : w.get_frequencies.2 = w.d_freqs := rfl
  rw [hfr, hfr2, huffman_lengths_from_frequency_length,
    huffman_lengths_from_frequency_length, hmin_l, hmin_d]
  refine ⟨remove_trailing_zeroes_length_ge _ _ (by omega), ?_,
    remove_trailing_zeroes_length_ge _ _ (by omega), ?_, ⟨_, rfl⟩, ⟨_, rfl⟩,
    fun i hi => remove_trailing_zeroes_dropped _ _ _ hi,
    fun i hi => remove_trailing_zeroes_dropped _ _ _ hi⟩
  · have := remove_trailing_zeroes_length_le w.l_freqs 257
    omega
  · have := remove_trailing_zeroes_length_le w.d_freqs 1
    omega

set_option maxRecDepth 10000 in
theorem claim_C8_dynamic_header_minima_witness :
    DynamicWriter.new.l_freqs.length = 286 ∧
    257 ≤ (huffman_lengths_from_frequency
      (remove_trailing_zeroes DynamicWriter.new.get_frequencies.1
        MIN_NUM_LITERALS_AND_LENGTHS) MAX_CODE_LENGTH).length ∧
    1 ≤ (huffman_lengths_from_frequency
      (remove_trailing_zeroes DynamicWriter.new.get_frequencies.2
        MIN_NUM_DISTANCES) MAX_CODE_LENGTH).length :=
  ⟨by decide,
   (claim_C8_dynamic_header_minima DynamicWriter.new (by decide) (by decide)).1,
   (claim_C8_dynamic_header_minima DynamicWriter.new (by decide) (by decide)).2.2.1⟩

/-! ## Bit-level round-trip lemmas -/

theorem natBitsLSB_length (v w : Nat) : (natBitsLSB v w).length = w := by
  induction w generalizing v with
  | zero => rfl
  | succ w ih => simp [natBitsLSB, ih]

theorem readBitsLSB_append (n v : Nat) (rest : List Bool) (h : v < 2 ^ n) :
    readBitsLSB n (natBitsLSB v n ++ rest) = some (v, rest) := by
  induction n generalizing v with
  | zero =>
    simp only [Nat.pow_zero, Nat.lt_one_iff] at h
    subst h
    rfl
  | succ n ih =>
    have hv : v / 2 < 2 ^ n := by
      rw [Nat.div_lt_iff_lt_mul (by omega)]
      rw [Nat.pow_succ] at h
      omega
    rw [natBitsLSB, List.cons_append, readBitsLSB, ih (v / 2) hv]
    have hbit : (if decide (v % 2 = 1) = true then 1 else 0) + 2 * (v / 2) = v := by
      by_cases hm : v % 2 = 1
      · rw [if_pos (by simp [hm])]
        omega
      · rw [if_neg (by simp [hm])]
        omega
    simp only [Option.map_some']
    rw [hbit]

theorem bitsVal_lt (bits : List Bool) : bitsVal bits < 2 ^ bits.length := by
  induction bits with
  | nil => simp [bitsVal]
  | cons b r ih =>
    rw [bitsVal]
    simp only [List.length_cons, Nat.pow_succ]
    split <;> omega

theorem natBitsLSB_bitsVal (bits : List Bool) :
    natBitsLSB (bitsVal bits) bits.length = bits := by
  induction bits with
  | nil => rfl
  | cons b r ih =>
    rw [bitsVal, List.length_cons, natBitsLSB]
    have h2 : ((if b then 1 else 0) + 2 * bitsVal r) % 2 = if b then 1 else 0 := by
      split <;> omega
    have h3 : ((if b then 1 else 0) + 2 * bitsVal r) / 2 = bitsVal r := by
      split <;> omega
    rw [h2, h3, ih]
    cases b <;> simp

theorem bytesBits_cons (b : Nat) (r : List Nat) :
    bytesBits (b :: r) = natBitsLSB b 8 ++ bytesBits r := by
  simp [bytesBits]

theorem bytesBits_append (a b : List Nat) :
    bytesBits (a ++ b) = bytesBits a ++ bytesBits b := by
  simp [bytesBits]

theorem bytesBits_bitsToBytes : ∀ (bits : List Bool), bits.length % 8 = 0 →
    bytesBits (bitsToBytes bits) = bits
  | [], _ => rfl
  | [_], h => by simp at h
  | [_, _], h => by simp at h
  | [_, _, _], h => by simp at h
  | [_, _, _, _], h => by simp at h
  | [_, _, _, _, _], h => by simp at h
  | [_, _, _, _, _, _], h => by simp at h
  | [_, _, _, _, _, _, _], h => by simp at h
  | b0 :: b1 :: b2 :: b3 :: b4 :: b5 :: b6 :: b7 :: rest, h => by
    have ih := bytesBits_bitsToBytes rest (by
      simp only [List.length_cons] at h
      omega)
    rw [bitsToBytes, bytesBits_cons, ih]
    rw [show natBitsLSB (bitsVal [b0, b1, b2, b3, b4, b5, b6, b7]) 8 =
      [b0, b1, b2, b3, b4, b5, b6, b7] from
      natBitsLSB_bitsVal [b0, b1, b2, b3, b4, b5, b6, b7]]
    rfl

theorem read_bytes_append (bytes : List Nat) (rest : List Bool)
    (h : ∀ b ∈ bytes, b < 256) :
    read_bytes bytes.length (bytesBits bytes ++ rest) = some (bytes, rest) := by
  induction bytes with
  | nil => rfl
  | cons b r ih =>
    rw [List.length_cons, bytesBits_cons, read_bytes, List.append_assoc,
      readBitsLSB_append 8 b _ (h b (by simp))]
    dsimp only
    rw [ih (fun x hx => h x (by simp [hx]))]
    rfl

theorem natBitsLSB_split (v a b : Nat) :
    natBitsLSB v (a + b) = natBitsLSB (v % 2 ^ a) a ++ natBitsLSB (v / 2 ^ a) b := by
  induction a generalizing v with
  | zero => simp [natBitsLSB]
  | succ a ih =>
    have hps : (2 : Nat) ^ (a + 1) = 2 * 2 ^ a := by
      rw [Nat.pow_succ, Nat.mul_comm]
    have h1 : v % 2 ^ (a + 1) % 2 = v % 2 := Nat.mod_mod_of_dvd v ⟨2 ^ a, hps⟩
    have h2 : v % 2 ^ (a + 1) / 2 = v / 2 % 2 ^ a := by
      rw [hps, Nat.mod_mul_right_div_self]
    have h3 : v / 2 ^ (a + 1) = v / 2 / 2 ^ a := by
      rw [hps, Nat.div_div_eq_div_mul, Nat.mul_comm]
    calc natBitsLSB v (a + 1 + b)
        = decide (v % 2 = 1) :: natBitsLSB (v / 2) (a + b) := by
          rw [show a + 1 + b = (a + b) + 1 from by omega]
          rfl
      _ = decide (v % 2 = 1) ::
          (natBitsLSB (v / 2 % 2 ^ a) a ++ natBitsLSB (v / 2 / 2 ^ a) b) := by
          rw [ih]
      _ = decide (v % 2 ^ (a + 1) % 2 = 1) ::
          (natBitsLSB (v % 2 ^ (a + 1) / 2) a ++ natBitsLSB (v / 2 ^ (a + 1)) b) := by
          rw [h1, h2, h3]
      _ = natBitsLSB (v % 2 ^ (a + 1)) (a + 1) ++ natBitsLSB (v / 2 ^ (a + 1)) b := rfl

/-! ## Kraft validity of code length vectors -/

/-- The Kraft sum of a length vector, scaled by `2 ^ 15`. -/
def kraft_scaled (lengths : List Nat) : Nat :=
  (lengths.map (fun l => if l = 0 then 0 else 2 ^ (15 - l))).sum

/-- A usable code length vector: lengths at most 15 and the Kraft sum not
oversubscribed.  The canonical construction on such a vector is a prefix
code. -/
def ValidLengths (lengths : List Nat) : Prop :=
  (∀ l ∈ lengths, l ≤ 15) ∧ kraft_scaled lengths ≤ 2 ^ 15

/-- The scaled Kraft mass of the lengths up to `l`. -/
def partial_kraft (lengths : List Nat) : Nat → Nat
  | 0 => 0
  | l + 1 => partial_kraft lengths l + bl_count lengths (l + 1) * 2 ^ (15 - (l + 1))

theorem first_code_partial (lengths : List Nat) (l : Nat) (hl : l ≤ 15) :
    2 ^ (15 - l) * (first_code lengths l + bl_count lengths l) =
      partial_kraft lengths l := by
  induction l with
  | zero => simp [first_code, bl_count, partial_kraft]
  | succ l ih =>
    have hp : (2 : Nat) ^ (15 - l) = 2 * 2 ^ (15 - (l + 1)) := by
      rw [← Nat.pow_succ']
      congr 1
      omega
    rw [partial_kraft, ← ih (by omega), first_code, hp]
    ring

theorem partial_kraft_mono (lengths : List Nat) (l1 l2 : Nat) (h : l1 ≤ l2) :
    partial_kraft lengths l1 ≤ partial_kraft lengths l2 := by
  induction l2 with
  | zero =>
    have hm : l1 = 0 := by omega
    rw [hm]
  | succ l2 ih =>
    rcases Nat.lt_or_ge l1 (l2 + 1) with h2 | h2
    · have := ih (by omega)
      rw [partial_kraft]
      omega
    · have hm : l1 = l2 + 1 := by omega
      rw [hm]

theorem partial_kraft_nil (l : Nat) : partial_kraft [] l = 0 := by
  induction l with
  | zero => rfl
  | succ l ih => simp [partial_kraft, ih, bl_count]

theorem partial_kraft_cons (x : Nat) (rest : List Nat) (l : Nat) :
    partial_kraft (x :: rest) l =
      partial_kraft rest l + (if 1 ≤ x ∧ x ≤ l then 2 ^ (15 - x) else 0) := by
  induction l with
  | zero =>
    rw [partial_kraft, partial_kraft, if_neg (by omega)]
  | succ l ih =>
    simp only [partial_kraft]
    rw [ih]
    have hcount : bl_count (x :: rest) (l + 1) =
        bl_count rest (l + 1) + (if x = l + 1 then 1 else 0) := by
      rw [bl_count, bl_count, if_neg (by omega), if_neg (by omega), List.count_cons]
      by_cases h : x = l + 1
      · simp [h]
      · simp [h, Ne.symm h]
    rw [hcount]
    by_cases hx : x = l + 1
    · subst hx
      rw [if_neg (by omega), if_pos rfl, if_pos (by omega)]
      ring
    · rw [if_neg hx]
      by_cases hx2 : 1 ≤ x ∧ x ≤ l
      · rw [if_pos hx2, if_pos (by omega)]
        ring
      · rw [if_neg hx2, if_neg (by omega)]
        ring

theorem partial_kraft_fifteen (lengths : List Nat) (hb : ∀ x ∈ lengths, x ≤ 15) :
    partial_kraft lengths 15 = kraft_scaled lengths := by
  induction lengths with
  | nil => rw [partial_kraft_nil]; rfl
  | cons x rest ih =>
    rw [partial_kraft_cons, ih (fun y hy => hb y (by simp [hy]))]
    unfold kraft_scaled
    rw [List.map_cons, List.sum_cons]
    have hx := hb x (by simp)
    by_cases h0 : x = 0
    · subst h0
      rw [if_neg (by omega), if_pos rfl]
      omega
    · rw [if_pos ⟨by omega, hx⟩, if_neg h0]
      omega

theorem first_code_add_count_le (lengths : List Nat) (hv : ValidLengths lengths)
    (l : Nat) (hl : l ≤ 15) :
    first_code lengths l + bl_count lengths l ≤ 2 ^ l := by
  have h1 := first_code_partial lengths l hl
  have h2 := partial_kraft_mono lengths l 15 hl
  have h3 := partial_kraft_fifteen lengths hv.1
  have hk := hv.2
  have h4 : 2 ^ (15 - l) * (first_code lengths l + bl_count lengths l) ≤ 2 ^ 15 := by
    rw [h1]
    omega
  have h5 : (2 : Nat) ^ 15 = 2 ^ (15 - l) * 2 ^ l := by
    rw [← Nat.pow_add]
    congr 1
    omega
  rw [h5] at h4
  exact Nat.le_of_mul_le_mul_left h4 (Nat.pow_pos (by omega))

theorem first_code_growth (lengths : List Nat) (l1 l2 : Nat) (h : l1 < l2) :
    (first_code lengths l1 + bl_count lengths l1) * 2 ^ (l2 - l1) ≤
      first_code lengths l2 := by
  induction l2 with
  | zero => omega
  | succ l2 ih =>
    rcases Nat.lt_or_ge l1 l2 with h2 | h2
    · have hi := ih h2
      have hstep : first_code lengths l2 * 2 ≤ first_code lengths (l2 + 1) := by
        rw [first_code]
        omega
      have hpow : (2 : Nat) ^ (l2 + 1 - l1) = 2 ^ (l2 - l1) * 2 := by
        rw [← Nat.pow_succ]
        congr 1
        omega
      rw [hpow, ← Nat.mul_assoc]
      calc (first_code lengths l1 + bl_count lengths l1) * 2 ^ (l2 - l1) * 2
          ≤ first_code lengths l2 * 2 := by omega
        _ ≤ first_code lengths (l2 + 1) := hstep
    · have hm : l1 = l2 := by omega
      subst hm
      rw [show l1 + 1 - l1 = 1 from by omega, pow_one, first_code]

theorem count_take_lt (lengths : List Nat) (sym len : Nat) (hsym : sym < lengths.length)
    (hlen : lengths.getD sym 0 = len) :
    (lengths.take sym).count len < lengths.count len := by
  conv_rhs => rw [← List.take_append_drop sym lengths]
  rw [List.count_append]
  have hdrop : lengths.drop sym = len :: lengths.drop (sym + 1) := by
    rw [List.drop_eq_getElem_cons hsym]
    congr 1
    rw [← hlen, List.getD_eq_getElem lengths 0 hsym]
  rw [hdrop, List.count_cons]
  simp

theorem count_take_countP (lengths : List Nat) (len sym : Nat)
    (h : sym ≤ lengths.length) :
    (lengths.take sym).count len =
      (List.range sym).countP (fun s => lengths.getD s 0 == len) := by
  induction sym with
  | zero => simp
  | succ sym ih =>
    have hlt : sym < lengths.length := by omega
    rw [List.range_succ, List.countP_append, ← ih (by omega), List.take_succ,
      List.getElem?_eq_getElem hlt, Option.toList_some, List.count_append]
    congr 1
    by_cases hc : lengths.getD sym 0 = len
    · have hg : lengths[sym] = len := by
        rw [← hc, List.getD_eq_getElem lengths 0 hlt]
      simp [hg, hc, List.countP_cons, List.getElem?_eq_getElem hlt]
    · have hg : lengths[sym] ≠ len := by
        rw [List.getD_eq_getElem lengths 0 hlt] at hc
        exact hc
      simp [List.count_cons, Ne.symm hg, List.countP_cons, hc,
        List.getElem?_eq_getElem hlt, hg]

theorem countP_range_mono (p : Nat → Bool) (m n : Nat) (h : m ≤ n) :
    (List.range m).countP p ≤ (List.range n).countP p := by
  induction n with
  | zero =>
    have hm : m = 0 := by omega
    rw [hm]
  | succ n ih =>
    rcases Nat.lt_or_ge m (n + 1) with h2 | h2
    · rw [List.range_succ, List.countP_append]
      have := ih (by omega)
      omega
    · have hm : m = n + 1 := by omega
      rw [hm]

theorem filter_range_get (p : Nat → Bool) (n sym : Nat) (hsym : sym < n)
    (hp : p sym = true) :
    ((List.range n).filter p)[(List.range sym).countP p]? = some sym := by
  induction n with
  | zero => omega
  | succ n ih =>
    rw [List.range_succ, List.filter_append]
    rcases Nat.lt_or_ge sym n with h2 | h2
    · have hlt : (List.range sym).countP p < ((List.range n).filter p).length := by
        rw [← List.countP_eq_length_filter]
        have h3 := countP_range_mono p (sym + 1) n (by omega)
        rw [List.range_succ, List.countP_append] at h3
        simp only [List.countP_cons, List.countP_nil, hp, if_pos] at h3
        omega
      rw [List.getElem?_append_left hlt]
      exact ih h2
    · have hsym_eq : sym = n := by omega
      subst hsym_eq
      have hlen : ((List.range sym).filter p).length = (List.range sym).countP p :=
        (List.countP_eq_length_filter _ _).symm
      rw [show List.filter p [sym] = [sym] from by simp [hp],
        List.getElem?_append_right (by omega), hlen, Nat.sub_self]
      rfl

/-! ## Canonical decoding inverts canonical encoding -/

theorem natBitsLSB_snoc (m w : Nat) :
    natBitsLSB m (w + 1) =
      natBitsLSB (m % 2 ^ w) w ++ [decide (m / 2 ^ w % 2 = 1)] := by
  rw [natBitsLSB_split m w 1]
  rfl

/-- The canonical decoder, started after the first `len - d` bits of the
code of `sym` have been absorbed, accepts the remaining `d` bits and
returns `sym`. -/
theorem decode_sym_go_walk (lengths : List Nat) (hv : ValidLengths lengths)
    (sym len : Nat) (hsym : sym < lengths.length) (hlen : lengths.getD sym 0 = len)
    (hpos : 1 ≤ len) (rest : List Bool) :
    ∀ d, 1 ≤ d → d ≤ len → ∀ fuel, d ≤ fuel →
    decode_sym_go lengths (len - d) (canonical_code lengths sym / 2 ^ d)
      ((natBitsLSB (canonical_code lengths sym % 2 ^ d) d).reverse ++ rest) fuel =
      some (sym, rest) := by
  have hlen15 : len ≤ 15 := by
    rw [← hlen]
    refine hv.1 _ ?_
    rw [List.getD_eq_getElem lengths 0 hsym]
    exact List.getElem_mem hsym
  have hcnt : bl_count lengths len = lengths.count len := by
    rw [bl_count, if_neg (by omega)]
  have hrank : code_rank lengths sym < bl_count lengths len := by
    rw [hcnt, code_rank, hlen]
    exact count_take_lt lengths sym len hsym hlen
  have hcode : canonical_code lengths sym =
      first_code lengths len + code_rank lengths sym := by
    rw [canonical_code, hlen]
  intro d
  induction d with
  | zero => omega
  | succ d ih =>
    intro _ hd fuel hfuel
    obtain ⟨f, rfl⟩ : ∃ f, fuel = f + 1 := ⟨fuel - 1, by omega⟩
    rw [natBitsLSB_snoc, List.reverse_append, List.reverse_singleton,
      List.singleton_append, List.cons_append, decode_sym_go]
    have hp1 : (2 : Nat) ^ (d + 1) = 2 ^ d * 2 := by
      rw [Nat.pow_succ]
    have hbitv : canonical_code lengths sym % 2 ^ (d + 1) / 2 ^ d % 2 =
        canonical_code lengths sym / 2 ^ d % 2 := by
      rw [hp1, Nat.mod_mul_right_div_self]
      omega
    have hmm : canonical_code lengths sym % 2 ^ (d + 1) % 2 ^ d =
        canonical_code lengths sym % 2 ^ d :=
      Nat.mod_mod_of_dvd _ ⟨2, hp1⟩
    have hacc : 2 * (canonical_code lengths sym / 2 ^ (d + 1)) +
        (if decide (canonical_code lengths sym % 2 ^ (d + 1) / 2 ^ d % 2 = 1) = true
          then 1 else 0) = canonical_code lengths sym / 2 ^ d := by
      rw [hbitv]
      have h1 : canonical_code lengths sym / 2 ^ (d + 1) =
          canonical_code lengths sym / 2 ^ d / 2 := by
        rw [hp1, ← Nat.div_div_eq_div_mul]
      rw [h1]
      by_cases hb : canonical_code lengths sym / 2 ^ d % 2 = 1
      · rw [if_pos (by simp [hb])]
        omega
      · rw [if_neg (by simp [hb])]
        omega
    have hl2 : len - (d + 1) + 1 = len - d := by omega
    rw [hacc, hl2, hmm]
    rcases Nat.eq_zero_or_pos d with hd0 | hdpos
    · subst hd0
      have hcond : first_code lengths len ≤ canonical_code lengths sym ∧
          canonical_code lengths sym <
            first_code lengths len + bl_count lengths len := by
        rw [hcode]
        omega
      have hsor : sym_of_rank lengths len
          (canonical_code lengths sym - first_code lengths len) = some sym := by
        rw [sym_of_rank, hcode, Nat.add_sub_cancel_left, code_rank, hlen,
          count_take_countP lengths len sym (by omega)]
        refine filter_range_get _ lengths.length sym hsym ?_
        show (lengths.getD sym 0 == len) = true
        rw [hlen]
        exact beq_self_eq_true len
      rw [Nat.sub_zero, Nat.pow_zero, Nat.div_one, if_pos hcond, hsor]
      simp [natBitsLSB]
    · have hfc := first_code_growth lengths (len - d) len (by omega)
      have hge : first_code lengths (len - d) + bl_count lengths (len - d) ≤
          canonical_code lengths sym / 2 ^ d := by
        rw [Nat.le_div_iff_mul_le (Nat.pow_pos (by omega : (0:Nat) < 2))]
        have hd2 : len - (len - d) = d := by omega
        rw [hd2] at hfc
        have : first_code lengths len ≤ canonical_code lengths sym := by
          rw [hcode]
          omega
        omega
      rw [if_neg (by
        rintro ⟨_, hcon⟩
        omega)]
      exact ih (by omega) (by omega) f (by omega)

/-- Canonical decoding inverts canonical encoding: decoding the emitted
bits of any symbol present in a valid code recovers the symbol. -/
theorem decode_code_bits (lengths : List Nat) (hv : ValidLengths lengths)
    (sym : Nat) (hsym : sym < lengths.length) (hpos : lengths.getD sym 0 ≠ 0)
    (rest : List Bool) :
    decode_sym lengths (code_bits lengths sym ++ rest) = some (sym, rest) := by
  have hlen15 : lengths.getD sym 0 ≤ 15 := by
    refine hv.1 _ ?_
    rw [List.getD_eq_getElem lengths 0 hsym]
    exact List.getElem_mem hsym
  have hcode_lt : canonical_code lengths sym < 2 ^ lengths.getD sym 0 := by
    have h1 := first_code_add_count_le lengths hv (lengths.getD sym 0) hlen15
    have h2 := count_take_lt lengths sym (lengths.getD sym 0) hsym rfl
    rw [canonical_code, code_rank]
    have h3 : bl_count lengths (lengths.getD sym 0) =
        lengths.count (lengths.getD sym 0) := by
      rw [bl_count, if_neg hpos]
    omega
  have hwalk := decode_sym_go_walk lengths hv sym (lengths.getD sym 0) hsym rfl
    (by omega) rest (lengths.getD sym 0) (by omega) (le_refl _) 15 hlen15
  rw [Nat.sub_self, Nat.div_eq_of_lt hcode_lt, Nat.mod_eq_of_lt hcode_lt] at hwalk
  rw [decode_sym, code_bits]
  exact hwalk

/-! ## The generated code lengths are valid -/

/-- The leaf symbols of a Huffman tree, in leaf order. -/
def leaves : HTree → List Nat
  | HTree.leaf s => [s]
  | HTree.node l r => leaves l ++ leaves r

theorem leaf_depths_map_fst (t : HTree) (d : Nat) :
    (leaf_depths t d).map Prod.fst = leaves t := by
  induction t generalizing d with
  | leaf s => rfl
  | node l r ihl ihr => simp [leaf_depths, leaves, ihl, ihr]

theorem leaf_depths_ne_nil (t : HTree) (d : Nat) : leaf_depths t d ≠ [] := by
  induction t generalizing d with
  | leaf s => simp [leaf_depths]
  | node l r ihl ihr => simp [leaf_depths, ihl]

theorem leaf_depths_depth_ge (t : HTree) (d : Nat) :
    ∀ p ∈ leaf_depths t d, d ≤ p.2 := by
  induction t generalizing d with
  | leaf s =>
    intro p hp
    simp only [leaf_depths, List.mem_singleton] at hp
    subst hp
    exact le_refl d
  | node l r ihl ihr =>
    intro p hp
    rw [leaf_depths, List.mem_append] at hp
    rcases hp with hp | hp
    · have := ihl (d + 1) p hp
      omega
    · have := ihr (d + 1) p hp
      omega

theorem insert_by_weight_flatMap_perm (w : Nat) (t : HTree)
    (xs : List (Nat × HTree)) :
    ((insert_by_weight w t xs).flatMap (fun p => leaves p.2)).Perm
      (leaves t ++ xs.flatMap (fun p => leaves p.2)) := by
  induction xs with
  | nil => simp [insert_by_weight]
  | cons x r ih =>
    obtain ⟨w2, t2⟩ := x
    rw [insert_by_weight]
    split
    · rw [List.flatMap_cons, List.flatMap_cons]
      refine (List.Perm.append_left (leaves t2) ih).trans ?_
      rw [← List.append_assoc, ← List.append_assoc]
      exact List.Perm.append_right _ List.perm_append_comm
    · simp only [List.flatMap_cons]
      exact List.Perm.refl _

theorem build_tree_go_leaves (fuel : Nat) :
    ∀ (xs : List (Nat × HTree)) (t : HTree), build_tree_go fuel xs = some t →
    (leaves t).Perm (xs.flatMap (fun p => leaves p.2)) := by
  induction fuel with
  | zero => intro xs t h; cases h
  | succ fuel ih =>
    intro xs t h
    match xs, h with
    | [], h => cases h
    | [(w1, t1)], h =>
      cases h
      simp
    | (w1, t1) :: (w2, t2) :: r, h =>
      rw [build_tree_go] at h
      have h2 := ih _ _ h
      refine h2.trans ((insert_by_weight_flatMap_perm _ _ _).trans ?_)
      rw [leaves, List.flatMap_cons, List.flatMap_cons, List.append_assoc]

theorem build_tree_go_node (fuel : Nat) :
    ∀ (xs : List (Nat × HTree)) (t : HTree), build_tree_go fuel xs = some t →
    2 ≤ xs.length → ∃ a b, t = HTree.node a b := by
  induction fuel with
  | zero => intro xs t h; cases h
  | succ fuel ih =>
    intro xs t h hlen
    match xs, h with
    | [(w1, t1)], h => simp at hlen
    | (w1, t1) :: (w2, t2) :: r, h =>
      rw [build_tree_go] at h
      match r with
      | [] =>
        match fuel, h with
        | f + 1, h =>
          rw [insert_by_weight, build_tree_go] at h
          cases h
          exact ⟨t1, t2, rfl⟩
      | x :: r2 =>
        refine ih _ _ h ?_
        rw [insert_by_weight_length]
        simp

theorem foldl_insert_flatMap_perm (items : List (Nat × HTree)) :
    ∀ (acc : List (Nat × HTree)),
    ((items.foldl (fun a p => insert_by_weight p.1 p.2 a) acc).flatMap
        (fun p => leaves p.2)).Perm
      (acc.flatMap (fun p => leaves p.2) ++ items.flatMap (fun p => leaves p.2)) := by
  induction items with
  | nil => intro acc; simp
  | cons x r ih =>
    intro acc
    obtain ⟨w2, t2⟩ := x
    rw [List.foldl_cons]
    refine (ih _).trans ?_
    rw [List.flatMap_cons]
    refine (List.Perm.append_right _ (insert_by_weight_flatMap_perm _ _ _)).trans ?_
    rw [List.append_assoc, ← List.append_assoc, ← List.append_assoc]
    exact List.Perm.append_right _ List.perm_append_comm

theorem lookup_some_mem {ds : List (Nat × Nat)} {s d : Nat}
    (h : ds.lookup s = some d) : (s, d) ∈ ds := by
  induction ds with
  | nil => cases h
  | cons x r ih =>
    obtain ⟨k, v⟩ := x
    by_cases hk : s = k
    · subst hk
      simp only [List.lookup, beq_self_eq_true] at h
      cases h
      exact List.mem_cons_self _ _
    · have hbeq : (s == k) = false := by simpa using hk
      simp only [List.lookup, hbeq] at h
      exact List.mem_cons_of_mem _ (ih h)

theorem mem_lookup_isSome {ds : List (Nat × Nat)} {s : Nat}
    (h : s ∈ ds.map Prod.fst) : ∃ d, ds.lookup s = some d := by
  induction ds with
  | nil => simp at h
  | cons x r ih =>
    obtain ⟨k, v⟩ := x
    by_cases hk : s = k
    · subst hk
      exact ⟨v, by simp [List.lookup]⟩
    · have hbeq : (s == k) = false := by simpa using hk
      simp only [List.lookup, hbeq]
      refine ih ?_
      simp only [List.map_cons, List.mem_cons] at h
      rcases h with h | h
      · exact absurd h hk
      · exact h

theorem lookup_none_of_not_mem {ds : List (Nat × Nat)} {s : Nat}
    (h : ¬s ∈ ds.map Prod.fst) : ds.lookup s = none := by
  cases hl : ds.lookup s with
  | none => rfl
  | some d => exact absurd (List.mem_map.mpr ⟨(s, d), lookup_some_mem hl, rfl⟩) h

theorem foldl_insert_length (items : List (Nat × HTree)) :
    ∀ acc : List (Nat × HTree),
    (items.foldl (fun a p => insert_by_weight p.1 p.2 a) acc).length =
      acc.length + items.length := by
  induction items with
  | nil => intro acc; simp
  | cons x r ih =>
    intro acc
    rw [List.foldl_cons, ih, insert_by_weight_length, List.length_cons]
    omega

theorem build_tree_go_isSome (fuel : Nat) :
    ∀ xs : List (Nat × HTree), xs ≠ [] → xs.length ≤ fuel →
    (build_tree_go fuel xs).isSome = true := by
  induction fuel with
  | zero =>
    intro xs hne hlen
    exact absurd (List.eq_nil_of_length_eq_zero (Nat.le_zero.mp hlen)) hne
  | succ fuel ih =>
    intro xs hne hlen
    match xs with
    | [] => exact absurd rfl hne
    | [(w, t)] => rfl
    | (w1, t1) :: (w2, t2) :: r =>
      rw [build_tree_go]
      have hil := insert_by_weight_length (w1 + w2) (HTree.node t1 t2) r
      refine ih _ ?_ ?_
      · intro hc
        rw [hc] at hil
        simp at hil
      · simp only [List.length_cons] at hlen
        omega

/-- The scaled Kraft mass of a subtree rooted at depth `d0` is at most the
mass of a single node at that depth. -/
theorem leaf_depths_kraft (t : HTree) :
    ∀ d0 : Nat, d0 ≤ 15 → (∀ p ∈ leaf_depths t d0, p.2 ≤ 15) →
    ((leaf_depths t d0).map (fun p => 2 ^ (15 - p.2))).sum ≤ 2 ^ (15 - d0) := by
  induction t with
  | leaf s => intro d0 _ _; simp [leaf_depths]
  | node l r ihl ihr =>
    intro d0 _ hall
    have hd1 : d0 + 1 ≤ 15 := by
      obtain ⟨p, hp⟩ := List.exists_mem_of_ne_nil _ (leaf_depths_ne_nil l (d0 + 1))
      have h1 := leaf_depths_depth_ge l (d0 + 1) p hp
      have h2 : p.2 ≤ 15 := hall p (by
        rw [leaf_depths, List.mem_append]; exact Or.inl hp)
      omega
    have hlb := ihl (d0 + 1) hd1 (fun p hp => hall p (by
      rw [leaf_depths, List.mem_append]; exact Or.inl hp))
    have hrb := ihr (d0 + 1) hd1 (fun p hp => hall p (by
      rw [leaf_depths, List.mem_append]; exact Or.inr hp))
    rw [leaf_depths, List.map_append, List.sum_append]
    have hpow : 2 ^ (15 - d0) = 2 ^ (15 - (d0 + 1)) + 2 ^ (15 - (d0 + 1)) := by
      have he : 15 - d0 = (15 - (d0 + 1)) + 1 := by omega
      rw [he, pow_succ]
      omega
    omega

theorem sum_range_list_eq_finset (f : Nat → Nat) (n : Nat) :
    ((List.range n).map f).sum = ∑ s ∈ Finset.range n, f s := by
  induction n with
  | zero => simp
  | succ n ih =>
    rw [List.range_succ, List.map_append, List.sum_append, Finset.sum_range_succ, ih]
    simp

/-- Summing a lookup-projected value over all keys is bounded by the sum over
the association list, when its keys are distinct. -/
theorem finset_sum_lookup_le (g : Nat → Nat) (n : Nat) :
    ∀ ds : List (Nat × Nat), (ds.map Prod.fst).Nodup →
    (∑ s ∈ Finset.range n, ((ds.lookup s).map g).getD 0) ≤
      (ds.map (fun p => g p.2)).sum := by
  intro ds
  induction ds with
  | nil => intro _; simp [List.lookup]
  | cons x r ih =>
    intro hnd
    obtain ⟨k, v⟩ := x
    rw [List.map_cons, List.nodup_cons] at hnd
    have hrk : r.lookup k = none := lookup_none_of_not_mem hnd.1
    have hpt : ∀ s, ((((k, v) :: r).lookup s).map g).getD 0 =
        ((r.lookup s).map g).getD 0 + (if s = k then g v else 0) := by
      intro s
      by_cases hk : s = k
      · subst hk
        simp [List.lookup, hrk]
      · have hbeq : (s == k) = false := by simpa using hk
        simp [List.lookup, hbeq, hk]
    calc (∑ s ∈ Finset.range n, ((((k, v) :: r).lookup s).map g).getD 0)
        = (∑ s ∈ Finset.range n,
            (((r.lookup s).map g).getD 0 + if s = k then g v else 0)) :=
          Finset.sum_congr rfl (fun s _ => hpt s)
      _ = (∑ s ∈ Finset.range n, ((r.lookup s).map g).getD 0) +
          (∑ s ∈ Finset.range n, if s = k then g v else 0) := Finset.sum_add_distrib
      _ ≤ (r.map (fun p => g p.2)).sum + g v := by
          have h1 := ih hnd.2
          have h2 : (∑ s ∈ Finset.range n, if s = k then g v else 0) ≤ g v := by
            rw [Finset.sum_ite_eq']
            split <;> omega
          omega
      _ = (((k, v) :: r).map (fun p => g p.2)).sum := by
          rw [List.map_cons, List.sum_cons]
          dsimp only
          omega

theorem sum_map_ite_const (l : List Nat) (p : Nat → Prop) [DecidablePred p] (c : Nat) :
    (l.map (fun s => if p s then c else 0)).sum =
      c * (l.filter (fun s => decide (p s))).length := by
  induction l with
  | nil => simp
  | cons a r ih =>
    by_cases hp : p a
    · rw [List.map_cons, List.sum_cons, ih, if_pos hp,
        List.filter_cons_of_pos (by simpa using hp), List.length_cons, Nat.mul_succ]
      omega
    · rw [List.map_cons, List.sum_cons, ih,
        if_neg hp, List.filter_cons_of_neg (by simpa using hp)]
      omega

/-- The code lengths produced by the modelled length generator are a usable
code: every length is at most `max_len`, the Kraft sum is not oversubscribed,
and every symbol of positive frequency gets a code. -/
theorem huffman_lengths_from_frequency_valid (freqs : List Nat) (max_len : Nat)
    (hml1 : 1 ≤ max_len) (hml15 : max_len ≤ 15)
    (hnb : freqs.length ≤ 2 ^ max_len) :
    (∀ l ∈ huffman_lengths_from_frequency freqs max_len, l ≤ max_len) ∧
    kraft_scaled (huffman_lengths_from_frequency freqs max_len) ≤ 2 ^ 15 ∧
    (∀ s, 0 < freqs.getD s 0 →
      (huffman_lengths_from_frequency freqs max_len).getD s 0 ≠ 0) := by
  have hsz : ∀ s, freqs.length ≤ s → freqs.getD s 0 = 0 := by
    intro s hs
    rw [List.getD_eq_getElem?_getD, List.getElem?_eq_none hs]
    rfl
  have hact : ∀ s,
      s ∈ (List.range freqs.length).filter (fun s => 0 < freqs.getD s 0) ↔
        0 < freqs.getD s 0 := by
    intro s
    constructor
    · intro h
      simpa using (List.mem_filter.mp h).2
    · intro h
      refine List.mem_filter.mpr ⟨List.mem_range.mpr ?_, by simpa using h⟩
      by_contra hge
      push_neg at hge
      have := hsz s hge
      omega
  simp only [huffman_lengths_from_frequency]
  split
  · -- no active symbol: all lengths zero
    next _active hA =>
    refine ⟨fun l hl => ?_, ?_, fun s hf => ?_⟩
    · rw [List.eq_of_mem_replicate hl]
      omega
    · simp [kraft_scaled, List.map_replicate]
    · have hmem := (hact s).mpr hf
      rw [hA] at hmem
      exact absurd hmem (List.not_mem_nil s)
  · -- a single active symbol gets length one
    next _active s1 hA =>
    have hs1 : s1 ∈ (List.range freqs.length).filter
        (fun s => 0 < freqs.getD s 0) := by
      rw [hA]; exact List.mem_singleton.mpr rfl
    have hs1n : s1 < freqs.length := by
      have := (List.mem_filter.mp hs1).1
      simpa using this
    refine ⟨fun l hl => ?_, ?_, fun s hf => ?_⟩
    · obtain ⟨i, _, hi⟩ := List.mem_map.mp hl
      by_cases h : i = s1
      · rw [← hi, if_pos h]; omega
      · rw [← hi, if_neg h]; omega
    · rw [kraft_scaled, List.map_map]
      have hpt : ∀ i ∈ List.range freqs.length,
          ((fun l => if l = 0 then 0 else 2 ^ (15 - l)) ∘
            (fun i => if i = s1 then 1 else 0)) i =
          (if i = s1 then 2 ^ 14 else 0) := by
        intro i _
        by_cases h : i = s1 <;> simp [h]
      rw [List.map_congr_left hpt, sum_range_list_eq_finset,
        Finset.sum_ite_eq']
      split <;> omega
    · have hss : s = s1 := by
        have := (hact s).mpr hf
        rw [hA] at this
        simpa using this
      subst hss
      have hlen : ((List.range freqs.length).map
          (fun i => if i = s then 1 else 0)).getD s 0 = 1 := by
        rw [List.getD_eq_getElem _ _ (by simpa using hs1n)]
        simp [hs1n]
      rw [hlen]
      omega
  · -- at least two active symbols: a real tree is built
    next _active hne1 hne2 =>
    rcases hA : (List.range freqs.length).filter (fun s => 0 < freqs.getD s 0) with
      _ | ⟨s1, _ | ⟨s2, rest⟩⟩
    · exact absurd hA hne1
    · exact absurd hA (hne2 s1)
    have hAnd : (s1 :: s2 :: rest).Nodup := by
      rw [← hA]
      exact List.Nodup.filter _ (List.nodup_range _)
    have hAsub : ∀ s, s ∈ s1 :: s2 :: rest → 0 < freqs.getD s 0 ∧ s < freqs.length := by
      intro s hs
      rw [← hA] at hs
      have h1 := (hact s).mp hs
      refine ⟨h1, ?_⟩
      have := (List.mem_filter.mp hs).1
      simpa using this
    have hAlen : (s1 :: s2 :: rest).length ≤ freqs.length := by
      rw [← hA]
      exact (List.length_filter_le _ _).trans (by simp)
    split
    · -- the builder cannot fail on a nonempty forest
      next hbt =>
      exfalso
      have hfl := foldl_insert_length ((s1 :: s2 :: rest).map
        (fun s => (freqs.getD s 0, HTree.leaf s))) []
      have hne : (((s1 :: s2 :: rest).map
          (fun s => (freqs.getD s 0, HTree.leaf s))).foldl
            (fun acc p => insert_by_weight p.1 p.2 acc) []) ≠ [] := by
        intro hc
        rw [hc] at hfl
        simp at hfl
      have hS := build_tree_go_isSome
        ((((s1 :: s2 :: rest).map
          (fun s => (freqs.getD s 0, HTree.leaf s))).foldl
            (fun acc p => insert_by_weight p.1 p.2 acc) []).length)
        ((((s1 :: s2 :: rest).map
          (fun s => (freqs.getD s 0, HTree.leaf s))).foldl
            (fun acc p => insert_by_weight p.1 p.2 acc) []))
        hne (le_refl _)
      simp only [build_tree] at hbt
      rw [hbt] at hS
      cases hS
    · next t hbt =>
      -- facts shared by both remaining branches
      have hperm : (leaves t).Perm (s1 :: s2 :: rest) := by
        have h1 := build_tree_go_leaves _ _ _ hbt
        have h2 := foldl_insert_flatMap_perm ((s1 :: s2 :: rest).map
          (fun s => (freqs.getD s 0, HTree.leaf s))) []
        refine (h1.trans h2).trans ?_
        rw [List.flatMap_nil, List.nil_append]
        have h3 : ((s1 :: s2 :: rest).map
            (fun s => (freqs.getD s 0, HTree.leaf s))).flatMap
              (fun p => leaves p.2) = s1 :: s2 :: rest := by
          simp [List.flatMap_map, leaves, Function.comp]
        rw [h3]
      have hnode : ∃ a b, t = HTree.node a b := by
        have hfl := foldl_insert_length ((s1 :: s2 :: rest).map
          (fun s => (freqs.getD s 0, HTree.leaf s))) []
        refine build_tree_go_node _ _ _ hbt ?_
        simp only [List.length_nil, List.length_map, List.length_cons] at hfl
        omega
      have hd1 : ∀ p ∈ leaf_depths t 0, 1 ≤ p.2 := by
        obtain ⟨a, b, ht⟩ := hnode
        subst ht
        intro p hp
        rw [leaf_depths, List.mem_append] at hp
        rcases hp with hp | hp
        · exact leaf_depths_depth_ge a 1 p hp
        · exact leaf_depths_depth_ge b 1 p hp
      have hmemA : ∀ s, 0 < freqs.getD s 0 →
          ∃ d, (leaf_depths t 0).lookup s = some d := by
        intro s hf
        refine mem_lookup_isSome ?_
        rw [leaf_depths_map_fst, hperm.mem_iff, ← hA]
        exact (hact s).mpr hf
      split
      · -- the tree respects the depth cap: lengths are the leaf depths
        next hall =>
        rw [List.all_eq_true] at hall
        have hd15 : ∀ p ∈ leaf_depths t 0, p.2 ≤ 15 := by
          intro p hp
          have := hall p hp
          simp only [decide_eq_true_eq] at this
          omega
        refine ⟨fun l hl => ?_, ?_, fun s hf => ?_⟩
        · obtain ⟨i, _, hi⟩ := List.mem_map.mp hl
          rcases hlk : (leaf_depths t 0).lookup i with _ | d
          · rw [← hi, hlk]; simp
          · rw [← hi, hlk]
            have := hall _ (lookup_some_mem hlk)
            simpa using this
        · rw [kraft_scaled, List.map_map]
          have hpt : ∀ i ∈ List.range freqs.length,
              ((fun l => if l = 0 then 0 else 2 ^ (15 - l)) ∘
                (fun s => ((leaf_depths t 0).lookup s).getD 0)) i =
              (((leaf_depths t 0).lookup i).map
                (fun l => if l = 0 then 0 else 2 ^ (15 - l))).getD 0 := by
            intro i _
            simp only [Function.comp_apply]
            cases hlk : (leaf_depths t 0).lookup i with
            | none => simp
            | some d => simp
          rw [List.map_congr_left hpt, sum_range_list_eq_finset]
          have hnd : ((leaf_depths t 0).map Prod.fst).Nodup := by
            rw [leaf_depths_map_fst]
            exact (hperm.nodup_iff).mpr hAnd
          refine (finset_sum_lookup_le _ _ _ hnd).trans ?_
          have hle : ((leaf_depths t 0).map
              (fun p => if p.2 = 0 then 0 else 2 ^ (15 - p.2))).sum ≤
              ((leaf_depths t 0).map (fun p => 2 ^ (15 - p.2))).sum := by
            refine List.sum_le_sum ?_
            intro p _
            split
            · exact Nat.zero_le _
            · exact le_refl _
          refine hle.trans ?_
          have := leaf_depths_kraft t 0 (by omega) hd15
          simpa using this
        · obtain ⟨d, hd⟩ := hmemA s hf
          have hdpos : 1 ≤ d := hd1 _ (lookup_some_mem hd)
          have hsn : s < freqs.length := by
            by_contra hge
            push_neg at hge
            have := hsz s hge
            omega
          rw [List.getD_eq_getElem _ _ (by simpa using hsn)]
          simp only [List.getElem_map, List.getElem_range, hd, Option.getD_some]
          omega
      · -- depth cap exceeded: every active symbol gets the flat length
        next hall =>
        have hA2 : 2 ≤ (s1 :: s2 :: rest).length := by simp
        have hc1 : 1 ≤ Nat.clog 2 (s1 :: s2 :: rest).length :=
          Nat.clog_pos (by omega) (by omega)
        have hcm : Nat.clog 2 (s1 :: s2 :: rest).length ≤ max_len :=
          (Nat.le_pow_iff_clog_le (by omega)).mp (hAlen.trans hnb)
        refine ⟨fun l hl => ?_, ?_, fun s hf => ?_⟩
        · obtain ⟨i, _, hi⟩ := List.mem_map.mp hl
          by_cases h : 0 < freqs.getD i 0
          · rw [← hi, if_pos h]; omega
          · rw [← hi, if_neg h]; omega
        · rw [kraft_scaled, List.map_map]
          have hpt : ∀ i ∈ List.range freqs.length,
              ((fun l => if l = 0 then 0 else 2 ^ (15 - l)) ∘
                (fun s => if 0 < freqs.getD s 0 then
                  Nat.clog 2 (s1 :: s2 :: rest).length else 0)) i =
              (if 0 < freqs.getD i 0 then
                2 ^ (15 - Nat.clog 2 (s1 :: s2 :: rest).length) else 0) := by
            intro i _
            by_cases h : 0 < freqs.getD i 0
            · simp only [Function.comp_apply, if_pos h]
              rw [if_neg (by omega)]
            · have hz : (if 0 < freqs.getD i 0 then
                  Nat.clog 2 (s1 :: s2 :: rest).length else 0) = 0 := if_neg h
              rw [Function.comp_apply, hz, if_neg h, if_pos rfl]
          rw [List.map_congr_left hpt, sum_map_ite_const]
          have hflt : ((List.range freqs.length).filter
              (fun s => decide (0 < freqs.getD s 0))).length =
              (s1 :: s2 :: rest).length := by
            rw [hA]
          have hup : (s1 :: s2 :: rest).length ≤
              2 ^ Nat.clog 2 (s1 :: s2 :: rest).length :=
            Nat.le_pow_clog (by omega) _
          rw [hflt]
          calc 2 ^ (15 - Nat.clog 2 (s1 :: s2 :: rest).length) *
                (s1 :: s2 :: rest).length
              ≤ 2 ^ (15 - Nat.clog 2 (s1 :: s2 :: rest).length) *
                2 ^ Nat.clog 2 (s1 :: s2 :: rest).length :=
                Nat.mul_le_mul_left _ hup
            _ = 2 ^ 15 := by
                rw [← pow_add]
                congr 1
                omega
        · have hsn : s < freqs.length := by
            by_contra hge
            push_neg at hge
            have := hsz s hge
            omega
          rw [List.getD_eq_getElem _ _ (by simpa using hsn)]
          simp only [List.getElem_map, List.getElem_range, if_pos hf]
          omega

/-! ## The length and distance symbol tables cover their ranges -/

theorem findIdx_getD_true (p : Nat → Bool) (l : List Nat)
    (h : l.findIdx p < l.length) : p (l.getD (l.findIdx p) 0) = true := by
  rw [List.getD_eq_getElem _ _ h]
  exact List.findIdx_getElem

theorem findIdx_getD_false (p : Nat → Bool) (l : List Nat) (i : Nat)
    (hi : i < l.length) (h : i < l.findIdx p) : p (l.getD i 0) = false := by
  rw [List.getD_eq_getElem _ _ hi]
  exact List.not_of_lt_findIdx h

set_option maxRecDepth 100000 in
/-- The length table covers every match length from 3 to 258: the selected
symbol index is in range, its base does not exceed the length, and the
offset fits in the symbol's extra bits. -/
theorem lengthCodeIdx_spec : ∀ len < 259, 3 ≤ len →
    lengthCodeIdx len < 29 ∧
    lengthBase.getD (lengthCodeIdx len) 0 ≤ len ∧
    len - lengthBase.getD (lengthCodeIdx len) 0 <
      2 ^ lengthExtraBits.getD (lengthCodeIdx len) 0 := by
  decide

/-- The distance table covers every distance from 1 to 32768: the selected
symbol index is in range, its base does not exceed the distance, and the
offset fits in the symbol's extra bits. -/
theorem distCodeIdx_spec (dist : Nat) (hd1 : 1 ≤ dist) (hd2 : dist ≤ 32768) :
    distCodeIdx dist < 30 ∧
    distBase.getD (distCodeIdx dist) 0 ≤ dist ∧
    dist - distBase.getD (distCodeIdx dist) 0 <
      2 ^ distExtraBits.getD (distCodeIdx dist) 0 := by
  have hstep : ∀ j, j < 29 →
      distBase.getD (j + 1) 0 ≤ distBase.getD j 0 + 2 ^ distExtraBits.getD j 0 := by
    decide
  have hlast : distBase.getD 29 0 + 2 ^ distExtraBits.getD 29 0 = 32769 := by
    decide
  have hlen : distBase.length = 30 := by decide
  set i := distBase.findIdx (fun b => dist < b) with hi
  have hle : i ≤ 30 := by
    rw [hi, ← hlen]
    exact List.findIdx_le_length _
  have hpos : 1 ≤ i := by
    by_contra hc
    push_neg at hc
    have h0 : i = 0 := by omega
    have htrue := findIdx_getD_true (fun b => dist < b) distBase (by omega)
    rw [← hi, h0] at htrue
    have : distBase.getD 0 0 = 1 := by decide
    rw [this] at htrue
    simp at htrue
    omega
  rw [distCodeIdx, ← hi]
  by_cases hc : i < 30
  · have htrue := findIdx_getD_true (fun b => dist < b) distBase (by omega)
    rw [← hi] at htrue
    simp only [decide_eq_true_eq] at htrue
    have hfalse := findIdx_getD_false (fun b => dist < b) distBase (i - 1)
      (by omega) (by omega)
    simp only [decide_eq_false_iff_not, Nat.not_lt] at hfalse
    have hII : i - 1 + 1 = i := by omega
    have hs := hstep (i - 1) (by omega)
    rw [hII] at hs
    exact ⟨by omega, hfalse, by omega⟩
  · have h30 : i = 30 := by omega
    have hfalse := findIdx_getD_false (fun b => dist < b) distBase 29
      (by omega) (by omega)
    simp only [decide_eq_false_iff_not, Nat.not_lt] at hfalse
    have h29 : i - 1 = 29 := by omega
    rw [h29]
    exact ⟨by omega, hfalse, by omega⟩

/-! ## Soundness of the LZ77 records -/

/-- The cursor position after replaying a record list from position `p`. -/
def records_end (p : Nat) : List LDPair → Nat
  | [] => p
  | LDPair.Literal _ :: r => records_end (p + 1) r
  | LDPair.LengthDistance len _ :: r => records_end (p + len) r
  | LDPair.EndOfBlock :: r => records_end p r

/-- The record list faithfully describes the input from position `p`
onwards: literals carry the byte at the cursor, and every match stays inside
the input, inside the window, behind the cursor, and repeats earlier data. -/
def good_records (input : List Nat) : Nat → List LDPair → Bool
  | _, [] => true
  | p, LDPair.Literal b :: r =>
    decide (p < input.length) && (input.getD p 0 == b) &&
      good_records input (p + 1) r
  | p, LDPair.LengthDistance len dist :: r =>
    decide (3 ≤ len) && decide (len ≤ 258) && decide (1 ≤ dist) &&
      decide (dist ≤ 32768) && decide (dist ≤ p) &&
      decide (p + len ≤ input.length) &&
      decide (∀ k < len, input.getD (p + k) 0 = input.getD (p - dist + k) 0) &&
      good_records input (p + len) r
  | _, LDPair.EndOfBlock :: _ => false

theorem records_end_append (p : Nat) (xs ys : List LDPair) :
    records_end p (xs ++ ys) = records_end (records_end p xs) ys := by
  induction xs generalizing p with
  | nil => rfl
  | cons x r ih =>
    cases x <;> simp only [List.cons_append, records_end] <;> exact ih _

theorem good_records_append (input : List Nat) (xs ys : List LDPair) :
    ∀ p, good_records input p (xs ++ ys) =
      (good_records input p xs && good_records input (records_end p xs) ys) := by
  induction xs with
  | nil => intro p; simp [good_records, records_end]
  | cons x r ih =>
    intro p
    cases x <;>
      simp only [List.cons_append, List.append_eq, good_records, records_end,
        ih, Bool.and_assoc, Bool.false_and]

theorem write_buffer (w : DynamicWriter) (ld : LDPair) :
    (w.write ld).buffer = w.buffer ++ [ld] := by
  cases ld <;> rfl

theorem match_length_le (input : List Nat) :
    ∀ limit p q, match_length input p q limit ≤ limit := by
  intro limit
  induction limit with
  | zero => intro p q; rw [match_length]
  | succ limit ih =>
    intro p q
    rw [match_length]
    split
    · have := ih (p + 1) (q + 1)
      omega
    · omega

theorem match_length_agree (input : List Nat) :
    ∀ limit p q k, k < match_length input p q limit →
      input.getD (p + k) 0 = input.getD (q + k) 0 := by
  intro limit
  induction limit with
  | zero => intro p q k h; rw [match_length] at h; omega
  | succ limit ih =>
    intro p q k h
    rw [match_length] at h
    split at h
    · next hc =>
      match k with
      | 0 => simpa using hc.1
      | k + 1 =>
        have := ih (p + 1) (q + 1) k (by omega)
        have e1 : p + (k + 1) = p + 1 + k := by omega
        have e2 : q + (k + 1) = q + 1 + k := by omega
        rw [e1, e2]
        exact this
    · omega

theorem match_length_pos_le (input : List Nat) :
    ∀ limit p q, match_length input p q limit = 0 ∨
      p + match_length input p q limit ≤ input.length := by
  intro limit
  induction limit with
  | zero => intro p q; rw [match_length]; omega
  | succ limit ih =>
    intro p q
    rw [match_length]
    split
    · next hc =>
      rcases ih (p + 1) (q + 1) with h | h
      · rw [h]
        right
        omega
      · right
        omega
    · left
      rfl

theorem chain_positions_mem (t : ChainedHashTable) (p : Nat) :
    ∀ fuel o q, q ∈ chain_positions t p o fuel →
      q < p ∧ p ≤ q + WINDOW_SIZE := by
  intro fuel
  induction fuel with
  | zero =>
    intro o q h
    cases o <;> simp [chain_positions] at h
  | succ fuel ih =>
    intro o q h
    cases o with
    | none => simp [chain_positions] at h
    | some q0 =>
      rw [chain_positions] at h
      split at h
      · next hc =>
        rcases List.mem_cons.mp h with h | h
        · subst h; exact hc
        · exact ih _ _ h
      · simp at h

theorem longest_match_go (input : List Nat) (p : Nat) :
    ∀ (cands : List Nat) (b : Nat × Nat),
      cands.foldl
        (fun best q =>
          let l := match_length input p q (min 258 (input.length - p))
          if best.1 < l then (l, q) else best) b = b ∨
      ((cands.foldl
        (fun best q =>
          let l := match_length input p q (min 258 (input.length - p))
          if best.1 < l then (l, q) else best) b).2 ∈ cands ∧
       (cands.foldl
        (fun best q =>
          let l := match_length input p q (min 258 (input.length - p))
          if best.1 < l then (l, q) else best) b).1 =
        match_length input p
          ((cands.foldl
            (fun best q =>
              let l := match_length input p q (min 258 (input.length - p))
              if best.1 < l then (l, q) else best) b).2)
          (min 258 (input.length - p))) := by
  intro cands
  induction cands with
  | nil => intro b; left; rfl
  | cons q cs ih =>
    intro b
    rw [List.foldl_cons]
    dsimp only
    rcases ih (if b.1 < match_length input p q (min 258 (input.length - p)) then
        (match_length input p q (min 258 (input.length - p)), q) else b) with h | h
    · rw [h]
      by_cases hc : b.1 < match_length input p q (min 258 (input.length - p))
      · right
        rw [if_pos hc]
        exact ⟨List.mem_cons_self _ _, rfl⟩
      · left
        rw [if_neg hc]
    · right
      exact ⟨List.mem_cons_of_mem _ h.1, h.2⟩

theorem longest_match_spec (input : List Nat) (p : Nat) (cands : List Nat) :
    (longest_match input p cands).1 = 0 ∨
    ((longest_match input p cands).2 ∈ cands ∧
     (longest_match input p cands).1 =
       match_length input p ((longest_match input p cands).2)
         (min 258 (input.length - p))) := by
  rcases longest_match_go input p cands (0, 0) with h | h
  · left
    rw [longest_match, h]
  · right
    rw [longest_match]
    exact h

theorem lz77_step_good (input : List Nat) (st : LZ77State) (w : DynamicWriter)
    (hp : st.pos < input.length) :
    ∃ rec, (lz77_step input st w).2 = w.write rec ∧
      records_end st.pos [rec] = (lz77_step input st w).1.pos ∧
      good_records input st.pos [rec] = true := by
  unfold lz77_step
  dsimp only
  split
  · split
    · next hin hbest =>
      refine ⟨LDPair.LengthDistance
        (longest_match input st.pos (chain_positions st.table st.pos
          (st.table.head (hash_at input st.pos)) MAX_CHAIN)).1
        (st.pos - (longest_match input st.pos (chain_positions st.table st.pos
          (st.table.head (hash_at input st.pos)) MAX_CHAIN)).2), rfl, ?_, ?_⟩
      · simp [records_end]
      · set best := longest_match input st.pos
          (chain_positions st.table st.pos
            (st.table.head (hash_at input st.pos)) MAX_CHAIN) with hb
        rcases longest_match_spec input st.pos
          (chain_positions st.table st.pos
            (st.table.head (hash_at input st.pos)) MAX_CHAIN) with h0 | hgood
        · rw [← hb] at h0; omega
        · rw [← hb] at hgood
          obtain ⟨hmem, hml⟩ := hgood
          have hq := chain_positions_mem st.table st.pos _ _ _ hmem
          have hle := match_length_le input (min 258 (input.length - st.pos))
            st.pos best.2
          rcases match_length_pos_le input (min 258 (input.length - st.pos))
            st.pos best.2 with hz | hbd
          · rw [← hml] at hz; omega
          · rw [← hml] at hbd hle
            simp only [good_records, Bool.and_eq_true, decide_eq_true_eq]
            have hq2 : st.pos - (st.pos - best.2) = best.2 := by omega
            refine ⟨⟨⟨⟨⟨⟨⟨by omega, by omega⟩, by omega⟩, ?_⟩, by omega⟩,
              by omega⟩, ?_⟩, trivial⟩
            · have hw : WINDOW_SIZE = 32768 := rfl
              omega
            · intro k hk
              rw [hq2]
              exact match_length_agree input (min 258 (input.length - st.pos))
                st.pos best.2 k (by omega)
    · refine ⟨LDPair.Literal (input.getD st.pos 0), rfl, ?_, ?_⟩
      · simp [records_end]
      · simp only [good_records, Bool.and_eq_true, decide_eq_true_eq]
        exact ⟨⟨hp, beq_self_eq_true _⟩, trivial⟩
  · refine ⟨LDPair.Literal (input.getD st.pos 0), rfl, ?_, ?_⟩
    · simp [records_end]
    · simp only [good_records, Bool.and_eq_true, decide_eq_true_eq]
      exact ⟨⟨hp, beq_self_eq_true _⟩, trivial⟩

theorem lz77_run_go_good (input : List Nat) (chunkEnd : Nat)
    (hce : chunkEnd ≤ input.length) :
    ∀ (fuel : Nat) (st : LZ77State) (w : DynamicWriter), st.pos ≤ input.length →
    ∃ Δ, (lz77_run_go input chunkEnd fuel st w).2.buffer = w.buffer ++ Δ ∧
      good_records input st.pos Δ = true ∧
      records_end st.pos Δ = (lz77_run_go input chunkEnd fuel st w).1.pos := by
  intro fuel
  induction fuel with
  | zero =>
    intro st w _
    exact ⟨[], by simp [lz77_run_go], rfl, rfl⟩
  | succ fuel ih =>
    intro st w hpos
    rw [lz77_run_go]
    split
    · next hlt =>
      obtain ⟨rec, hw, hend, hgood⟩ := lz77_step_good input st w (by omega)
      have hpos1 : (lz77_step input st w).1.pos ≤ input.length := by
        rw [← hend]
        cases rec with
        | Literal b =>
          simp only [good_records, Bool.and_eq_true, decide_eq_true_eq] at hgood
          simp only [records_end]
          omega
        | LengthDistance len dist =>
          simp only [good_records, Bool.and_eq_true, decide_eq_true_eq] at hgood
          simp only [records_end]
          omega
        | EndOfBlock => simp [good_records] at hgood
      obtain ⟨Δ, hbuf, hgood2, hend2⟩ :=
        ih (lz77_step input st w).1 (lz77_step input st w).2 hpos1
      refine ⟨rec :: Δ, ?_, ?_, ?_⟩
      · rw [hbuf, hw, write_buffer, List.append_assoc]
        rfl
      · have := good_records_append input [rec] Δ st.pos
        simp only [List.singleton_append] at this
        rw [this, hgood]
        simp only [Bool.true_and]
        rw [hend]
        exact hgood2
      · have := records_end_append st.pos [rec] Δ
        simp only [List.singleton_append] at this
        rw [this, hend]
        exact hend2
    · exact ⟨[], by simp, rfl, rfl⟩

/-- `lz77_compress_block` appends to the buffer a faithful description of
the input from the entry cursor to the exit cursor, followed by the
end-of-block record. -/
theorem lz77_compress_block_good (input : List Nat) (st : LZ77State)
    (w : DynamicWriter) (hpos : st.pos ≤ input.length) :
    ∃ Δ, (lz77_compress_block input st w).2.buffer =
        w.buffer ++ Δ ++ [LDPair.EndOfBlock] ∧
      good_records input st.pos Δ = true ∧
      records_end st.pos Δ = (lz77_compress_block input st w).1.pos := by
  obtain ⟨Δ, hbuf, hgood, hend⟩ := lz77_run_go_good input
    (min (st.pos + WINDOW_SIZE) input.length) (by omega)
    (min (st.pos + WINDOW_SIZE) input.length - st.pos) st w hpos
  refine ⟨Δ, ?_, hgood, hend⟩
  unfold lz77_compress_block lz77_run
  dsimp only
  rw [write_buffer, hbuf, List.append_assoc]

/-! ## Decoding a block of good records -/

theorem take_snoc (l : List Nat) (p : Nat) (h : p < l.length) :
    l.take p ++ [l.getD p 0] = l.take (p + 1) := by
  rw [List.take_succ, List.getD_eq_getElem _ _ h, List.getElem?_eq_getElem h]
  rfl

theorem lz_copy_spec (input : List Nat) (dist : Nat) :
    ∀ (len p : Nat), 1 ≤ dist → dist ≤ p → p + len ≤ input.length →
    (∀ k < len, input.getD (p + k) 0 = input.getD (p - dist + k) 0) →
    lz_copy (input.take p) dist len = input.take (p + len) := by
  intro len
  induction len with
  | zero => intro p _ _ _ _; rw [lz_copy, Nat.add_zero]
  | succ len ih =>
    intro p h1 h2 h3 hagree
    rw [lz_copy]
    have hlen : (input.take p).length = p := by
      rw [List.length_take]
      omega
    have hmem : (input.take p).getD ((input.take p).length - dist) 0 =
        input.getD (p - dist) 0 := by
      rw [hlen, List.getD_eq_getElem _ _ (by rw [hlen]; omega)]
      rw [List.getD_eq_getElem _ _ (by omega)]
      simp [List.getElem_take]
    have h0 := hagree 0 (by omega)
    rw [Nat.add_zero, Nat.add_zero] at h0
    rw [hmem, ← h0, take_snoc input p (by omega)]
    have hrec := ih (p + 1) h1 (by omega) (by omega) (fun k hk => by
      have ha := hagree (k + 1) (by omega)
      have e1 : p + (k + 1) = p + 1 + k := by omega
      have e2 : p - dist + (k + 1) = p + 1 - dist + k := by omega
      rw [e1, e2] at ha
      exact ha)
    rw [hrec]
    have e3 : p + 1 + len = p + (len + 1) := by omega
    rw [e3]

theorem ldpair_bits_literal (ll dd : List Nat) (b : Nat) :
    ldpair_bits ⟨ll, dd⟩ (LDPair.Literal b) = code_bits ll b := rfl

theorem ldpair_bits_ld (ll dd : List Nat) (len dist : Nat) :
    ldpair_bits ⟨ll, dd⟩ (LDPair.LengthDistance len dist) =
      code_bits ll (257 + lengthCodeIdx len) ++
      natBitsLSB (len - lengthBase.getD (lengthCodeIdx len) 0)
        (lengthExtraBits.getD (lengthCodeIdx len) 0) ++
      code_bits dd (distCodeIdx dist) ++
      natBitsLSB (dist - distBase.getD (distCodeIdx dist) 0)
        (distExtraBits.getD (distCodeIdx dist) 0) := rfl

theorem ldpair_bits_eob (ll dd : List Nat) :
    ldpair_bits ⟨ll, dd⟩ LDPair.EndOfBlock = code_bits ll 256 := rfl

theorem inflate_syms_succ (ll dd out : List Nat) (bits : List Bool)
    (fuel : Nat) : inflate_syms ll dd out bits (fuel + 1) =
      match decode_sym ll bits with
      | none => none
      | some (sym, r) =>
        if sym < 256 then inflate_syms ll dd (out ++ [sym]) r fuel
        else if sym = 256 then some (out, r)
        else if sym ≤ 285 then
          match readBitsLSB (lengthExtraBits.getD (sym - 257) 0) r with
          | none => none
          | some (ev, r2) =>
            match decode_sym dd r2 with
            | none => none
            | some (dsym, r3) =>
              if dsym < 30 then
                match readBitsLSB (distExtraBits.getD dsym 0) r3 with
                | none => none
                | some (dv, r4) =>
                  let dist := distBase.getD dsym 0 + dv
                  let len := lengthBase.getD (sym - 257) 0 + ev
                  if 1 ≤ dist ∧ dist ≤ out.length then
                    inflate_syms ll dd (lz_copy out dist len) r4 fuel
                  else none
              else none
        else none := rfl

theorem inflate_syms_literal_step (ll dd : List Nat) (out : List Nat)
    (bits : List Bool) (fuel : Nat) (b : Nat) (r : List Bool)
    (hdec : decode_sym ll bits = some (b, r)) (hb : b < 256) :
    inflate_syms ll dd out bits (fuel + 1) =
      inflate_syms ll dd (out ++ [b]) r fuel := by
  rw [inflate_syms_succ, hdec]
  simp [hb]

set_option maxRecDepth 10000 in
theorem inflate_syms_eob_step (ll dd : List Nat) (out : List Nat)
    (bits : List Bool) (fuel : Nat) (r : List Bool)
    (hdec : decode_sym ll bits = some (256, r)) :
    inflate_syms ll dd out bits (fuel + 1) = some (out, r) := by
  rw [inflate_syms_succ, hdec]
  simp

set_option maxRecDepth 10000 in
theorem inflate_syms_ld_step (ll dd : List Nat) (out : List Nat)
    (bits : List Bool) (fuel : Nat) (sym ev dsym dv : Nat)
    (r r2 r3 r4 : List Bool)
    (hdec1 : decode_sym ll bits = some (sym, r))
    (h257 : 257 ≤ sym) (h285 : sym ≤ 285)
    (hread1 : readBitsLSB (lengthExtraBits.getD (sym - 257) 0) r = some (ev, r2))
    (hdec2 : decode_sym dd r2 = some (dsym, r3))
    (hd30 : dsym < 30)
    (hread2 : readBitsLSB (distExtraBits.getD dsym 0) r3 = some (dv, r4))
    (hdist : 1 ≤ distBase.getD dsym 0 + dv ∧ distBase.getD dsym 0 + dv ≤ out.length) :
    inflate_syms ll dd out bits (fuel + 1) =
      inflate_syms ll dd
        (lz_copy out (distBase.getD dsym 0 + dv)
          (lengthBase.getD (sym - 257) 0 + ev)) r4 fuel := by
  rw [inflate_syms_succ, hdec1]
  dsimp only
  rw [if_neg (by omega), if_neg (by omega), if_pos h285, hread1]
  dsimp only
  rw [hdec2]
  dsimp only
  rw [if_pos hd30, hread2]
  dsimp only
  rw [if_pos hdist]

/-- The symbol is available in a code length vector. -/
def sym_covered (lengths : List Nat) (s : Nat) : Prop :=
  s < lengths.length ∧ lengths.getD s 0 ≠ 0

/-- The per-record coverage requirement: every symbol a record needs has a
code in the installed tables. -/
def rec_covered (ll dd : List Nat) : LDPair → Prop
  | LDPair.Literal b => sym_covered ll b
  | LDPair.LengthDistance len dist =>
    sym_covered ll (257 + lengthCodeIdx len) ∧ sym_covered dd (distCodeIdx dist)
  | LDPair.EndOfBlock => sym_covered ll 256

/-- Decoding the encoded bits of a good, covered record list replays the
input segment it describes, consuming exactly those bits plus the closing
end-of-block code. -/
theorem inflate_syms_records (input : List Nat) (ll dd : List Nat)
    (hvl : ValidLengths ll) (hvd : ValidLengths dd)
    (hbytes : ∀ b ∈ input, b < 256)
    (hcov256 : sym_covered ll 256) :
    ∀ (recs : List LDPair) (p : Nat) (rest : List Bool) (fuel : Nat),
      p ≤ input.length →
      good_records input p recs = true →
      (∀ rec ∈ recs, rec_covered ll dd rec) →
      recs.length < fuel →
      inflate_syms ll dd (input.take p)
        (recs.flatMap (ldpair_bits ⟨ll, dd⟩) ++ code_bits ll 256 ++ rest) fuel =
        some (input.take (records_end p recs), rest) := by
  intro recs
  induction recs with
  | nil =>
    intro p rest fuel hp hgood hcov hfuel
    match fuel, hfuel with
    | fuel + 1, _ =>
      rw [List.flatMap_nil, List.nil_append]
      rw [inflate_syms_eob_step ll dd _ _ fuel rest
        (decode_code_bits ll hvl 256 hcov256.1 hcov256.2 rest)]
      rfl
  | cons rec rs ih =>
    intro p rest fuel hp hgood hcov hfuel
    match fuel, hfuel with
    | fuel + 1, hfuel =>
      have hfuel2 : rs.length < fuel := by
        simp only [List.length_cons] at hfuel
        omega
      have hcov2 : ∀ r ∈ rs, rec_covered ll dd r :=
        fun r hr => hcov r (List.mem_cons_of_mem _ hr)
      cases rec with
      | Literal b =>
        simp only [good_records, Bool.and_eq_true, decide_eq_true_eq,
          beq_iff_eq] at hgood
        obtain ⟨⟨hpN, hb⟩, hgood2⟩ := hgood
        have hcovb : sym_covered ll b := hcov _ (List.mem_cons_self _ _)
        have hblt : b < 256 := by
          rw [← hb]
          refine hbytes _ ?_
          rw [List.getD_eq_getElem _ _ hpN]
          exact List.getElem_mem _
        rw [List.flatMap_cons, ldpair_bits_literal, List.append_assoc,
          List.append_assoc]
        rw [inflate_syms_literal_step ll dd _ _ fuel b _
          (decode_code_bits ll hvl b hcovb.1 hcovb.2 _) hblt]
        have hsnoc : input.take p ++ [b] = input.take (p + 1) := by
          rw [← hb]
          exact take_snoc input p hpN
        rw [hsnoc, ← List.append_assoc]
        simp only [records_end]
        exact ih (p + 1) rest fuel (by omega) hgood2 hcov2 hfuel2
      | LengthDistance len dist =>
        simp only [good_records, Bool.and_eq_true, decide_eq_true_eq] at hgood
        obtain ⟨⟨⟨⟨⟨⟨⟨h3, h258⟩, hd1⟩, hd32k⟩, hdp⟩, hplN⟩, hagree⟩, hgood2⟩ :=
          hgood
        obtain ⟨hcovl, hcovd⟩ :
            sym_covered ll (257 + lengthCodeIdx len) ∧
              sym_covered dd (distCodeIdx dist) :=
          hcov _ (List.mem_cons_self _ _)
        obtain ⟨hli, hlb, hlx⟩ := lengthCodeIdx_spec len (by omega) h3
        obtain ⟨hdi, hdb, hdx⟩ := distCodeIdx_spec dist hd1 hd32k
        have hsym257 : 257 + lengthCodeIdx len - 257 = lengthCodeIdx len := by
          omega
        have houtlen : (input.take p).length = p := by
          rw [List.length_take]
          omega
        rw [List.flatMap_cons, ldpair_bits_ld]
        rw [List.append_assoc, List.append_assoc, List.append_assoc,
          List.append_assoc, List.append_assoc]
        rw [inflate_syms_ld_step ll dd _ _ fuel (257 + lengthCodeIdx len)
          (len - lengthBase.getD (lengthCodeIdx len) 0) (distCodeIdx dist)
          (dist - distBase.getD (distCodeIdx dist) 0) _ _ _ _
          (decode_code_bits ll hvl _ hcovl.1 hcovl.2 _)
          (by omega) (by omega)
          (by rw [hsym257]; exact readBitsLSB_append _ _ _ hlx)
          (decode_code_bits dd hvd _ hcovd.1 hcovd.2 _)
          hdi
          (readBitsLSB_append _ _ _ hdx)
          (by rw [houtlen]; omega)]
        rw [hsym257]
        have hlen_eq : lengthBase.getD (lengthCodeIdx len) 0 +
            (len - lengthBase.getD (lengthCodeIdx len) 0) = len := by omega
        have hdist_eq : distBase.getD (distCodeIdx dist) 0 +
            (dist - distBase.getD (distCodeIdx dist) 0) = dist := by omega
        rw [hlen_eq, hdist_eq]
        rw [lz_copy_spec input dist len p hd1 hdp hplN hagree]
        simp only [records_end]
        rw [← List.append_assoc]
        exact ih (p + len) rest fuel (by omega) hgood2 hcov2 hfuel2
      | EndOfBlock => simp [good_records] at hgood

/-! ## The writer counts every buffered symbol -/

theorem bump_length (xs : List Nat) (i : Nat) : (bump xs i).length = xs.length := by
  simp [bump]

theorem bump_getD_self (xs : List Nat) (i : Nat) (h : i < xs.length) :
    (bump xs i).getD i 0 = xs.getD i 0 + 1 := by
  rw [bump, List.getD_eq_getElem _ _ (by simpa using h)]
  simp [List.getElem_set_self]

theorem bump_getD_mono (xs : List Nat) (i j : Nat) (h : 0 < xs.getD j 0) :
    0 < (bump xs i).getD j 0 := by
  have hj : j < xs.length := by
    by_contra hge
    push_neg at hge
    rw [List.getD_eq_getElem?_getD, List.getElem?_eq_none hge] at h
    simp at h
  by_cases hij : j = i
  · subst hij
    rw [bump_getD_self xs j hj]
    omega
  · rw [bump, List.getD_eq_getElem _ _ (by simpa using hj)]
    rw [List.getElem_set_ne (fun he => hij he.symm)]
    rw [List.getD_eq_getElem _ _ hj] at h
    exact h

/-- The frequency counters have their fixed DEFLATE sizes. -/
def freqs_ok (w : DynamicWriter) : Prop :=
  w.l_freqs.length = 286 ∧ w.d_freqs.length = 30

/-- A record's symbols have been counted. -/
def rec_pos (lf df : List Nat) : LDPair → Prop
  | LDPair.Literal b => 0 < lf.getD b 0
  | LDPair.LengthDistance len dist =>
    0 < lf.getD (257 + lengthCodeIdx len) 0 ∧ 0 < df.getD (distCodeIdx dist) 0
  | LDPair.EndOfBlock => 0 < lf.getD 256 0

/-- Every buffered record's symbols have been counted. -/
def buffer_covered (w : DynamicWriter) : Prop :=
  ∀ rec ∈ w.buffer, rec_pos w.l_freqs w.d_freqs rec

theorem rec_pos_mono (lf df lf2 df2 : List Nat) (rec : LDPair)
    (hl : ∀ s, 0 < lf.getD s 0 → 0 < lf2.getD s 0)
    (hd : ∀ s, 0 < df.getD s 0 → 0 < df2.getD s 0)
    (h : rec_pos lf df rec) : rec_pos lf2 df2 rec := by
  cases rec with
  | Literal b => exact hl _ h
  | LengthDistance len dist => exact ⟨hl _ h.1, hd _ h.2⟩
  | EndOfBlock => exact hl _ h

theorem write_freqs_ok (w : DynamicWriter) (ld : LDPair) (h : freqs_ok w) :
    freqs_ok (w.write ld) := by
  cases ld <;>
    simp only [DynamicWriter.write, freqs_ok, bump_length] <;> exact h

/-- The bound a record must satisfy so that its counters are inside the
frequency arrays. -/
def rec_in_range : LDPair → Prop
  | LDPair.Literal b => b < 286
  | LDPair.LengthDistance len dist =>
    257 + lengthCodeIdx len < 286 ∧ distCodeIdx dist < 30
  | LDPair.EndOfBlock => True

theorem write_covered (w : DynamicWriter) (ld : LDPair) (hf : freqs_ok w)
    (hc : buffer_covered w) (hr : rec_in_range ld) :
    buffer_covered (w.write ld) := by
  intro rec hrec
  rw [write_buffer] at hrec
  rcases List.mem_append.mp hrec with hrec | hrec
  · have hold := hc rec hrec
    cases ld with
    | Literal b =>
      exact rec_pos_mono _ _ _ _ _ (fun s => bump_getD_mono _ _ _)
        (fun s h => h) hold
    | LengthDistance len dist =>
      exact rec_pos_mono _ _ _ _ _ (fun s => bump_getD_mono _ _ _)
        (fun s => bump_getD_mono _ _ _) hold
    | EndOfBlock =>
      exact rec_pos_mono _ _ _ _ _ (fun s => bump_getD_mono _ _ _)
        (fun s h => h) hold
  · have heq : rec = ld := by simpa using hrec
    subst heq
    cases rec with
    | Literal b =>
      show 0 < (bump w.l_freqs b).getD b 0
      rw [bump_getD_self _ _ (by rw [hf.1]; exact hr)]
      omega
    | LengthDistance len dist =>
      refine ⟨?_, ?_⟩
      · show 0 < (bump w.l_freqs (257 + lengthCodeIdx len)).getD
          (257 + lengthCodeIdx len) 0
        rw [bump_getD_self _ _ (by rw [hf.1]; exact hr.1)]
        omega
      · show 0 < (bump w.d_freqs (distCodeIdx dist)).getD (distCodeIdx dist) 0
        rw [bump_getD_self _ _ (by rw [hf.2]; exact hr.2)]
        omega
    | EndOfBlock =>
      show 0 < (bump w.l_freqs 256).getD 256 0
      rw [bump_getD_self _ _ (by rw [hf.1]; omega)]
      omega

theorem good_rec_in_range (input : List Nat) (p : Nat) (rec : LDPair)
    (hbytes : ∀ b ∈ input, b < 256)
    (hgood : good_records input p [rec] = true) : rec_in_range rec := by
  cases rec with
  | Literal b =>
    simp only [good_records, Bool.and_eq_true, decide_eq_true_eq,
      beq_iff_eq] at hgood
    obtain ⟨⟨hpN, hb⟩, _⟩ := hgood
    show b < 286
    have : input.getD p 0 < 256 := by
      refine hbytes _ ?_
      rw [List.getD_eq_getElem _ _ hpN]
      exact List.getElem_mem _
    omega
  | LengthDistance len dist =>
    simp only [good_records, Bool.and_eq_true, decide_eq_true_eq] at hgood
    obtain ⟨⟨⟨⟨⟨⟨⟨h3, h258⟩, hd1⟩, hd32k⟩, _⟩, _⟩, _⟩, _⟩ := hgood
    obtain ⟨hli, _, _⟩ := lengthCodeIdx_spec len (by omega) h3
    obtain ⟨hdi, _, _⟩ := distCodeIdx_spec dist hd1 hd32k
    exact ⟨by omega, hdi⟩
  | EndOfBlock => simp [good_records] at hgood

theorem lz77_run_go_covered (input : List Nat) (chunkEnd : Nat)
    (hbytes : ∀ b ∈ input, b < 256) (hce : chunkEnd ≤ input.length) :
    ∀ (fuel : Nat) (st : LZ77State) (w : DynamicWriter), st.pos ≤ input.length →
    freqs_ok w → buffer_covered w →
    freqs_ok (lz77_run_go input chunkEnd fuel st w).2 ∧
      buffer_covered (lz77_run_go input chunkEnd fuel st w).2 := by
  intro fuel
  induction fuel with
  | zero => intro st w _ hf hc; exact ⟨hf, hc⟩
  | succ fuel ih =>
    intro st w hpos hf hc
    rw [lz77_run_go]
    split
    · next hlt =>
      obtain ⟨rec, hw, hend, hgood⟩ := lz77_step_good input st w (by omega)
      have hpos1 : (lz77_step input st w).1.pos ≤ input.length := by
        rw [← hend]
        cases rec with
        | Literal b =>
          simp only [good_records, Bool.and_eq_true, decide_eq_true_eq] at hgood
          simp only [records_end]
          omega
        | LengthDistance len dist =>
          simp only [good_records, Bool.and_eq_true, decide_eq_true_eq] at hgood
          simp only [records_end]
          omega
        | EndOfBlock => simp [good_records] at hgood
      refine ih (lz77_step input st w).1 (lz77_step input st w).2 hpos1 ?_ ?_
      · rw [hw]
        exact write_freqs_ok w rec hf
      · rw [hw]
        exact write_covered w rec hf hc
          (good_rec_in_range input st.pos rec hbytes hgood)
    · exact ⟨hf, hc⟩

theorem lz77_compress_block_covered (input : List Nat) (st : LZ77State)
    (w : DynamicWriter) (hbytes : ∀ b ∈ input, b < 256)
    (hpos : st.pos ≤ input.length) (hf : freqs_ok w) (hc : buffer_covered w) :
    freqs_ok (lz77_compress_block input st w).2 ∧
      buffer_covered (lz77_compress_block input st w).2 := by
  obtain ⟨hf2, hc2⟩ := lz77_run_go_covered input
    (min (st.pos + WINDOW_SIZE) input.length) hbytes (by omega)
    (min (st.pos + WINDOW_SIZE) input.length - st.pos) st w hpos hf hc
  unfold lz77_compress_block lz77_run
  dsimp only
  constructor
  · exact write_freqs_ok _ LDPair.EndOfBlock hf2
  · exact write_covered _ LDPair.EndOfBlock hf2 hc2 trivial

theorem getD_take (xs : List Nat) (k s : Nat) (h : s < k) :
    (xs.take k).getD s 0 = xs.getD s 0 := by
  by_cases hs : s < xs.length
  · rw [List.getD_eq_getElem _ _ (by rw [List.length_take]; omega),
      List.getD_eq_getElem _ _ hs]
    simp [List.getElem_take]
  · push_neg at hs
    rw [List.getD_eq_getElem?_getD, List.getElem?_eq_none (by
        rw [List.length_take]; omega),
      List.getD_eq_getElem?_getD, List.getElem?_eq_none hs]

/-- A positively counted symbol has a code in the lengths derived from the
trimmed frequencies. -/
theorem covered_of_pos (freqs : List Nat) (min_len max_len s : Nat)
    (hml1 : 1 ≤ max_len) (hml15 : max_len ≤ 15)
    (hnb : freqs.length ≤ 2 ^ max_len)
    (hpos : 0 < freqs.getD s 0) :
    sym_covered
      (huffman_lengths_from_frequency (remove_trailing_zeroes freqs min_len)
        max_len) s := by
  have hsk : s < (remove_trailing_zeroes freqs min_len).length := by
    by_contra hge
    push_neg at hge
    have := remove_trailing_zeroes_dropped freqs min_len s hge
    omega
  have htr : (remove_trailing_zeroes freqs min_len).getD s 0 =
      freqs.getD s 0 := by
    rw [remove_trailing_zeroes]
    exact getD_take _ _ _ (by
      have := hsk
      rw [remove_trailing_zeroes, List.length_take] at this
      omega)
  have hnb2 : (remove_trailing_zeroes freqs min_len).length ≤ 2 ^ max_len :=
    (remove_trailing_zeroes_length_le freqs min_len).trans hnb
  obtain ⟨_, _, hgen⟩ := huffman_lengths_from_frequency_valid
    (remove_trailing_zeroes freqs min_len) max_len hml1 hml15 hnb2
  refine ⟨?_, hgen s (by omega)⟩
  rw [huffman_lengths_from_frequency_length]
  exact hsk

/-! ## Reading back the code-length code of a dynamic header -/

theorem read_cl_into_spec :
    ∀ (idxs vals : List Nat) (acc : List Nat) (rest : List Bool),
    idxs.length = vals.length → (∀ v ∈ vals, v < 8) →
    read_cl_into idxs acc (vals.flatMap (fun l => natBitsLSB l 3) ++ rest) =
      some ((idxs.zip vals).foldl (fun a p => a.set p.1 p.2) acc, rest) := by
  intro idxs
  induction idxs with
  | nil =>
    intro vals acc rest hlen _
    have hv : vals = [] := List.eq_nil_of_length_eq_zero (by
      simp only [List.length_nil] at hlen
      omega)
    subst hv
    rfl
  | cons i ridx ih =>
    intro vals acc rest hlen hv
    match vals with
    | v :: rvals =>
      rw [List.flatMap_cons, List.append_assoc, read_cl_into,
        readBitsLSB_append 3 v _ (by
          have := hv v (List.mem_cons_self _ _)
          omega)]
      change read_cl_into ridx (acc.set i v)
        ((rvals.flatMap fun l => natBitsLSB l 3) ++ rest) = _
      rw [ih rvals (acc.set i v) rest (by simpa using hlen)
        (fun x hx => hv x (List.mem_cons_of_mem _ hx))]
      rfl

theorem foldl_set_getD (f : Nat → Nat) :
    ∀ (idxs : List Nat) (acc : List Nat) (j : Nat),
    (∀ i ∈ idxs, i < acc.length) →
    ((idxs.zip (idxs.map f)).foldl (fun a p => a.set p.1 p.2) acc).getD j 0 =
      if j ∈ idxs then f j else acc.getD j 0 := by
  intro idxs
  induction idxs with
  | nil => intro acc j _; simp
  | cons i ridx ih =>
    intro acc j hin
    rw [List.map_cons, List.zip_cons_cons, List.foldl_cons]
    have hset : ∀ k ∈ ridx, k < (acc.set i (f i)).length := by
      intro k hk
      rw [List.length_set]
      exact hin k (List.mem_cons_of_mem _ hk)
    rw [ih (acc.set i (f i)) j hset]
    by_cases hjr : j ∈ ridx
    · rw [if_pos hjr, if_pos (List.mem_cons_of_mem _ hjr)]
    · rw [if_neg hjr]
      by_cases hji : j = i
      · subst hji
        rw [if_pos (List.mem_cons_self _ _)]
        have hjl : j < acc.length := hin j (List.mem_cons_self _ _)
        rw [List.getD_eq_getElem _ _ (by simpa using hjl)]
        simp [List.getElem_set_self]
      · rw [if_neg (by
          intro hc
          rcases List.mem_cons.mp hc with hc | hc
          · exact hji hc
          · exact hjr hc)]
        by_cases hjl : j < acc.length
        · rw [List.getD_eq_getElem _ _ (by simpa using hjl),
            List.getD_eq_getElem _ _ hjl]
          rw [List.getElem_set_ne (fun he => hji he.symm)]
        · push_neg at hjl
          rw [List.getD_eq_getElem?_getD,
            List.getElem?_eq_none (by simpa using hjl),
            List.getD_eq_getElem?_getD, List.getElem?_eq_none hjl]

theorem foldl_set_length :
    ∀ (ps : List (Nat × Nat)) (acc : List Nat),
    (ps.foldl (fun a p => a.set p.1 p.2) acc).length = acc.length := by
  intro ps
  induction ps with
  | nil => intro acc; rfl
  | cons p r ih =>
    intro acc
    rw [List.foldl_cons, ih, List.length_set]

theorem cl_order_mem : ∀ j < 19, ∃ t < 19, CL_ORDER.getD t 0 = j := by
  decide

theorem getD_map_lt (f : Nat → Nat) (l : List Nat) (t : Nat) (h : t < l.length) :
    (l.map f).getD t 0 = f (l.getD t 0) := by
  rw [List.getD_eq_getElem _ _ (by simpa using h), List.getElem_map,
    List.getD_eq_getElem _ _ h]

theorem cl_order_length : CL_ORDER.length = 19 := by decide

set_option maxHeartbeats 1000000 in
/-- Reading the transmitted permuted code lengths back recovers the full
code-length vector: the untransmitted entries are exactly its zeros. -/
theorem read_cl_roundtrip (cl_lengths : List Nat) (rest : List Bool)
    (hlen : cl_lengths.length = 19) (hv : ∀ v ∈ cl_lengths, v < 8) :
    read_cl_into
      (CL_ORDER.take (max 4 (trim_zeroes
        (CL_ORDER.map (fun i => cl_lengths.getD i 0))).length))
      (List.replicate 19 0)
      (((CL_ORDER.map (fun i => cl_lengths.getD i 0)).take
        (max 4 (trim_zeroes
          (CL_ORDER.map (fun i => cl_lengths.getD i 0))).length)).flatMap
        (fun l => natBitsLSB l 3) ++ rest) =
      some (cl_lengths, rest) := by
  set permuted := CL_ORDER.map (fun i => cl_lengths.getD i 0) with hperm
  set keep := max 4 (trim_zeroes permuted).length with hkeep
  have htake : permuted.take keep =
      (CL_ORDER.take keep).map (fun i => cl_lengths.getD i 0) := by
    rw [hperm, List.map_take]
  rw [htake, read_cl_into_spec (CL_ORDER.take keep) _ _ rest
    (by rw [List.length_map])
    (by
      intro v hvm
      obtain ⟨i, hi, hiv⟩ := List.mem_map.mp hvm
      rcases hlk : cl_lengths.getD i 0 with _ | n
      · omega
      · rw [← hiv, hlk]
        by_cases hil : i < cl_lengths.length
        · refine hv _ ?_
          rw [← hlk, List.getD_eq_getElem _ _ hil]
          exact List.getElem_mem _
        · push_neg at hil
          rw [List.getD_eq_getElem?_getD, List.getElem?_eq_none hil] at hlk
          simp at hlk)]
  have hCL : ∀ i ∈ CL_ORDER, i < 19 := by decide
  have hfold : (((CL_ORDER.take keep).zip
      ((CL_ORDER.take keep).map (fun i => cl_lengths.getD i 0))).foldl
        (fun a p => a.set p.1 p.2) (List.replicate 19 0)) = cl_lengths := by
    refine List.ext_getElem ?_ ?_
    · rw [foldl_set_length, List.length_replicate, hlen]
    · intro j hj1 hj2
      have hj19 : j < 19 := by
        rw [foldl_set_length, List.length_replicate] at hj1
        exact hj1
      have hgd := foldl_set_getD (fun i => cl_lengths.getD i 0)
        (CL_ORDER.take keep) (List.replicate 19 0) j
        (by
          intro i hi
          rw [List.length_replicate]
          exact hCL i (List.mem_of_mem_take hi))
      rw [← List.getD_eq_getElem _ 0 hj1, ← List.getD_eq_getElem _ 0 hj2]
      rw [hgd]
      by_cases hjin : j ∈ CL_ORDER.take keep
      · rw [if_pos hjin]
      · rw [if_neg hjin]
        obtain ⟨t, ht19, htj⟩ := cl_order_mem j hj19
        by_cases htk : t < keep
        · exfalso
          refine hjin ?_
          have hlt : t < (CL_ORDER.take keep).length := by
            rw [List.length_take, cl_order_length]
            omega
          have hjt : (CL_ORDER.take keep).getD t 0 = j := by
            rw [getD_take _ _ _ htk]
            exact htj
          rw [List.getD_eq_getElem _ _ hlt] at hjt
          rw [← hjt]
          exact List.getElem_mem _
        · push_neg at htk
          have hdrop : permuted.getD t 0 = 0 :=
            trim_zeroes_dropped permuted t (by omega)
          have hpt : permuted.getD t 0 = cl_lengths.getD j 0 := by
            rw [hperm, getD_map_lt _ _ _ (by rw [cl_order_length]; omega), htj]
          rw [← hpt, hdrop, List.getD_eq_getElem?_getD, List.getElem?_replicate]
          split <;> rfl
  rw [hfold]

/-! ## Reading back the RLE-coded length sequence -/

theorem read_len_syms_succ (cl : List Nat) (total : Nat) (acc : List Nat)
    (bits : List Bool) (fuel : Nat) :
    read_len_syms cl total acc bits (fuel + 1) =
      (if total ≤ acc.length then
        if acc.length = total then some (acc, bits) else none
      else
        match decode_sym cl bits with
        | none => none
        | some (s, r) =>
          if s ≤ 15 then read_len_syms cl total (acc ++ [s]) r fuel
          else if s = 16 then
            match readBitsLSB 2 r with
            | none => none
            | some (n, r2) =>
              match acc.getLast? with
              | none => none
              | some v =>
                read_len_syms cl total (acc ++ List.replicate (n + 3) v) r2 fuel
          else if s = 17 then
            match readBitsLSB 3 r with
            | none => none
            | some (n, r2) =>
              read_len_syms cl total (acc ++ List.replicate (n + 3) 0) r2 fuel
          else if s = 18 then
            match readBitsLSB 7 r with
            | none => none
            | some (n, r2) =>
              read_len_syms cl total (acc ++ List.replicate (n + 11) 0) r2 fuel
          else none) := rfl

theorem read_len_syms_done (cl : List Nat) (acc : List Nat) (rest : List Bool)
    (fuelD : Nat) :
    read_len_syms cl acc.length acc rest (fuelD + 1) = some (acc, rest) := by
  rw [read_len_syms_succ, if_pos (le_refl _), if_pos rfl]

theorem getLast?_replicate_succ : ∀ (m x : Nat),
    (List.replicate (m + 1) x).getLast? = some x
  | 0, x => rfl
  | m + 1, x => by
    rw [List.replicate_succ, List.replicate_succ, List.getLast?_cons_cons,
      ← List.replicate_succ]
    exact getLast?_replicate_succ m x

theorem getLast?_append_replicate (acc : List Nat) (x m : Nat) (hm : 1 ≤ m) :
    (acc ++ List.replicate m x).getLast? = some x := by
  rw [List.getLast?_append]
  match m, hm with
  | m + 1, _ =>
    rw [getLast?_replicate_succ]
    rfl

theorem takeWhile_length_le (p : Nat → Bool) (r : List Nat) :
    (r.takeWhile p).length ≤ r.length :=
  (List.takeWhile_prefix p).length_le

theorem take_eq_replicate_of_le (x : Nat) :
    ∀ (r : List Nat) (k : Nat),
    k ≤ (r.takeWhile (fun y => y == x)).length →
    r.take k = List.replicate k x := by
  intro r
  induction r with
  | nil =>
    intro k hk
    simp only [List.takeWhile_nil, List.length_nil, Nat.le_zero] at hk
    subst hk
    rfl
  | cons a t ih =>
    intro k hk
    rw [List.takeWhile_cons] at hk
    by_cases ha : (a == x) = true
    · rw [if_pos ha] at hk
      match k with
      | 0 => rfl
      | k + 1 =>
        rw [List.take_succ_cons, List.replicate_succ]
        have hax : a = x := by simpa using ha
        rw [hax, ih k (by simpa using hk)]
    · rw [if_neg ha] at hk
      simp only [List.length_nil, Nat.le_zero] at hk
      subst hk
      rfl

theorem take_run (x : Nat) (r : List Nat) (m : Nat)
    (hm : m ≤ 1 + (r.takeWhile (fun y => y == x)).length) :
    (x :: r).take m = List.replicate m x := by
  match m with
  | 0 => rfl
  | m + 1 =>
    rw [List.take_succ_cons, List.replicate_succ,
      take_eq_replicate_of_le x r m (by omega)]

theorem rle_unfold_18 (fuel : Nat) (prev : Option Nat) (r : List Nat)
    (h11 : 11 ≤ 1 + (r.takeWhile (fun y => y == 0)).length) :
    rle_encode_go (fuel + 1) prev (0 :: r) =
      (18, min (1 + (r.takeWhile (fun y => y == 0)).length) 138 - 11) ::
        rle_encode_go fuel (some 0)
          ((0 :: r).drop (min (1 + (r.takeWhile (fun y => y == 0)).length) 138)) := by
  simp only [rle_encode_go]
  rw [if_pos trivial, if_pos h11]

theorem rle_unfold_17 (fuel : Nat) (prev : Option Nat) (r : List Nat)
    (h11 : ¬11 ≤ 1 + (r.takeWhile (fun y => y == 0)).length)
    (h3 : 3 ≤ 1 + (r.takeWhile (fun y => y == 0)).length) :
    rle_encode_go (fuel + 1) prev (0 :: r) =
      (17, 1 + (r.takeWhile (fun y => y == 0)).length - 3) ::
        rle_encode_go fuel (some 0)
          ((0 :: r).drop (1 + (r.takeWhile (fun y => y == 0)).length)) := by
  simp only [rle_encode_go]
  rw [if_pos trivial, if_neg h11, if_pos h3]

theorem rle_unfold_zero_lit (fuel : Nat) (prev : Option Nat) (r : List Nat)
    (h3 : ¬3 ≤ 1 + (r.takeWhile (fun y => y == 0)).length) :
    rle_encode_go (fuel + 1) prev (0 :: r) =
      (0, 0) :: rle_encode_go fuel (some 0) r := by
  simp only [rle_encode_go]
  rw [if_pos trivial, if_neg (by omega), if_neg h3]

theorem rle_unfold_16 (fuel : Nat) (prev : Option Nat) (x : Nat) (r : List Nat)
    (hx0 : x ≠ 0)
    (hc : prev = some x ∧ 3 ≤ 1 + (r.takeWhile (fun y => y == x)).length) :
    rle_encode_go (fuel + 1) prev (x :: r) =
      (16, min (1 + (r.takeWhile (fun y => y == x)).length) 6 - 3) ::
        rle_encode_go fuel (some x)
          ((x :: r).drop (min (1 + (r.takeWhile (fun y => y == x)).length) 6)) := by
  simp only [rle_encode_go]
  rw [if_neg hx0, if_pos hc]

theorem rle_unfold_lit (fuel : Nat) (prev : Option Nat) (x : Nat) (r : List Nat)
    (hx0 : x ≠ 0)
    (hc : ¬(prev = some x ∧ 3 ≤ 1 + (r.takeWhile (fun y => y == x)).length)) :
    rle_encode_go (fuel + 1) prev (x :: r) =
      (x, 0) :: rle_encode_go fuel (some x) r := by
  simp only [rle_encode_go]
  rw [if_neg hx0, if_neg hc]

/-- Decoding the RLE-coded symbol stream of a length sequence reproduces the
sequence exactly, consuming exactly its bits. -/
theorem rle_roundtrip (cl : List Nat) (hvcl : ValidLengths cl) :
    ∀ (fuelE : Nat) (xs : List Nat) (prev : Option Nat) (acc : List Nat)
      (rest : List Bool) (fuelD total : Nat),
      xs.length ≤ fuelE →
      total = acc.length + xs.length →
      (∀ x ∈ xs, x ≤ 15) →
      (∀ pr ∈ rle_encode_go fuelE prev xs, sym_covered cl pr.1) →
      (∀ v, prev = some v → acc.getLast? = some v) →
      xs.length < fuelD →
      read_len_syms cl total acc
        ((rle_encode_go fuelE prev xs).flatMap
          (fun pr => code_bits cl pr.1 ++ natBitsLSB pr.2 (cl_extra_bits pr.1)) ++
          rest) fuelD = some (acc ++ xs, rest) := by
  intro fuelE
  induction fuelE with
  | zero =>
    intro xs prev acc rest fuelD total hfe htot hall hcov hprev hfd
    have hxs : xs = [] := List.eq_nil_of_length_eq_zero (by omega)
    subst hxs
    match fuelD, hfd with
    | fuelD + 1, _ =>
      have hre : rle_encode_go 0 prev ([] : List Nat) = [] := rfl
      rw [hre, List.flatMap_nil, List.nil_append, List.append_nil]
      have htot2 : total = acc.length := by
        simp only [List.length_nil] at htot
        omega
      rw [htot2]
      exact read_len_syms_done cl acc rest fuelD
  | succ fuelE ih =>
    intro xs prev acc rest fuelD total hfe htot hall hcov hprev hfd
    match xs with
    | [] =>
      match fuelD, hfd with
      | fuelD + 1, _ =>
        have hre : rle_encode_go (fuelE + 1) prev ([] : List Nat) = [] := rfl
        rw [hre, List.flatMap_nil, List.nil_append, List.append_nil]
        have htot2 : total = acc.length := by
          simp only [List.length_nil] at htot
          omega
        rw [htot2]
        exact read_len_syms_done cl acc rest fuelD
    | x :: r =>
      match fuelD, hfd with
      | fuelD + 1, hfd =>
        have hlenxs : (x :: r).length = r.length + 1 := rfl
        have hgta : ¬total ≤ acc.length := by omega
        have hrle : (r.takeWhile (fun y => y == x)).length ≤ r.length :=
          takeWhile_length_le _ r
        have hdroplen : ∀ m : Nat, ((x :: r).drop m).length = (x :: r).length - m :=
          fun m => List.length_drop m (x :: r)
        have hdropall : ∀ m : Nat, ∀ y ∈ (x :: r).drop m, y ≤ 15 :=
          fun m y hy => hall y (List.drop_subset m (x :: r) hy)
        have hpow7 : (2 : Nat) ^ 7 = 128 := by norm_num
        have hpow3 : (2 : Nat) ^ 3 = 8 := by norm_num
        have hpow2 : (2 : Nat) ^ 2 = 4 := by norm_num
        by_cases hx0 : x = 0
        · subst hx0
          by_cases h11 : 11 ≤ 1 + (r.takeWhile (fun y => y == 0)).length
          · -- run of at least 11 zeros: symbol 18
            rw [rle_unfold_18 fuelE prev r h11] at hcov ⊢
            have hc18 := hcov _ (List.mem_cons_self _ _)
            simp only [List.flatMap_cons, List.append_assoc]
            rw [read_len_syms_succ, if_neg hgta,
              decode_code_bits cl hvcl 18 hc18.1 hc18.2]
            dsimp only
            rw [if_neg (by omega), if_neg (by omega), if_neg (by omega),
              if_pos rfl]
            have hce : cl_extra_bits 18 = 7 := rfl
            rw [hce, readBitsLSB_append 7 _ _ (by omega)]
            dsimp only
            have hm11 : min (1 + (r.takeWhile (fun y => y == 0)).length) 138 -
                11 + 11 = min (1 + (r.takeWhile (fun y => y == 0)).length) 138 := by
              omega
            rw [hm11]
            have hacc : acc ++ List.replicate
                (min (1 + (r.takeWhile (fun y => y == 0)).length) 138) 0 ++
                (0 :: r).drop
                  (min (1 + (r.takeWhile (fun y => y == 0)).length) 138) =
                acc ++ (0 :: r) := by
              rw [List.append_assoc, ← take_run 0 r _ (by omega),
                List.take_append_drop]
            rw [← hacc]
            refine ih _ (some 0) _ rest fuelD total ?_ ?_ (hdropall _) ?_ ?_ ?_
            · rw [hdroplen]
              omega
            · rw [List.length_append, List.length_replicate, hdroplen]
              omega
            · intro pr hpr
              exact hcov pr (List.mem_cons_of_mem _ hpr)
            · intro v hv
              injection hv with hv
              subst hv
              exact getLast?_append_replicate acc 0 _ (by omega)
            · rw [hdroplen]
              omega
          · by_cases h3 : 3 ≤ 1 + (r.takeWhile (fun y => y == 0)).length
            · -- run of 3 to 10 zeros: symbol 17
              rw [rle_unfold_17 fuelE prev r h11 h3] at hcov ⊢
              have hc17 := hcov _ (List.mem_cons_self _ _)
              simp only [List.flatMap_cons, List.append_assoc]
              rw [read_len_syms_succ, if_neg hgta,
                decode_code_bits cl hvcl 17 hc17.1 hc17.2]
              dsimp only
              rw [if_neg (by omega), if_neg (by omega), if_pos rfl]
              have hce : cl_extra_bits 17 = 3 := rfl
              rw [hce, readBitsLSB_append 3 _ _ (by omega)]
              dsimp only
              have hm3 : 1 + (r.takeWhile (fun y => y == 0)).length - 3 + 3 =
                  1 + (r.takeWhile (fun y => y == 0)).length := by omega
              rw [hm3]
              have hacc : acc ++ List.replicate
                  (1 + (r.takeWhile (fun y => y == 0)).length) 0 ++
                  (0 :: r).drop (1 + (r.takeWhile (fun y => y == 0)).length) =
                  acc ++ (0 :: r) := by
                rw [List.append_assoc, ← take_run 0 r _ (by omega),
                  List.take_append_drop]
              rw [← hacc]
              refine ih _ (some 0) _ rest fuelD total ?_ ?_ (hdropall _) ?_ ?_ ?_
              · rw [hdroplen]
                omega
              · rw [List.length_append, List.length_replicate, hdroplen]
                omega
              · intro pr hpr
                exact hcov pr (List.mem_cons_of_mem _ hpr)
              · intro v hv
                injection hv with hv
                subst hv
                exact getLast?_append_replicate acc 0 _ (by omega)
              · rw [hdroplen]
                omega
            · -- an isolated zero: the plain symbol 0
              rw [rle_unfold_zero_lit fuelE prev r h3] at hcov ⊢
              have hc0 := hcov _ (List.mem_cons_self _ _)
              simp only [List.flatMap_cons, List.append_assoc]
              rw [read_len_syms_succ, if_neg hgta,
                decode_code_bits cl hvcl 0 hc0.1 hc0.2]
              dsimp only
              rw [if_pos (by omega)]
              have hce : natBitsLSB 0 (cl_extra_bits 0) = [] := rfl
              rw [hce, List.nil_append]
              have hacc : acc ++ [0] ++ r = acc ++ (0 :: r) := by
                rw [List.append_assoc]
                rfl
              rw [← hacc]
              refine ih r (some 0) (acc ++ [0]) rest fuelD total (by omega) ?_
                (fun y hy => hall y (List.mem_cons_of_mem _ hy)) ?_ ?_ (by omega)
              · rw [List.length_append, List.length_singleton]
                omega
              · intro pr hpr
                exact hcov pr (List.mem_cons_of_mem _ hpr)
              · intro v hv
                injection hv with hv
                subst hv
                exact getLast?_append_replicate acc 0 1 (by omega)
        · by_cases hc16 : prev = some x ∧
              3 ≤ 1 + (r.takeWhile (fun y => y == x)).length
          · -- repeat of the previous value: symbol 16
            rw [rle_unfold_16 fuelE prev x r hx0 hc16] at hcov ⊢
            have hcs := hcov _ (List.mem_cons_self _ _)
            simp only [List.flatMap_cons, List.append_assoc]
            rw [read_len_syms_succ, if_neg hgta,
              decode_code_bits cl hvcl 16 hcs.1 hcs.2]
            dsimp only
            rw [if_neg (by omega), if_pos rfl]
            have hce : cl_extra_bits 16 = 2 := rfl
            rw [hce, readBitsLSB_append 2 _ _ (by omega)]
            dsimp only
            rw [hprev x hc16.1]
            have hm6 : min (1 + (r.takeWhile (fun y => y == x)).length) 6 - 3 +
                3 = min (1 + (r.takeWhile (fun y => y == x)).length) 6 := by
              omega
            rw [hm6]
            have hacc : acc ++ List.replicate
                (min (1 + (r.takeWhile (fun y => y == x)).length) 6) x ++
                (x :: r).drop
                  (min (1 + (r.takeWhile (fun y => y == x)).length) 6) =
                acc ++ (x :: r) := by
              rw [List.append_assoc, ← take_run x r _ (by omega),
                List.take_append_drop]
            rw [← hacc]
            refine ih _ (some x) _ rest fuelD total ?_ ?_ (hdropall _) ?_ ?_ ?_
            · rw [hdroplen]
              omega
            · rw [List.length_append, List.length_replicate, hdroplen]
              omega
            · intro pr hpr
              exact hcov pr (List.mem_cons_of_mem _ hpr)
            · intro v hv
              injection hv with hv
              subst hv
              exact getLast?_append_replicate acc x _ (by omega)
            · rw [hdroplen]
              omega
          · -- a plain literal symbol
            rw [rle_unfold_lit fuelE prev x r hx0 hc16] at hcov ⊢
            have hcs := hcov _ (List.mem_cons_self _ _)
            have hx15 : x ≤ 15 := hall x (List.mem_cons_self _ _)
            simp only [List.flatMap_cons, List.append_assoc]
            rw [read_len_syms_succ, if_neg hgta,
              decode_code_bits cl hvcl x hcs.1 hcs.2]
            dsimp only
            rw [if_pos hx15]
            have hce : natBitsLSB 0 (cl_extra_bits x) = [] := by
              have : cl_extra_bits x = 0 := by
                rw [cl_extra_bits, if_neg (by omega), if_neg (by omega),
                  if_neg (by omega)]
              rw [this]
              rfl
            rw [hce, List.nil_append]
            have hacc : acc ++ [x] ++ r = acc ++ (x :: r) := by
              rw [List.append_assoc]
              rfl
            rw [← hacc]
            refine ih r (some x) (acc ++ [x]) rest fuelD total (by omega) ?_
              (fun y hy => hall y (List.mem_cons_of_mem _ hy)) ?_ ?_ (by omega)
            · rw [List.length_append, List.length_singleton]
              omega
            · intro pr hpr
              exact hcov pr (List.mem_cons_of_mem _ hpr)
            · intro v hv
              injection hv with hv
              subst hv
              exact getLast?_append_replicate acc x 1 (by omega)

theorem rle_symbols_le_18 :
    ∀ (fuel : Nat) (prev : Option Nat) (xs : List Nat),
    (∀ x ∈ xs, x ≤ 15) →
    ∀ pr ∈ rle_encode_go fuel prev xs, pr.1 ≤ 18 := by
  intro fuel
  induction fuel with
  | zero => intro prev xs _ pr hpr; simp [rle_encode_go] at hpr
  | succ fuel ih =>
    intro prev xs hall pr hpr
    match xs with
    | [] => simp [rle_encode_go] at hpr
    | x :: r =>
      have hdropall : ∀ m : Nat, ∀ y ∈ (x :: r).drop m, y ≤ 15 :=
        fun m y hy => hall y (List.drop_subset m (x :: r) hy)
      by_cases hx0 : x = 0
      · subst hx0
        by_cases h11 : 11 ≤ 1 + (r.takeWhile (fun y => y == 0)).length
        · rw [rle_unfold_18 fuel prev r h11] at hpr
          rcases List.mem_cons.mp hpr with hpr | hpr
          · subst hpr; omega
          · exact ih _ _ (hdropall _) pr hpr
        · by_cases h3 : 3 ≤ 1 + (r.takeWhile (fun y => y == 0)).length
          · rw [rle_unfold_17 fuel prev r h11 h3] at hpr
            rcases List.mem_cons.mp hpr with hpr | hpr
            · subst hpr; omega
            · exact ih _ _ (hdropall _) pr hpr
          · rw [rle_unfold_zero_lit fuel prev r h3] at hpr
            rcases List.mem_cons.mp hpr with hpr | hpr
            · subst hpr; omega
            · exact ih _ _ (fun y hy => hall y (List.mem_cons_of_mem _ hy))
                pr hpr
      · by_cases hc16 : prev = some x ∧
            3 ≤ 1 + (r.takeWhile (fun y => y == x)).length
        · rw [rle_unfold_16 fuel prev x r hx0 hc16] at hpr
          rcases List.mem_cons.mp hpr with hpr | hpr
          · subst hpr; omega
          · exact ih _ _ (hdropall _) pr hpr
        · rw [rle_unfold_lit fuel prev x r hx0 hc16] at hpr
          rcases List.mem_cons.mp hpr with hpr | hpr
          · subst hpr
            have := hall x (List.mem_cons_self _ _)
            omega
          · exact ih _ _ (fun y hy => hall y (List.mem_cons_of_mem _ hy))
              pr hpr

/-- Every symbol of the RLE stream has a code in the code-length code
derived from its own frequencies. -/
theorem rle_covered (ll dd : List Nat) (hall : ∀ x ∈ ll ++ dd, x ≤ 15) :
    ∀ pr ∈ rle_encode (ll ++ dd), sym_covered (cl_lengths_for ll dd) pr.1 := by
  intro pr hpr
  have hs18 : pr.1 ≤ 18 :=
    rle_symbols_le_18 (ll ++ dd).length none (ll ++ dd) hall pr hpr
  have hcnt : 0 < ((List.range 19).map
      (fun s => ((rle_encode (ll ++ dd)).map Prod.fst).count s)).getD pr.1 0 := by
    rw [getD_map_lt _ _ _ (by rw [List.length_range]; omega)]
    have hval : (List.range 19).getD pr.1 0 = pr.1 := by
      rw [List.getD_eq_getElem _ _ (by rw [List.length_range]; omega)]
      simp
    rw [hval]
    rw [List.count_pos_iff]
    exact List.mem_map.mpr ⟨pr, hpr, rfl⟩
  obtain ⟨_, _, hgen⟩ := huffman_lengths_from_frequency_valid
    ((List.range 19).map (fun s => ((rle_encode (ll ++ dd)).map Prod.fst).count s))
    7 (by omega) (by omega) (by simp)
  refine ⟨?_, ?_⟩
  · rw [cl_lengths_for]
    rw [huffman_lengths_from_frequency_length]
    simp only [List.length_map, List.length_range]
    omega
  · rw [cl_lengths_for]
    exact hgen _ hcnt

/-- The code lengths of the code-length code fit in three bits. -/
theorem cl_lengths_lt_8 (ll dd : List Nat) :
    ∀ v ∈ cl_lengths_for ll dd, v < 8 := by
  intro v hv
  obtain ⟨hle, _, _⟩ := huffman_lengths_from_frequency_valid
    ((List.range 19).map (fun s => ((rle_encode (ll ++ dd)).map Prod.fst).count s))
    7 (by omega) (by omega) (by simp)
  have := hle v (by
    rw [cl_lengths_for] at hv
    exact hv)
  omega

theorem cl_lengths_for_length (ll dd : List Nat) :
    (cl_lengths_for ll dd).length = 19 := by
  rw [cl_lengths_for]
  rw [huffman_lengths_from_frequency_length]
  simp

theorem cl_lengths_for_valid (ll dd : List Nat) :
    ValidLengths (cl_lengths_for ll dd) := by
  obtain ⟨hle, hk, _⟩ := huffman_lengths_from_frequency_valid
    ((List.range 19).map (fun s => ((rle_encode (ll ++ dd)).map Prod.fst).count s))
    7 (by omega) (by omega) (by simp)
  refine ⟨?_, ?_⟩
  · intro l hl
    have := hle l (by rw [cl_lengths_for] at hl; exact hl)
    omega
  · rw [cl_lengths_for]
    exact hk

theorem recs_length_le (ll dd : List Nat) (recs : List LDPair)
    (hcov : ∀ rec ∈ recs, rec_covered ll dd rec) :
    recs.length ≤ (recs.flatMap (ldpair_bits ⟨ll, dd⟩)).length := by
  induction recs with
  | nil => simp
  | cons rec rs ih =>
    rw [List.flatMap_cons, List.length_append, List.length_cons]
    have hrs := ih (fun r hr => hcov r (List.mem_cons_of_mem _ hr))
    have hone : 1 ≤ (ldpair_bits ⟨ll, dd⟩ rec).length := by
      have hc := hcov rec (List.mem_cons_self _ _)
      cases rec with
      | Literal b =>
        rw [ldpair_bits_literal, code_bits, List.length_reverse,
          natBitsLSB_length]
        have : ll.getD b 0 ≠ 0 := hc.2
        omega
      | LengthDistance len dist =>
        rw [ldpair_bits_ld]
        simp only [List.length_append, code_bits, List.length_reverse,
          natBitsLSB_length]
        have : ll.getD (257 + lengthCodeIdx len) 0 ≠ 0 := hc.1.2
        omega
      | EndOfBlock =>
        rw [ldpair_bits_eob, code_bits, List.length_reverse, natBitsLSB_length]
        have : ll.getD 256 0 ≠ 0 := hc.2
        omega
    omega

/-! ## Decoding one whole block -/

theorem inflate_blocks_succ (orig : Nat) (bits : List Bool) (out : List Nat)
    (fuel : Nat) :
    inflate_blocks orig bits out (fuel + 1) =
      (match bits with
      | [] => none
      | bfinal :: r1 =>
        match readBitsLSB 2 r1 with
        | none => none
        | some (btype, r2) =>
          if btype = 0 then
            match readBitsLSB 16 (r2.drop ((8 - (orig - r2.length) % 8) % 8)) with
            | none => none
            | some (len, r4) =>
              match readBitsLSB 16 r4 with
              | none => none
              | some (nlen, r5) =>
                if nlen = 65535 - len then
                  match read_bytes len r5 with
                  | none => none
                  | some (chunk, r6) =>
                    if bfinal then some (out ++ chunk)
                    else inflate_blocks orig r6 (out ++ chunk) fuel
                else none
          else if btype = 1 then
            match inflate_syms FIXED_CODE_LENGTHS FIXED_CODE_LENGTHS_DISTANCE out r2
                (r2.length + 1) with
            | none => none
            | some (out2, r3) =>
              if bfinal then some out2 else inflate_blocks orig r3 out2 fuel
          else if btype = 2 then
            match readBitsLSB 5 r2 with
            | none => none
            | some (hlit, r3) =>
              match readBitsLSB 5 r3 with
              | none => none
              | some (hdist, r4) =>
                match readBitsLSB 4 r4 with
                | none => none
                | some (hclen, r5) =>
                  match read_cl_into (CL_ORDER.take (hclen + 4))
                      (List.replicate 19 0) r5 with
                  | none => none
                  | some (cl, r6) =>
                    match read_len_syms cl (hlit + 257 + (hdist + 1)) [] r6
                        (hlit + 257 + (hdist + 1) + 1) with
                    | none => none
                    | some (lens, r7) =>
                      match inflate_syms (lens.take (hlit + 257))
                          (lens.drop (hlit + 257)) out r7 (r7.length + 1) with
                      | none => none
                      | some (out2, r8) =>
                        if bfinal then some out2
                        else inflate_blocks orig r8 out2 fuel
          else none) := rfl

/-- Decoding one dynamic block: the header yields the installed code length
vectors, and the block body replays the described input segment. -/
theorem inflate_dynamic_block (orig : Nat) (input : List Nat) (p : Nat)
    (Δ : List LDPair) (ll dd : List Nat) (bfinal : Bool) (rest : List Bool)
    (fuel : Nat)
    (hp : p ≤ input.length) (hgood : good_records input p Δ = true)
    (hcov : ∀ rec ∈ Δ, rec_covered ll dd rec)
    (hvll : ValidLengths ll) (hvdd : ValidLengths dd)
    (hbytes : ∀ b ∈ input, b < 256)
    (hcov256 : sym_covered ll 256)
    (hll1 : 257 ≤ ll.length) (hll2 : ll.length ≤ 286)
    (hdd1 : 1 ≤ dd.length) (hdd2 : dd.length ≤ 30)
    (hall : ∀ x ∈ ll ++ dd, x ≤ 15) :
    inflate_blocks orig
      (bfinal :: (natBitsLSB 2 2 ++ (write_huffman_lengths ll dd ++
        (Δ.flatMap (ldpair_bits ⟨ll, dd⟩) ++ (code_bits ll 256 ++ rest)))))
      (input.take p) (fuel + 1) =
      (if bfinal then some (input.take (records_end p Δ))
      else inflate_blocks orig rest (input.take (records_end p Δ)) fuel) := by
  rw [inflate_blocks_succ]
  dsimp only
  rw [readBitsLSB_append 2 2 _ (by omega)]
  dsimp only
  rw [if_neg (by omega), if_neg (by omega), if_pos rfl]
  rw [write_huffman_lengths]
  simp only [List.append_assoc]
  rw [readBitsLSB_append 5 _ _ (by
    have : (2 : Nat) ^ 5 = 32 := by norm_num
    omega)]
  dsimp only
  rw [readBitsLSB_append 5 _ _ (by
    have : (2 : Nat) ^ 5 = 32 := by norm_num
    omega)]
  dsimp only
  rw [readBitsLSB_append 4 _ _ (by
    have h19 : (trim_zeroes (CL_ORDER.map
        (fun i => (cl_lengths_for ll dd).getD i 0))).length ≤ 19 := by
      have := trim_zeroes_length_le (CL_ORDER.map
        (fun i => (cl_lengths_for ll dd).getD i 0))
      rw [List.length_map, cl_order_length] at this
      exact this
    have : (2 : Nat) ^ 4 = 16 := by norm_num
    omega)]
  dsimp only
  have hkeep4 : max 4 (trim_zeroes (CL_ORDER.map
      (fun i => (cl_lengths_for ll dd).getD i 0))).length - 4 + 4 =
      max 4 (trim_zeroes (CL_ORDER.map
        (fun i => (cl_lengths_for ll dd).getD i 0))).length := by
    omega
  rw [hkeep4]
  rw [read_cl_roundtrip (cl_lengths_for ll dd) _ (cl_lengths_for_length ll dd)
    (cl_lengths_lt_8 ll dd)]
  dsimp only
  have htot : ll.length - 257 + 257 + (dd.length - 1 + 1) =
      ll.length + dd.length := by omega
  rw [htot]
  have hrle := rle_roundtrip (cl_lengths_for ll dd) (cl_lengths_for_valid ll dd)
    (ll ++ dd).length (ll ++ dd) none []
    (Δ.flatMap (ldpair_bits ⟨ll, dd⟩) ++ (code_bits ll 256 ++ rest))
    (ll.length + dd.length + 1) (ll.length + dd.length)
    (le_refl _) (by simp) hall (rle_covered ll dd hall)
    (by intro v hv; cases hv) (by rw [List.length_append]; omega)
  rw [List.length_append] at hrle
  rw [rle_encode, List.length_append, hrle]
  dsimp only
  have htake : (([] : List Nat) ++ (ll ++ dd)).take (ll.length - 257 + 257) =
      ll := by
    rw [List.nil_append, show ll.length - 257 + 257 = ll.length from by omega]
    exact List.take_left ll dd
  have hdrop : (([] : List Nat) ++ (ll ++ dd)).drop (ll.length - 257 + 257) =
      dd := by
    rw [List.nil_append, show ll.length - 257 + 257 = ll.length from by omega]
    exact List.drop_left ll dd
  rw [htake, hdrop]
  have hsyms := inflate_syms_records input ll dd hvll hvdd hbytes hcov256
    Δ p rest ((Δ.flatMap (ldpair_bits ⟨ll, dd⟩) ++
      (code_bits ll 256 ++ rest)).length + 1) hp hgood hcov
    (by
      have h1 := recs_length_le ll dd Δ hcov
      rw [List.length_append]
      omega)
  rw [List.append_assoc] at hsyms
  rw [hsyms]

/-! ## The dynamic block loop decodes back to the input -/

theorem foldl_write_ldpair_eq (recs : List LDPair) : ∀ st : EncoderState,
    recs.foldl (fun s ld => s.write_ldpair ld) st =
      { st with bits := st.bits ++ recs.flatMap (ldpair_bits st.huffman_table) } := by
  induction recs with
  | nil => intro st; simp
  | cons ld r ih =>
    intro st
    rw [List.foldl_cons, ih]
    simp [EncoderState.write_ldpair, List.flatMap_cons]

/-- The generated literal/length lengths of a dynamic block. -/
def block_l_lengths (w : DynamicWriter) : List Nat :=
  huffman_lengths_from_frequency
    (remove_trailing_zeroes w.l_freqs MIN_NUM_LITERALS_AND_LENGTHS)
    MAX_CODE_LENGTH

/-- The generated distance lengths of a dynamic block. -/
def block_d_lengths (w : DynamicWriter) : List Nat :=
  huffman_lengths_from_frequency
    (remove_trailing_zeroes w.d_freqs MIN_NUM_DISTANCES)
    MAX_CODE_LENGTH

theorem compress_dynamic_block_body_bits (input : List Nat)
    (r : LZ77State × DynamicWriter) (state : EncoderState) :
    (compress_dynamic_block_body input r state).bits =
      state.bits ++ (r.1.is_last_block ::
        (natBitsLSB 2 2 ++
          (write_huffman_lengths (block_l_lengths r.2) (block_d_lengths r.2) ++
            r.2.buffer.flatMap
              (ldpair_bits ⟨block_l_lengths r.2, block_d_lengths r.2⟩)))) := by
  rw [compress_dynamic_block_body]
  rw [foldl_write_ldpair_eq]
  simp only [EncoderState.update_huffman_table, EncoderState.write_start_of_block,
    DynamicWriter.get_frequencies, DynamicWriter.get_buffer,
    block_l_lengths, block_d_lengths, MIN_NUM_LITERALS_AND_LENGTHS,
    MIN_NUM_DISTANCES, MAX_CODE_LENGTH, BType.code, List.append_assoc,
    List.cons_append, List.nil_append]
  rfl

theorem gen_lengths_valid (freqs : List Nat) (min_len : Nat)
    (h : freqs.length ≤ 32768) :
    ValidLengths (huffman_lengths_from_frequency
      (remove_trailing_zeroes freqs min_len) MAX_CODE_LENGTH) := by
  obtain ⟨hle, hk, _⟩ := huffman_lengths_from_frequency_valid
    (remove_trailing_zeroes freqs min_len) MAX_CODE_LENGTH
    (by rw [MAX_CODE_LENGTH]; omega) (by rw [MAX_CODE_LENGTH])
    (by
      have := remove_trailing_zeroes_length_le freqs min_len
      rw [MAX_CODE_LENGTH]
      norm_num
      omega)
  exact ⟨fun l hl => (hle l hl).trans (by rw [MAX_CODE_LENGTH]), hk⟩

theorem gen_lengths_le15 (freqs : List Nat) (min_len : Nat)
    (h : freqs.length ≤ 32768) :
    ∀ x ∈ huffman_lengths_from_frequency
      (remove_trailing_zeroes freqs min_len) MAX_CODE_LENGTH, x ≤ 15 := by
  obtain ⟨hle, _, _⟩ := huffman_lengths_from_frequency_valid
    (remove_trailing_zeroes freqs min_len) MAX_CODE_LENGTH
    (by rw [MAX_CODE_LENGTH]; omega) (by rw [MAX_CODE_LENGTH])
    (by
      have := remove_trailing_zeroes_length_le freqs min_len
      rw [MAX_CODE_LENGTH]
      norm_num
      omega)
  intro x hx
  have := hle x hx
  rw [MAX_CODE_LENGTH] at this
  exact this

theorem gen_lengths_length (freqs : List Nat) (min_len : Nat)
    (hge : min_len ≤ freqs.length) :
    min_len ≤ (huffman_lengths_from_frequency
      (remove_trailing_zeroes freqs min_len) MAX_CODE_LENGTH).length ∧
    (huffman_lengths_from_frequency
      (remove_trailing_zeroes freqs min_len) MAX_CODE_LENGTH).length ≤
      freqs.length := by
  rw [huffman_lengths_from_frequency_length]
  exact ⟨remove_trailing_zeroes_length_ge freqs min_len hge,
    remove_trailing_zeroes_length_le freqs min_len⟩

theorem buffer_rec_covered (w : DynamicWriter) (hf : freqs_ok w)
    (hc : buffer_covered w) :
    ∀ rec ∈ w.buffer, rec_covered (block_l_lengths w) (block_d_lengths w) rec := by
  intro rec hrec
  have hpos := hc rec hrec
  cases rec with
  | Literal b =>
    exact covered_of_pos w.l_freqs MIN_NUM_LITERALS_AND_LENGTHS MAX_CODE_LENGTH b
      (by rw [MAX_CODE_LENGTH]; omega) (by rw [MAX_CODE_LENGTH])
      (by rw [hf.1, MAX_CODE_LENGTH]; norm_num) hpos
  | LengthDistance len dist =>
    refine ⟨?_, ?_⟩
    · exact covered_of_pos w.l_freqs MIN_NUM_LITERALS_AND_LENGTHS MAX_CODE_LENGTH _
        (by rw [MAX_CODE_LENGTH]; omega) (by rw [MAX_CODE_LENGTH])
        (by rw [hf.1, MAX_CODE_LENGTH]; norm_num) hpos.1
    · exact covered_of_pos w.d_freqs MIN_NUM_DISTANCES MAX_CODE_LENGTH _
        (by rw [MAX_CODE_LENGTH]; omega) (by rw [MAX_CODE_LENGTH])
        (by rw [hf.2, MAX_CODE_LENGTH]; norm_num) hpos.2
  | EndOfBlock =>
    exact covered_of_pos w.l_freqs MIN_NUM_LITERALS_AND_LENGTHS MAX_CODE_LENGTH 256
      (by rw [MAX_CODE_LENGTH]; omega) (by rw [MAX_CODE_LENGTH])
      (by rw [hf.1, MAX_CODE_LENGTH]; norm_num) hpos

theorem new_freqs_ok : freqs_ok DynamicWriter.new := by
  refine ⟨?_, ?_⟩ <;> simp only [DynamicWriter.new, List.length_replicate]

theorem clear_freqs_ok (w : DynamicWriter) : freqs_ok w.clear := new_freqs_ok

theorem records_end_le (input : List Nat) :
    ∀ (Δ : List LDPair) (p : Nat), good_records input p Δ = true →
    p ≤ input.length → records_end p Δ ≤ input.length := by
  intro Δ
  induction Δ with
  | nil => intro p _ hp; exact hp
  | cons rec rs ih =>
    intro p hgood hp
    cases rec with
    | Literal b =>
      simp only [good_records, Bool.and_eq_true, decide_eq_true_eq] at hgood
      rw [records_end]
      exact ih (p + 1) hgood.2 (by omega)
    | LengthDistance len dist =>
      simp only [good_records, Bool.and_eq_true, decide_eq_true_eq] at hgood
      rw [records_end]
      exact ih (p + len) hgood.2 (by omega)
    | EndOfBlock => simp [good_records] at hgood

/-- A single dynamic block, as the loop body emits it, decodes the input
segment it covers; its `Δ` is the LZ77 record list of the segment. -/
theorem compress_dynamic_loop_go_decodes (input : List Nat)
    (hbytes : ∀ b ∈ input, b < 256) (orig : Nat) :
    ∀ (fuel : Nat) (lz : LZ77State) (w : DynamicWriter) (state : EncoderState),
    lz.is_last_block = false →
    lz.pos ≤ input.length →
    w.buffer = [] → freqs_ok w →
    input.length + 2 - min lz.pos input.length ≤ fuel →
    ∃ B, (compress_dynamic_loop_go input fuel lz w state).bits =
        state.bits ++ B ∧
      ∀ (rest : List Bool) (dfuel : Nat), B.length ≤ dfuel →
        inflate_blocks orig (B ++ rest) (input.take lz.pos) (dfuel + 1) =
          some input := by
  intro fuel
  induction fuel with
  | zero =>
    intro lz w state _ _ _ _ hfuel
    exfalso
    have hm := Nat.min_le_right lz.pos input.length
    omega
  | succ fuel ih =>
    intro lz w state hlast hpos hbuf hfok hfuel
    rw [compress_dynamic_loop_go, if_neg (by simp [hlast])]
    -- the block produced by this iteration
    obtain ⟨Δ, hbuf2, hgood, hend⟩ :=
      lz77_compress_block_good input lz w hpos
    rw [hbuf, List.nil_append] at hbuf2
    obtain ⟨hfok2, hcov2⟩ :=
      lz77_compress_block_covered input lz w hbytes hpos hfok
        (by intro rec hrec; rw [hbuf] at hrec; cases hrec)
    have hrcov := buffer_rec_covered _ hfok2 hcov2
    have hcovΔ : ∀ rec ∈ Δ, rec_covered
        (block_l_lengths (lz77_compress_block input lz w).2)
        (block_d_lengths (lz77_compress_block input lz w).2) rec := by
      intro rec hrec
      refine hrcov rec ?_
      rw [hbuf2]
      exact List.mem_append_left _ hrec
    have hcov256 : sym_covered
        (block_l_lengths (lz77_compress_block input lz w).2) 256 := by
      have := hrcov LDPair.EndOfBlock (by
        rw [hbuf2]
        exact List.mem_append_right _ (List.mem_singleton.mpr rfl))
      exact this
    have hvll : ValidLengths (block_l_lengths (lz77_compress_block input lz w).2) :=
      gen_lengths_valid _ _ (by rw [hfok2.1]; omega)
    have hvdd : ValidLengths (block_d_lengths (lz77_compress_block input lz w).2) :=
      gen_lengths_valid _ _ (by rw [hfok2.2]; omega)
    have hlllen := gen_lengths_length
      (lz77_compress_block input lz w).2.l_freqs MIN_NUM_LITERALS_AND_LENGTHS
      (by rw [hfok2.1, MIN_NUM_LITERALS_AND_LENGTHS]; omega)
    have hddlen := gen_lengths_length
      (lz77_compress_block input lz w).2.d_freqs MIN_NUM_DISTANCES
      (by rw [hfok2.2, MIN_NUM_DISTANCES]; omega)
    have hall : ∀ x ∈ block_l_lengths (lz77_compress_block input lz w).2 ++
        block_d_lengths (lz77_compress_block input lz w).2, x ≤ 15 := by
      intro x hx
      rcases List.mem_append.mp hx with hx | hx
      · exact gen_lengths_le15 _ _ (by rw [hfok2.1]; omega) x hx
      · exact gen_lengths_le15 _ _ (by rw [hfok2.2]; omega) x hx
    have hbits := compress_dynamic_block_body_bits input
      (lz77_compress_block input lz w) state
    have hflat : (lz77_compress_block input lz w).2.buffer.flatMap
        (ldpair_bits ⟨block_l_lengths (lz77_compress_block input lz w).2,
          block_d_lengths (lz77_compress_block input lz w).2⟩) =
        Δ.flatMap (ldpair_bits ⟨block_l_lengths (lz77_compress_block input lz w).2,
          block_d_lengths (lz77_compress_block input lz w).2⟩) ++
          (code_bits (block_l_lengths (lz77_compress_block input lz w).2) 256 ++
            []) := by
      rw [hbuf2, List.flatMap_append, List.flatMap_cons, List.flatMap_nil,
        ldpair_bits_eob]
    have hdecode := fun (bfinal : Bool) (rest : List Bool) (dfuel : Nat) =>
      inflate_dynamic_block orig input lz.pos Δ
        (block_l_lengths (lz77_compress_block input lz w).2)
        (block_d_lengths (lz77_compress_block input lz w).2)
        bfinal rest dfuel hpos hgood hcovΔ hvll hvdd hbytes hcov256
        (by exact hlllen.1)
        (by have h286 := hlllen.2; rw [hfok2.1] at h286; exact h286)
        (by exact hddlen.1)
        (by have h30 := hddlen.2; rw [hfok2.2] at h30; exact h30)
        hall
    by_cases h2 : (lz77_compress_block input lz w).1.is_last_block
    · -- the final block: the loop stops at the next iteration
      have hfuel1 : fuel ≠ 0 := by
        have hm := Nat.min_le_right lz.pos input.length
        omega
      obtain ⟨fuel2, rfl⟩ := Nat.exists_eq_succ_of_ne_zero hfuel1
      rw [compress_dynamic_loop_go, if_pos h2, hbits, hflat, h2]
      refine ⟨_, rfl, ?_⟩
      intro rest dfuel _
      have hposN : (lz77_compress_block input lz w).1.pos = input.length := by
        have h2' : input.length ≤ (lz77_compress_block input lz w).1.pos := by
          unfold lz77_compress_block at h2 ⊢
          dsimp only at h2 ⊢
          simpa using h2
        have hle2 : records_end lz.pos Δ ≤ input.length :=
          records_end_le input Δ lz.pos hgood hpos
        omega
      have := hdecode (lz77_compress_block input lz w).1.is_last_block rest dfuel
      rw [h2] at this
      simp only [List.cons_append, List.append_assoc, List.append_nil] at this ⊢
      rw [this, if_pos trivial, hend, hposN, List.take_length]
    · -- a non-final block: decode it and recurse
      have hp := lz77_compress_block_progress input lz w (by simpa using h2)
      obtain ⟨B2, heq, hdec2⟩ := ih (lz77_compress_block input lz w).1
        (lz77_compress_block input lz w).2.clear
        (compress_dynamic_block_body input (lz77_compress_block input lz w) state)
        (by simpa using h2) (by omega) rfl (clear_freqs_ok _)
        (by
          have hm1 : min (lz77_compress_block input lz w).1.pos input.length =
              (lz77_compress_block input lz w).1.pos :=
            Nat.min_eq_left (le_of_lt hp.2)
          have hm2 : min lz.pos input.length = lz.pos := Nat.min_eq_left (by omega)
          omega)
      rw [heq, hbits, hflat]
      refine ⟨_, by rw [List.append_assoc], ?_⟩
      intro rest dfuel hdf
      have h2f : (lz77_compress_block input lz w).1.is_last_block = false := by
        simpa using h2
      have hB2 : B2.length + 1 ≤ dfuel := by
        rw [List.length_append, List.length_cons] at hdf
        omega
      obtain ⟨d2, rfl⟩ : ∃ d2, dfuel = d2 + 1 := by
        refine ⟨dfuel - 1, ?_⟩
        omega
      have hstep := hdecode (lz77_compress_block input lz w).1.is_last_block
        (B2 ++ rest) (d2 + 1)
      rw [h2f] at hstep
      rw [if_neg (by simp)] at hstep
      simp only [List.cons_append, List.append_assoc, List.append_nil]
        at hstep ⊢
      rw [h2f, hstep, hend]
      exact hdec2 rest d2 (by omega)

/-! ## The three driver paths decode back to the input -/

theorem bytesBits_length (bytes : List Nat) :
    (bytesBits bytes).length = 8 * bytes.length := by
  induction bytes with
  | nil => rfl
  | cons b r ih =>
    rw [bytesBits_cons, List.length_append, natBitsLSB_length, ih,
      List.length_cons]
    omega

set_option maxRecDepth 40000 in
theorem fixed_l_valid : ValidLengths FIXED_CODE_LENGTHS := by
  constructor
  · decide
  · decide

theorem fixed_d_valid : ValidLengths FIXED_CODE_LENGTHS_DISTANCE := by
  constructor
  · decide
  · decide

set_option maxRecDepth 2000 in
theorem fixed_l_nonzero : ∀ s < 288, FIXED_CODE_LENGTHS.getD s 0 ≠ 0 := by
  decide

theorem fixed_d_nonzero : ∀ s < 30,
    FIXED_CODE_LENGTHS_DISTANCE.getD s 0 ≠ 0 := by
  decide

set_option maxRecDepth 10000 in
theorem fixed_l_length : FIXED_CODE_LENGTHS.length = 288 := by decide

theorem fixed_d_length : FIXED_CODE_LENGTHS_DISTANCE.length = 30 := by decide

theorem good_records_covered_fixed (input : List Nat)
    (hbytes : ∀ b ∈ input, b < 256) :
    ∀ (Δ : List LDPair) (p : Nat), good_records input p Δ = true →
    ∀ rec ∈ Δ,
      rec_covered FIXED_CODE_LENGTHS FIXED_CODE_LENGTHS_DISTANCE rec := by
  intro Δ
  induction Δ with
  | nil => intro p _ rec hrec; cases hrec
  | cons rec0 rs ih =>
    intro p hgood rec hrec
    have hsplit := List.mem_cons.mp hrec
    clear hrec
    rcases hsplit with heq | hmem
    · subst heq
      cases rec with
      | Literal b =>
        simp only [good_records, Bool.and_eq_true, decide_eq_true_eq,
          beq_iff_eq] at hgood
        obtain ⟨⟨hpN, hb⟩, _⟩ := hgood
        have hblt : b < 256 := by
          rw [← hb]
          refine hbytes _ ?_
          rw [List.getD_eq_getElem _ _ hpN]
          exact List.getElem_mem _
        exact ⟨by rw [fixed_l_length]; omega, fixed_l_nonzero b (by omega)⟩
      | LengthDistance len dist =>
        simp only [good_records, Bool.and_eq_true, decide_eq_true_eq] at hgood
        obtain ⟨⟨⟨⟨⟨⟨⟨h3, h258⟩, hd1⟩, hd32k⟩, _⟩, _⟩, _⟩, _⟩ := hgood
        obtain ⟨hli, _, _⟩ := lengthCodeIdx_spec len (by omega) h3
        obtain ⟨hdi, _, _⟩ := distCodeIdx_spec dist hd1 hd32k
        exact ⟨⟨by rw [fixed_l_length]; omega, fixed_l_nonzero _ (by omega)⟩,
          ⟨by rw [fixed_d_length]; omega, fixed_d_nonzero _ hdi⟩⟩
      | EndOfBlock => simp [good_records] at hgood
    · cases rec0 with
      | Literal b =>
        simp only [good_records, Bool.and_eq_true, decide_eq_true_eq,
          beq_iff_eq] at hgood
        obtain ⟨⟨_, _⟩, hgood2⟩ := hgood
        exact ih (p + 1) hgood2 rec hmem
      | LengthDistance len dist =>
        simp only [good_records, Bool.and_eq_true, decide_eq_true_eq] at hgood
        obtain ⟨_, hgood2⟩ := hgood
        exact ih _ hgood2 rec hmem
      | EndOfBlock => simp [good_records] at hgood

theorem fixed_cov256 :
    sym_covered FIXED_CODE_LENGTHS 256 :=
  ⟨by rw [fixed_l_length]; omega, fixed_l_nonzero 256 (by omega)⟩

theorem flush_bits (st : EncoderState) :
    st.flush.bits =
      st.bits ++ List.replicate ((8 - st.bits.length % 8) % 8) false := rfl

/-- On inputs of at least 70 bytes the driver emits dynamic blocks, and the
reference decoder recovers the input. -/
theorem inflate_dynamic_path (input : List Nat) (hbytes : ∀ b ∈ input, b < 256)
    (h70 : 70 ≤ input.length) :
    inflate (deflate_bytes input) = some input := by
  have hbt : block_type_for_length input.length = BType.DynamicHuffman := by
    rw [block_type_for_length, if_neg (by omega), if_neg (by omega)]
  obtain ⟨B, hB, hdec⟩ := compress_dynamic_loop_go_decodes input hbytes
    (8 * (deflate_bytes input).length) (input.length + 2) (LZ77State.new input)
    DynamicWriter.new (EncoderState.new HuffmanTable.empty) rfl
    (Nat.zero_le _) rfl new_freqs_ok
    (by
      have hm : min (LZ77State.new input).pos input.length = 0 := by
        simp [LZ77State.new]
      omega)
  have hbits : (compress_data_dynamic input NoChecksum ()).1.bits =
      B ++ List.replicate ((8 - B.length % 8) % 8) false := by
    simp only [compress_data_dynamic]
    rw [hbt]
    dsimp only
    rw [flush_bits, compress_dynamic_loop, hB,
      show (EncoderState.new HuffmanTable.empty).bits = [] from rfl,
      List.nil_append]
  have hlen8 : (compress_data_dynamic input NoChecksum ()).1.bits.length % 8 =
      0 := by
    rw [hbits, List.length_append, List.length_replicate]
    omega
  have hdef : deflate_bytes input =
      bitsToBytes (compress_data_dynamic input NoChecksum ()).1.bits := rfl
  rw [hdef, inflate, bytesBits_bitsToBytes _ hlen8]
  have hfuel : B.length ≤
      8 * (bitsToBytes (compress_data_dynamic input NoChecksum ()).1.bits).length := by
    have h1 := bytesBits_length
      (bitsToBytes (compress_data_dynamic input NoChecksum ()).1.bits)
    rw [bytesBits_bitsToBytes _ hlen8] at h1
    rw [← h1, hbits, List.length_append]
    omega
  have hres := hdec (List.replicate ((8 - B.length % 8) % 8) false)
    (8 * (bitsToBytes (compress_data_dynamic input NoChecksum ()).1.bits).length)
    hfuel
  rw [show (LZ77State.new input).pos = 0 from rfl, List.take_zero, ← hbits]
    at hres
  exact hres

theorem flush_len8 (st : EncoderState) : st.flush.bits.length % 8 = 0 := by
  rw [flush_bits, List.length_append, List.length_replicate]
  omega

/-- On inputs of 20 to 69 bytes the driver emits one final fixed-Huffman
block, and the reference decoder recovers the input. -/
theorem inflate_fixed_path (input : List Nat) (hbytes : ∀ b ∈ input, b < 256)
    (h20 : 20 ≤ input.length) (h70 : input.length < 70) :
    inflate (deflate_bytes input) = some input := by
  have hbt : block_type_for_length input.length = BType.FixedHuffman := by
    rw [block_type_for_length, if_neg (by omega), if_pos (by omega)]
  obtain ⟨Δ, hbuf2, hgood, hend⟩ := lz77_compress_block_good input
    (LZ77State.new input) DynamicWriter.new (Nat.zero_le _)
  rw [show DynamicWriter.new.buffer = [] from rfl, List.nil_append] at hbuf2
  have hcovΔ := good_records_covered_fixed input hbytes Δ 0 hgood
  have hposN : records_end 0 Δ = input.length := by
    have h1 := lz77_compress_block_complete input (LZ77State.new input)
      DynamicWriter.new
    have h2 := records_end_le input Δ 0 hgood (Nat.zero_le _)
    have hp0 : (LZ77State.new input).pos = 0 := rfl
    rw [hp0] at hend h1
    have hm : min (0 + WINDOW_SIZE) input.length = input.length := by
      have hw : WINDOW_SIZE = 32768 := rfl
      omega
    rw [hm] at h1
    omega
  have hres : (compress_data_dynamic input NoChecksum ()).1 =
      ((lz77_compress_block input (LZ77State.new input)
        DynamicWriter.new).2.get_buffer.foldl
        (fun st ld => st.write_ldpair ld)
        (((EncoderState.new HuffmanTable.empty).update_huffman_table
          FIXED_CODE_LENGTHS FIXED_CODE_LENGTHS_DISTANCE).write_start_of_block
          true true)).flush := by
    simp only [compress_data_dynamic]
    rw [hbt]
  have hB : ((lz77_compress_block input (LZ77State.new input)
      DynamicWriter.new).2.get_buffer.foldl
      (fun st ld => st.write_ldpair ld)
      (((EncoderState.new HuffmanTable.empty).update_huffman_table
        FIXED_CODE_LENGTHS FIXED_CODE_LENGTHS_DISTANCE).write_start_of_block
        true true)).bits =
      true :: (natBitsLSB 1 2 ++
        (Δ.flatMap (ldpair_bits
          ⟨FIXED_CODE_LENGTHS, FIXED_CODE_LENGTHS_DISTANCE⟩) ++
          code_bits FIXED_CODE_LENGTHS 256)) := by
    rw [foldl_write_ldpair_eq]
    show (true :: natBitsLSB 1 2) ++
        (lz77_compress_block input (LZ77State.new input)
          DynamicWriter.new).2.buffer.flatMap
          (ldpair_bits ⟨FIXED_CODE_LENGTHS, FIXED_CODE_LENGTHS_DISTANCE⟩) = _
    rw [hbuf2, List.flatMap_append, List.flatMap_cons, List.flatMap_nil,
      ldpair_bits_eob, List.append_nil, List.cons_append]
  have hlen8 : (compress_data_dynamic input NoChecksum ()).1.bits.length % 8 =
      0 := by
    rw [hres]
    exact flush_len8 _
  have hdef : deflate_bytes input =
      bitsToBytes (compress_data_dynamic input NoChecksum ()).1.bits := rfl
  rw [hdef, inflate, bytesBits_bitsToBytes _ hlen8]
  rw [hres, flush_bits, hB]
  simp only [List.cons_append, List.append_assoc, List.append_nil]
  rw [inflate_blocks_succ]
  dsimp only
  rw [readBitsLSB_append 2 1 _ (by omega)]
  dsimp only
  rw [if_neg (by omega), if_pos rfl]
  have hsyms := inflate_syms_records input FIXED_CODE_LENGTHS
    FIXED_CODE_LENGTHS_DISTANCE fixed_l_valid fixed_d_valid hbytes fixed_cov256
    Δ 0
    (List.replicate ((8 - (true :: (natBitsLSB 1 2 ++
      (Δ.flatMap (ldpair_bits
        ⟨FIXED_CODE_LENGTHS, FIXED_CODE_LENGTHS_DISTANCE⟩) ++
        code_bits FIXED_CODE_LENGTHS 256))).length % 8) % 8) false)
    ((Δ.flatMap (ldpair_bits
      ⟨FIXED_CODE_LENGTHS, FIXED_CODE_LENGTHS_DISTANCE⟩) ++
      (code_bits FIXED_CODE_LENGTHS 256 ++
        List.replicate ((8 - (true :: (natBitsLSB 1 2 ++
          (Δ.flatMap (ldpair_bits
            ⟨FIXED_CODE_LENGTHS, FIXED_CODE_LENGTHS_DISTANCE⟩) ++
            code_bits FIXED_CODE_LENGTHS 256))).length % 8) % 8) false)).length
      + 1)
    (Nat.zero_le _) hgood hcovΔ
    (by
      have h1 := recs_length_le FIXED_CODE_LENGTHS
        FIXED_CODE_LENGTHS_DISTANCE Δ hcovΔ
      rw [List.length_append]
      omega)
  rw [List.take_zero, List.append_assoc] at hsyms
  rw [hsyms]
  dsimp only
  rw [if_pos rfl, hposN, List.take_length]

theorem natBitsLSB_split16 (v : Nat) :
    natBitsLSB v 16 = natBitsLSB (v % 256) 8 ++ natBitsLSB (v / 256) 8 := by
  have h := natBitsLSB_split v 8 8
  norm_num at h
  exact h

theorem natBitsLSB_split16_assoc (v : Nat) (tail : List Bool) :
    natBitsLSB (v % 256) 8 ++ (natBitsLSB (v / 256) 8 ++ tail) =
      natBitsLSB v 16 ++ tail := by
  rw [← List.append_assoc, ← natBitsLSB_split16]

/-- The bit image of one stored chunk: 16-bit LEN, 16-bit NLEN, then the raw
byte bits. -/
theorem bytesBits_stored_chunk (input : List Nat) (h : input.length ≤ 65535) :
    bytesBits (stored_chunk input) =
      natBitsLSB input.length 16 ++
        (natBitsLSB (65535 - input.length) 16 ++ bytesBits input) := by
  have hdiv : input.length / 256 % 256 = input.length / 256 :=
    Nat.mod_eq_of_lt (Nat.div_lt_of_lt_mul (by omega))
  have hdiv2 : (65535 - input.length) / 256 % 256 = (65535 - input.length) / 256 :=
    Nat.mod_eq_of_lt (Nat.div_lt_of_lt_mul (by omega))
  show bytesBits ([input.length % 256, input.length / 256 % 256,
    (65535 - input.length) % 256, (65535 - input.length) / 256 % 256] ++ input) = _
  rw [bytesBits, List.flatMap_append]
  simp only [List.flatMap_cons, List.flatMap_nil, List.append_nil,
    List.append_assoc]
  rw [hdiv, hdiv2, natBitsLSB_split16_assoc, natBitsLSB_split16_assoc]
  rfl

/-- Decoding one final stored block: the reference decoder skips the
padding to the byte boundary, reads LEN and NLEN, checks them, and copies
the raw bytes. -/
theorem inflate_stored_final (orig fuel : Nat) (input out : List Nat)
    (rest : List Bool) (hbytes : ∀ b ∈ input, b < 256)
    (hlen : input.length ≤ 65535)
    (halign : (8 - (orig - (List.replicate 5 (false : Bool) ++
      (bytesBits (stored_chunk input) ++ rest)).length) % 8) % 8 = 5) :
    inflate_blocks orig (true :: (natBitsLSB 0 2 ++ (List.replicate 5 false ++
      (bytesBits (stored_chunk input) ++ rest)))) out (fuel + 1) =
      some (out ++ input) := by
  rw [inflate_blocks_succ]
  dsimp only
  rw [readBitsLSB_append 2 0 _ (by omega)]
  dsimp only
  rw [if_pos rfl, halign]
  have hdrop : (List.replicate 5 (false : Bool) ++
      (bytesBits (stored_chunk input) ++ rest)).drop 5 =
      bytesBits (stored_chunk input) ++ rest :=
    List.drop_left' (by simp)
  rw [hdrop, bytesBits_stored_chunk input hlen, List.append_assoc,
    readBitsLSB_append 16 input.length _ (by omega)]
  dsimp only
  rw [List.append_assoc, readBitsLSB_append 16 (65535 - input.length) _ (by omega)]
  dsimp only
  rw [if_pos rfl, read_bytes_append input rest hbytes]
  dsimp only
  rw [if_pos rfl]

/-- On inputs shorter than 20 bytes the driver emits one final stored block,
and the reference decoder recovers the input. -/
theorem inflate_stored_path (input : List Nat) (hbytes : ∀ b ∈ input, b < 256)
    (h20 : input.length < 20) :
    inflate (deflate_bytes input) = some input := by
  have hbt : block_type_for_length input.length = BType.NoCompression := by
    rw [block_type_for_length, if_pos (by omega)]
  have hstored : compress_block_stored input = stored_chunk input := by
    rw [compress_block_stored, compress_block_stored_go, if_pos (by omega)]
  have hres : (compress_data_dynamic input NoChecksum ()).1 =
      ({ (EncoderState.new HuffmanTable.empty).write_bits
            STORED_FIRST_BYTE_FINAL 3 with
          headers := ((EncoderState.new HuffmanTable.empty).write_bits
            STORED_FIRST_BYTE_FINAL 3).headers ++
            [(true, BType.NoCompression)] }.flush.write_bytes
        (compress_block_stored input)).flush := by
    simp only [compress_data_dynamic]
    rw [hbt]
  have hlen8 : (compress_data_dynamic input NoChecksum ()).1.bits.length % 8 =
      0 := by
    rw [hres]
    exact flush_len8 _
  have hpre : ({ (EncoderState.new HuffmanTable.empty).write_bits
        STORED_FIRST_BYTE_FINAL 3 with
      headers := ((EncoderState.new HuffmanTable.empty).write_bits
        STORED_FIRST_BYTE_FINAL 3).headers ++
        [(true, BType.NoCompression)] }.flush.write_bytes
      (compress_block_stored input)).bits =
      true :: (natBitsLSB 0 2 ++ (List.replicate 5 false ++
        bytesBits (stored_chunk input))) := by
    simp only [EncoderState.write_bytes, EncoderState.flush,
      EncoderState.write_bits]
    rw [hstored]
    simp only [List.nil_append, natBitsLSB_length,
      show (EncoderState.new HuffmanTable.empty).bits = [] from rfl,
      show STORED_FIRST_BYTE_FINAL = 1 from rfl]
    rw [show (8 - 3 % 8) % 8 = 5 from by norm_num]
    simp only [List.append_assoc, List.cons_append,
      show natBitsLSB 1 3 = true :: natBitsLSB 0 2 from rfl]
  obtain ⟨pad, hbits⟩ : ∃ pad,
      (compress_data_dynamic input NoChecksum ()).1.bits =
      true :: (natBitsLSB 0 2 ++ (List.replicate 5 false ++
        (bytesBits (stored_chunk input) ++ List.replicate pad false))) := by
    refine ⟨(8 - ({ (EncoderState.new HuffmanTable.empty).write_bits
          STORED_FIRST_BYTE_FINAL 3 with
        headers := ((EncoderState.new HuffmanTable.empty).write_bits
          STORED_FIRST_BYTE_FINAL 3).headers ++
          [(true, BType.NoCompression)] }.flush.write_bytes
        (compress_block_stored input)).bits.length % 8) % 8, ?_⟩
    rw [hres, flush_bits, hpre]
    simp only [List.cons_append, List.append_assoc]
  have hdef : deflate_bytes input =
      bitsToBytes (compress_data_dynamic input NoChecksum ()).1.bits := rfl
  have horig : 8 * (bitsToBytes
      (compress_data_dynamic input NoChecksum ()).1.bits).length =
      (compress_data_dynamic input NoChecksum ()).1.bits.length := by
    have h1 := bytesBits_length
      (bitsToBytes (compress_data_dynamic input NoChecksum ()).1.bits)
    rw [bytesBits_bitsToBytes _ hlen8] at h1
    omega
  rw [hdef, inflate, bytesBits_bitsToBytes _ hlen8, hbits]
  rw [hbits] at horig
  have halign : (8 - (8 * (bitsToBytes (true :: (natBitsLSB 0 2 ++
      (List.replicate 5 false ++ (bytesBits (stored_chunk input) ++
        List.replicate pad false))))).length -
      (List.replicate 5 (false : Bool) ++ (bytesBits (stored_chunk input) ++
        List.replicate pad false)).length) % 8) % 8 = 5 := by
    rw [horig]
    simp only [List.length_cons, List.length_append, natBitsLSB_length]
    omega
  rw [inflate_stored_final _ _ input [] _ hbytes (by omega) halign,
    List.nil_append]

/-- Unwrapping the zlib envelope (drop the two header bytes, drop the four
trailer bytes) recovers exactly the raw DEFLATE stream. -/
theorem zlib_body_slice (s : List Nat) :
    ((deflate_bytes_zlib s).drop 2).take ((deflate_bytes_zlib s).length - 6) =
      deflate_bytes s := by
  rw [deflate_bytes_zlib_eq, List.append_assoc]
  have h1 : (write_zlib_header CompressionLevel.Default ++
      (deflate_bytes s ++ u32_be (adler32 s))).drop 2 =
      deflate_bytes s ++ u32_be (adler32 s) :=
    List.drop_left' (by rfl)
  have h2 : (write_zlib_header CompressionLevel.Default ++
      (deflate_bytes s ++ u32_be (adler32 s))).length - 6 =
      (deflate_bytes s).length := by
    simp only [List.length_append,
      show (write_zlib_header CompressionLevel.Default).length = 2 from rfl,
      show (u32_be (adler32 s)).length = 4 from rfl]
    omega
  rw [h1, h2, List.take_left]

/-- C1: round-trip — for every byte sequence `s` the reference DEFLATE
decoder recovers `s` from `deflate_bytes s`, and also from the body of
`deflate_bytes_zlib s` once the two-byte zlib header and four-byte Adler-32
trailer are stripped. -/
theorem claim_C1_roundtrip (s : List Nat) (hbytes : ∀ b ∈ s, b < 256) :
    inflate (deflate_bytes s) = some s ∧
    inflate (((deflate_bytes_zlib s).drop 2).take
      ((deflate_bytes_zlib s).length - 6)) = some s := by
  have hmain : inflate (deflate_bytes s) = some s := by
    by_cases h1 : s.length < 20
    · exact inflate_stored_path s hbytes h1
    · by_cases h2 : s.length < 70
      · exact inflate_fixed_path s hbytes (by omega) h2
      · exact inflate_dynamic_path s hbytes (by omega)
  exact ⟨hmain, by rw [zlib_body_slice]; exact hmain⟩

theorem claim_C1_roundtrip_witness :
    (∀ b ∈ [10, 20, 30], b < 256) ∧
    (inflate (deflate_bytes [10, 20, 30]) = some [10, 20, 30] ∧
     inflate (((deflate_bytes_zlib [10, 20, 30]).drop 2).take
       ((deflate_bytes_zlib [10, 20, 30]).length - 6)) = some [10, 20, 30]) :=
  ⟨by decide, claim_C1_roundtrip [10, 20, 30] (by decide)⟩

end Deflate
